import Mathlib

/-!
# Verification of the `sort-package-json` canonicalization core

This file gives a shallow embedding, in Lean 4, of the canonicalization engine
in `src/lib.rs` of the `sort-package-json` repository, and proves (or refutes)
the testable properties stated in the repository's specification.

Embedding conventions:

* `serde_json::Value` becomes the inductive `JValue`.  The `Map<String, Value>`
  of `serde_json` is used with insertion-order preservation (the spec's
  "ordered mapping ... insertion order significant for output"), so it is
  embedded as an association list `JMap = List (String × JValue)`; its
  `insert`/`get`/`contains_key` operations become `mapInsert`/`mapGet`/
  `mapContains` below, with the `IndexMap` semantics (insert replaces the value
  in place when the key is present, otherwise appends).
* JSON numbers are embedded as `Int`.  The specification says nothing about
  the number grammar, and no transform in the engine inspects numbers; floats
  are out of scope of this development.
* Rust's `Vec::sort` / `sort_by` / `sort_by_key` are stable sorts under a total
  preorder; they are embedded as the stable insertion sort `sortByLe`.
  Rust compares `String`s by byte-wise lexicographic order, which on UTF-8
  data coincides with code-point lexicographic order; this is `charsLt` /
  `strLe` below.
* `Vec::dedup` (remove consecutive duplicates, keeping the first of each run)
  is embedded as `dedupAdj`.
* The JSON parser and the pretty serializer of `serde_json` are external
  library code, not part of this repository; they are modelled from the spec
  further down in this file (see `parseJson` and `renderPretty`).
-/

namespace SortPackageJson

/-! ## String comparison (Rust `Ord` for `String`: byte-lexicographic) -/

/-- Lexicographic strict order on character lists by code point.  On UTF-8
data, byte-wise order (Rust's `Ord for String`) coincides with code-point
order, so this is the comparison used by every `sort()` on keys in the
source. -/
def charsLt : List Char → List Char → Bool
  | [], [] => false
  | [], _ :: _ => true
  | _ :: _, [] => false
  | a :: as, b :: bs =>
    if a.toNat < b.toNat then true
    else if b.toNat < a.toNat then false
    else charsLt as bs

/-- Strict order on strings, as Rust's `Ord::cmp` (`Ordering::Less`). -/
def strLt (a b : String) : Bool := charsLt a.data b.data

/-- Non-strict order on strings (total, used as the sorting predicate). -/
def strLe (a b : String) : Bool := !(charsLt b.data a.data)

/-- `p` is a prefix of `s` (character lists); Rust `str::starts_with`. -/
def listStartsWith : List Char → List Char → Bool
  | _, [] => true
  | [], _ :: _ => false
  | c :: cs, d :: ds => c == d && listStartsWith cs ds

/-- Rust `str::starts_with` with a string pattern. -/
def strStartsWith (s pat : String) : Bool := listStartsWith s.data pat.data

/-- Rust `str::starts_with` with a single-character pattern. -/
def strStartsWithChar (s : String) (c : Char) : Bool :=
  match s.data with
  | [] => false
  | d :: _ => d == c

/-! ## Stable sorting (Rust `Vec::sort` / `sort_by` / `sort_by_key`) -/

/-- Insert `x` into `l` before the first element `y` with `le x y`. -/
def insertSorted (le : α → α → Bool) (x : α) : List α → List α
  | [] => [x]
  | y :: ys => if le x y then x :: y :: ys else y :: insertSorted le x ys

/-- Stable insertion sort; the embedding of Rust's stable `Vec::sort`. -/
def sortByLe (le : α → α → Bool) : List α → List α
  | [] => []
  | x :: xs => insertSorted le x (sortByLe le xs)

/-- Tail of `dedupAdj`: drop elements equal to the previous kept element. -/
def dedupAdjGo [BEq α] (prev : α) : List α → List α
  | [] => []
  | y :: rest => if prev == y then dedupAdjGo prev rest else y :: dedupAdjGo y rest

/-- Rust `Vec::dedup`: remove consecutive duplicates, keeping the first of
each run of equal elements. -/
def dedupAdj [BEq α] : List α → List α
  | [] => []
  | x :: rest => x :: dedupAdjGo x rest

/-! ## JSON values (`serde_json::Value` with the insertion-ordered `Map`) -/

/-- `serde_json::Value`.  Objects are insertion-ordered association lists. -/
inductive JValue where
  | null
  | bool (b : Bool)
  | num (n : Int)
  | str (s : String)
  | arr (elems : List JValue)
  | obj (entries : List (String × JValue))
deriving Repr, Inhabited

/-- `serde_json::Map<String, Value>` (insertion-ordered). -/
abbrev JMap := List (String × JValue)

mutual

/-- Structural equality test on `JValue` (nested, so written by hand). -/
def beqV : JValue → JValue → Bool
  | .null, .null => true
  | .bool a, .bool b => a == b
  | .num a, .num b => a == b
  | .str a, .str b => a == b
  | .arr a, .arr b => beqVL a b
  | .obj a, .obj b => beqVM a b
  | _, _ => false

/-- Structural equality test on JSON value lists. -/
def beqVL : List JValue → List JValue → Bool
  | [], [] => true
  | a :: as, b :: bs => beqV a b && beqVL as bs
  | _, _ => false

/-- Structural equality test on JSON maps. -/
def beqVM : List (String × JValue) → List (String × JValue) → Bool
  | [], [] => true
  | (k1, v1) :: as, (k2, v2) :: bs => k1 == k2 && beqV v1 v2 && beqVM as bs
  | _, _ => false

end

mutual

theorem beqV_iff : ∀ a b : JValue, beqV a b = true ↔ a = b
  | .null, .null => by simp [beqV]
  | .null, .bool _ => by simp [beqV]
  | .null, .num _ => by simp [beqV]
  | .null, .str _ => by simp [beqV]
  | .null, .arr _ => by simp [beqV]
  | .null, .obj _ => by simp [beqV]
  | .bool _, .null => by simp [beqV]
  | .bool _, .bool _ => by simp [beqV]
  | .bool _, .num _ => by simp [beqV]
  | .bool _, .str _ => by simp [beqV]
  | .bool _, .arr _ => by simp [beqV]
  | .bool _, .obj _ => by simp [beqV]
  | .num _, .null => by simp [beqV]
  | .num _, .bool _ => by simp [beqV]
  | .num _, .num _ => by simp [beqV]
  | .num _, .str _ => by simp [beqV]
  | .num _, .arr _ => by simp [beqV]
  | .num _, .obj _ => by simp [beqV]
  | .str _, .null => by simp [beqV]
  | .str _, .bool _ => by simp [beqV]
  | .str _, .num _ => by simp [beqV]
  | .str _, .str _ => by simp [beqV]
  | .str _, .arr _ => by simp [beqV]
  | .str _, .obj _ => by simp [beqV]
  | .arr _, .null => by simp [beqV]
  | .arr _, .bool _ => by simp [beqV]
  | .arr _, .num _ => by simp [beqV]
  | .arr _, .str _ => by simp [beqV]
  | .arr a, .arr b => by simp [beqV, beqVL_iff a b]
  | .arr _, .obj _ => by simp [beqV]
  | .obj _, .null => by simp [beqV]
  | .obj _, .bool _ => by simp [beqV]
  | .obj _, .num _ => by simp [beqV]
  | .obj _, .str _ => by simp [beqV]
  | .obj _, .arr _ => by simp [beqV]
  | .obj a, .obj b => by simp [beqV, beqVM_iff a b]

theorem beqVL_iff : ∀ a b : List JValue, beqVL a b = true ↔ a = b
  | [], [] => by simp [beqVL]
  | [], _ :: _ => by simp [beqVL]
  | _ :: _, [] => by simp [beqVL]
  | a :: as, b :: bs => by simp [beqVL, beqV_iff a b, beqVL_iff as bs]

theorem beqVM_iff : ∀ a b : List (String × JValue), beqVM a b = true ↔ a = b
  | [], [] => by simp [beqVM]
  | [], _ :: _ => by simp [beqVM]
  | _ :: _, [] => by simp [beqVM]
  | (k1, v1) :: as, (k2, v2) :: bs => by
    simp [beqVM, beqV_iff v1 v2, beqVM_iff as bs, and_assoc]

end

instance : DecidableEq JValue := fun a b =>
  decidable_of_iff (beqV a b = true) (beqV_iff a b)

/-! ## Map operations (`serde_json::Map`, insertion-ordered) -/

/-- `Map::contains_key`. -/
def mapContains (m : JMap) (k : String) : Bool := m.any (fun p => p.1 == k)

/-- `Map::get`: the value of the (first, and in a real map only) entry
with key `k`. -/
def mapGet (m : JMap) (k : String) : Option JValue :=
  (m.find? (fun p => p.1 == k)).map (fun p => p.2)

/-- `Map::insert` with `IndexMap` semantics: replace the value in place when
the key is present, otherwise append a new entry at the end. -/
def mapInsert (m : JMap) (k : String) (v : JValue) : JMap :=
  if mapContains m k then m.map (fun p => if p.1 == k then (p.1, v) else p)
  else m ++ [(k, v)]

/-- The keys of a map, in entry order (`Map::keys`). -/
def mapKeys (m : JMap) : List String := m.map (fun p => p.1)

/-! ## The source's transform functions (`src/lib.rs`) -/

/-- `sort_object_alphabetically` (lib.rs:14): collect the keys, sort them,
and rebuild the map in sorted key order, one level only. -/
def sort_object_alphabetically (obj : JMap) : JMap :=
  let keys := sortByLe strLe (mapKeys obj)
  keys.foldl (fun result key =>
    match mapGet obj key with
    | some value => mapInsert result key value
    | none => result) []

/-- `sort_array_unique` (lib.rs:44): keep only the string elements, sort
them, remove duplicates, and return just those strings.  (Non-string
elements are dropped by this function as written.) -/
def sort_array_unique (arr : List JValue) : List JValue :=
  let strings := arr.filterMap (fun v =>
    match v with
    | .str s => some s
    | _ => none)
  let strings := sortByLe strLe strings
  let strings := dedupAdj strings
  strings.map JValue.str

/-- `sort_object_by_key_order` (lib.rs:54): emit the keys listed in
`key_order` first, in that order, when present; then the remaining keys
alphabetically. -/
def sort_object_by_key_order (obj : JMap) (key_order : List String) : JMap :=
  let result : JMap := key_order.foldl (fun result key =>
    match mapGet obj key with
    | some value => mapInsert result key value
    | none => result) []
  let remaining := sortByLe strLe ((mapKeys obj).filter (fun k => !(key_order.contains k)))
  remaining.foldl (fun result key =>
    match mapGet obj key with
    | some value => mapInsert result key value
    | none => result) result

/-- `sort_people_object` (lib.rs:78). -/
def sort_people_object (obj : JMap) : JMap :=
  sort_object_by_key_order obj ["name", "email", "url"]

/-- The key-sorted rebuild step of `sort_object_recursive` (lib.rs:27-42):
sort the keys and re-insert every entry in sorted key order.  Separated from
the recursion so that the recursion is structural; the recursion into nested
object values (which the source performs while rebuilding) is applied by
`sortEntriesRecursive` before this rebuild, which copies values unchanged. -/
def rebuildSortedByKey (m : JMap) : JMap :=
  let keys := sortByLe strLe (mapKeys m)
  keys.foldl (fun result key =>
    match mapGet m key with
    | some value => mapInsert result key value
    | none => result) []

mutual

/-- The per-value step of `sort_object_recursive` (lib.rs:34-37): recurse
into object values, leave every other value unchanged. -/
def sortValueRecursive : JValue → JValue
  | .obj entries => .obj (rebuildSortedByKey (sortEntriesRecursive entries))
  | v => v
termination_by structural v => v

/-- Apply `sortValueRecursive` to every value of a map, keys unchanged. -/
def sortEntriesRecursive : JMap → JMap
  | [] => []
  | (k, v) :: rest => (k, sortValueRecursive v) :: sortEntriesRecursive rest
termination_by structural m => m

end

/-- `sort_object_recursive` (lib.rs:27): reorder entries by key ascending and
recurse into entries whose value is itself an object. -/
def sort_object_recursive (obj : JMap) : JMap :=
  rebuildSortedByKey (sortEntriesRecursive obj)

/-- A path condition key of `sort_exports`: starts with `.` (lib.rs:89). -/
def isPathKey (k : String) : Bool := strStartsWithChar k '.'

/-- The `default` condition key of `sort_exports` (lib.rs:91). -/
def isDefaultKey (k : String) : Bool := k == "default"

/-- A `types` condition key of `sort_exports`: `types` or `types@...`
(lib.rs:93). -/
def isTypesKey (k : String) : Bool := k == "types" || strStartsWith k "types@"

/-- One iteration of the classification pass of `sort_exports`
(lib.rs:88-98): push the key into the path / `default` / `types` / other
group; for `default` the source keeps the (key, value) pair in an `Option`,
later occurrences replacing earlier ones. -/
def classifyExportsStep
    (acc : List String × List String × List String × Option (String × JValue))
    (p : String × JValue) :
    List String × List String × List String × Option (String × JValue) :=
  let (paths, types_conds, other_conds, default_cond) := acc
  let (key, value) := p
  if isPathKey key then
    (paths ++ [key], types_conds, other_conds, default_cond)
  else if isDefaultKey key then
    (paths, types_conds, other_conds, some (key, value))
  else if isTypesKey key then
    (paths, types_conds ++ [key], other_conds, default_cond)
  else
    (paths, types_conds, other_conds ++ [key], default_cond)

/-- The classification pass of `sort_exports` (lib.rs:88-98). -/
def classifyExports (obj : JMap) :
    List String × List String × List String × Option (String × JValue) :=
  obj.foldl classifyExportsStep ([], [], [], none)

/-- The path-condition keys of an exports object, in entry order. -/
def pathsOf (obj : JMap) : List String :=
  (obj.filter (fun p => isPathKey p.1)).map (fun p => p.1)

/-- The `types`-condition keys of an exports object, in entry order. -/
def typesOf (obj : JMap) : List String :=
  (obj.filter (fun p => !isPathKey p.1 && !isDefaultKey p.1 && isTypesKey p.1)).map
    (fun p => p.1)

/-- The other-condition keys of an exports object, in entry order. -/
def othersOf (obj : JMap) : List String :=
  (obj.filter (fun p => !isPathKey p.1 && !isDefaultKey p.1 && !isTypesKey p.1)).map
    (fun p => p.1)

/-- The last `default` entry of an exports object, if any. -/
def defaultLastOf : JMap → Option (String × JValue)
  | [] => none
  | (k, v) :: rest =>
    (defaultLastOf rest).or (if !isPathKey k && isDefaultKey k then some (k, v) else none)

/-- The group-ordered rebuild of `sort_exports` (lib.rs:100-134): sort each
group of keys and re-insert path entries, then `types` entries, then other
entries, then the `default` entry.  The recursion into path-entry object
values (which the source performs while rebuilding the path group) is applied
by `sortExportsPathEntries` before this rebuild, which copies values
unchanged. -/
def rebuildExports (obj : JMap) : JMap :=
  let (paths, types_conds, other_conds, default_cond) := classifyExports obj
  let paths := sortByLe strLe paths
  let types_conds := sortByLe strLe types_conds
  let other_conds := sortByLe strLe other_conds
  let result : JMap := paths.foldl (fun result key =>
    match mapGet obj key with
    | some value => mapInsert result key value
    | none => result) []
  let result := types_conds.foldl (fun result key =>
    match mapGet obj key with
    | some value => mapInsert result key value
    | none => result) result
  let result := other_conds.foldl (fun result key =>
    match mapGet obj key with
    | some value => mapInsert result key value
    | none => result) result
  match default_cond with
  | some (key, value) => mapInsert result key value
  | none => result

mutual

/-- The per-value recursion of the path group of `sort_exports`
(lib.rs:110-113): recurse into object values, leave others unchanged. -/
def sortExportsValue : JValue → JValue
  | .obj nested => .obj (rebuildExports (sortExportsPathEntries nested))
  | v => v
termination_by structural v => v

/-- Apply the `sort_exports` recursion to the values of path-condition
entries (keys starting with `.`); every other entry is left unchanged, as in
the source, where only the path-group loop transforms values. -/
def sortExportsPathEntries : JMap → JMap
  | [] => []
  | (k, v) :: rest =>
    (k, if isPathKey k then sortExportsValue v else v) ::
      sortExportsPathEntries rest
termination_by structural m => m

end

/-- `sort_exports` (lib.rs:82): classify the entries into path / `types` /
other / `default` groups, sort each group, emit the groups in that fixed
order, and recurse into path-condition entries whose value is an object. -/
def sort_exports (obj : JMap) : JMap :=
  rebuildExports (sortExportsPathEntries obj)

/-! ## The field schema (the match arms of `sort_object_keys`, lib.rs:145-557)

The source dispatches on the key with one match arm per recognized field;
each arm records the field's priority index and applies the field's value
transform.  The embedding lists the arms as a table `fieldSchema` (key ↦
priority and transform tag) interpreted by `applyFieldTransform`; the arms
appear in source order with the source's indices. -/

/-- The transform tags occurring in the arms of `sort_object_keys`. -/
inductive FieldTransform where
  | keep
  | alphabetical
  | recursiveSort
  | uniqueArray
  | keyOrder (order : List String)
  | people
  | peopleArray
  | exportsSort
deriving Repr, DecidableEq

/- The field table of `sort_object_keys`: one row per match arm of the
source (lib.rs:146-548), in source order: field name, priority index, and
transform tag.  The names are pairwise distinct (each is a distinct match
arm), so looking a key up with `find?` is exactly the source's match.
The table is written in chunks to keep elaboration cheap. -/

/-- Rows 0-15 of the field table. -/
def schemaRows0 : List (String × Nat × FieldTransform) := [
  ("$schema", 0, .keep),
  ("name", 1, .keep),
  ("displayName", 2, .keep),
  ("version", 3, .keep),
  ("stableVersion", 4, .keep),
  ("private", 5, .keep),
  ("description", 6, .keep),
  ("categories", 7, .uniqueArray),
  ("keywords", 8, .uniqueArray),
  ("homepage", 9, .keep),
  ("bugs", 10, .keyOrder ["url", "email"]),
  ("repository", 11, .keyOrder ["type", "url"]),
  ("funding", 12, .keyOrder ["type", "url"]),
  ("license", 13, .keep),
  ("qna", 14, .keep),
  ("author", 15, .people)]

/-- Rows 16-31 of the field table. -/
def schemaRows1 : List (String × Nat × FieldTransform) := [
  ("maintainers", 16, .peopleArray),
  ("contributors", 17, .peopleArray),
  ("publisher", 18, .keep),
  ("sideEffects", 19, .keep),
  ("type", 20, .keep),
  ("imports", 21, .keep),
  ("exports", 22, .exportsSort),
  ("main", 23, .keep),
  ("svelte", 24, .keep),
  ("umd:main", 25, .keep),
  ("jsdelivr", 26, .keep),
  ("unpkg", 27, .keep),
  ("module", 28, .keep),
  ("source", 29, .keep),
  ("jsnext:main", 30, .keep),
  ("browser", 31, .keep)]

/-- Rows 32-47 of the field table. -/
def schemaRows2 : List (String × Nat × FieldTransform) := [
  ("react-native", 32, .keep),
  ("types", 33, .keep),
  ("typesVersions", 34, .keep),
  ("typings", 35, .keep),
  ("style", 36, .keep),
  ("example", 37, .keep),
  ("examplestyle", 38, .keep),
  ("assets", 39, .keep),
  ("bin", 40, .alphabetical),
  ("man", 41, .keep),
  ("directories", 42, .keyOrder ["lib", "bin", "man", "doc", "example", "test"]),
  ("files", 43, .uniqueArray),
  ("workspaces", 44, .keep),
  ("binary", 45, .keyOrder ["module_name", "module_path", "remote_path", "package_name", "host"]),
  ("scripts", 46, .keep),
  ("betterScripts", 47, .keep)]

/-- Rows 48-63 of the field table. -/
def schemaRows3 : List (String × Nat × FieldTransform) := [
  ("l10n", 48, .keep),
  ("contributes", 49, .keep),
  ("activationEvents", 50, .uniqueArray),
  ("husky", 51, .recursiveSort),
  ("simple-git-hooks", 52, .keep),
  ("pre-commit", 53, .keep),
  ("commitlint", 54, .recursiveSort),
  ("lint-staged", 55, .keep),
  ("nano-staged", 56, .keep),
  ("config", 57, .alphabetical),
  ("nodemonConfig", 58, .recursiveSort),
  ("browserify", 59, .recursiveSort),
  ("babel", 60, .recursiveSort),
  ("browserslist", 61, .keep),
  ("xo", 62, .recursiveSort),
  ("prettier", 63, .recursiveSort)]

/-- Rows 64-79 of the field table. -/
def schemaRows4 : List (String × Nat × FieldTransform) := [
  ("eslintConfig", 64, .recursiveSort),
  ("eslintIgnore", 65, .keep),
  ("npmpkgjsonlint", 66, .keep),
  ("npmPackageJsonLintConfig", 67, .keep),
  ("npmpackagejsonlint", 68, .keep),
  ("release", 69, .keep),
  ("remarkConfig", 70, .recursiveSort),
  ("stylelint", 71, .recursiveSort),
  ("ava", 72, .recursiveSort),
  ("jest", 73, .recursiveSort),
  ("jest-junit", 74, .keep),
  ("jest-stare", 75, .keep),
  ("mocha", 76, .recursiveSort),
  ("nyc", 77, .recursiveSort),
  ("c8", 78, .recursiveSort),
  ("tap", 79, .keep)]

/-- Rows 80-95 of the field table. -/
def schemaRows5 : List (String × Nat × FieldTransform) := [
  ("oclif", 80, .recursiveSort),
  ("resolutions", 81, .alphabetical),
  ("overrides", 82, .alphabetical),
  ("dependencies", 83, .alphabetical),
  ("devDependencies", 84, .alphabetical),
  ("dependenciesMeta", 85, .keep),
  ("peerDependencies", 86, .alphabetical),
  ("peerDependenciesMeta", 87, .keep),
  ("optionalDependencies", 88, .alphabetical),
  ("bundledDependencies", 89, .uniqueArray),
  ("bundleDependencies", 90, .uniqueArray),
  ("extensionPack", 91, .uniqueArray),
  ("extensionDependencies", 92, .uniqueArray),
  ("flat", 93, .keep),
  ("packageManager", 94, .keep),
  ("engines", 95, .alphabetical)]

/-- Rows 96-108 of the field table. -/
def schemaRows6 : List (String × Nat × FieldTransform) := [
  ("engineStrict", 96, .keep),
  ("volta", 97, .recursiveSort),
  ("languageName", 98, .keep),
  ("os", 99, .keep),
  ("cpu", 100, .keep),
  ("preferGlobal", 101, .keep),
  ("publishConfig", 102, .alphabetical),
  ("icon", 103, .keep),
  ("badges", 104, .keep),
  ("galleryBanner", 105, .keep),
  ("preview", 106, .keep),
  ("markdown", 107, .keep),
  ("pnpm", 108, .keep)]

/-- The full field table: the match arms of lib.rs:146-548 in source
order. -/
def schemaTable : List (String × Nat × FieldTransform) :=
  schemaRows0 ++ schemaRows1 ++ schemaRows2 ++ schemaRows3 ++ schemaRows4 ++ schemaRows5 ++ schemaRows6


/-- Schema lookup: the match of `sort_object_keys` on a key, as a table
lookup. -/
def fieldSchema (key : String) : Option (Nat × FieldTransform) :=
  (schemaTable.find? (fun e => e.1 == key)).map (fun e => e.2)

/-- The per-arm value transform of `sort_object_keys`: each arm matches on
the value's runtime shape and falls back to the unchanged value when the
shape does not fit (the repeated `match &value { ... _ => value }` pattern
of the source). -/
def applyFieldTransform : FieldTransform → JValue → JValue
  | .keep, value => value
  | .alphabetical, value =>
    match value with
    | .obj o => .obj (sort_object_alphabetically o)
    | _ => value
  | .recursiveSort, value =>
    match value with
    | .obj o => .obj (sort_object_recursive o)
    | _ => value
  | .uniqueArray, value =>
    match value with
    | .arr a => .arr (sort_array_unique a)
    | _ => value
  | .keyOrder order, value =>
    match value with
    | .obj o => .obj (sort_object_by_key_order o order)
    | _ => value
  | .people, value =>
    match value with
    | .obj o => .obj (sort_people_object o)
    | _ => value
  | .peopleArray, value =>
    match value with
    | .arr a => .arr (a.map (fun v =>
        match v with
        | .obj o => .obj (sort_people_object o)
        | _ => v))
    | _ => value
  | .exportsSort, value =>
    match value with
    | .obj o => .obj (sort_exports o)
    | _ => value

/-- The runtime shape each transform tag expects: the object transforms
fire only on object values, the array transforms only on array values, and
`keep` has no shape requirement (every value fits).  This is the condition
of the `match &value` in each arm of the source. -/
def transformShapeMatches : FieldTransform → JValue → Bool
  | .keep, _ => true
  | .alphabetical, v | .recursiveSort, v | .keyOrder _, v | .people, v | .exportsSort, v =>
    match v with
    | .obj _ => true
    | _ => false
  | .uniqueArray, v | .peopleArray, v =>
    match v with
    | .arr _ => true
    | _ => false

/-- One iteration of the classification pass of `sort_object_keys`
(lib.rs:144-558): push the entry into the `known` bucket (with its priority
index and transformed value), the `non_private` bucket, or the `private`
bucket. -/
def classifyStep
    (acc : List (Nat × String × JValue) × List (String × JValue) × List (String × JValue))
    (p : String × JValue) :
    List (Nat × String × JValue) × List (String × JValue) × List (String × JValue) :=
  let (known, non_private, priv) := acc
  let (key, value) := p
  match fieldSchema key with
  | some (index, t) => (known ++ [(index, key, applyFieldTransform t value)], non_private, priv)
  | none =>
    if strStartsWithChar key '_' then (known, non_private, priv ++ [(key, value)])
    else (known, non_private ++ [(key, value)], priv)

/-- The single classification pass of `sort_object_keys` (lib.rs:144-558):
every entry, in entry order, goes to exactly one of the three buckets. -/
def classifyKeys (obj : JMap) :
    List (Nat × String × JValue) × List (String × JValue) × List (String × JValue) :=
  obj.foldl classifyStep ([], [], [])

/-- `sort_object_keys` (lib.rs:137): classify every key, sort the `known`
bucket by priority index, the other two buckets by key, and insert the three
buckets in order. -/
def sort_object_keys (obj : JMap) : JMap :=
  let (known, non_private, priv) := classifyKeys obj
  let known := sortByLe (fun a b => Nat.ble a.1 b.1) known
  let non_private := sortByLe (fun a b => strLe a.1 b.1) non_private
  let priv := sortByLe (fun a b => strLe a.1 b.1) priv
  let result : JMap := known.foldl (fun result p => mapInsert result p.2.1 p.2.2) []
  let result := non_private.foldl (fun result p => mapInsert result p.1 p.2) result
  priv.foldl (fun result p => mapInsert result p.1 p.2) result

/-! ## Bucket views of `sort_object_keys` (for the statements of theorems) -/

/-- The entries of `m` whose keys are listed in `ks`, in the order of `ks`
(skipping absent keys); the result of the source's rebuild loops. -/
def selectKeys (m : JMap) (ks : List String) : JMap :=
  ks.filterMap (fun k => (mapGet m k).map (fun v => (k, v)))

/-- The `known` bucket of `sort_object_keys`, in entry order. -/
def knownOf (m : JMap) : List (Nat × String × JValue) :=
  m.filterMap (fun p =>
    (fieldSchema p.1).map (fun it => (it.1, p.1, applyFieldTransform it.2 p.2)))

/-- The `non_private` bucket of `sort_object_keys`, in entry order. -/
def publicOf (m : JMap) : JMap :=
  m.filter (fun p => (fieldSchema p.1).isNone && !(strStartsWithChar p.1 '_'))

/-- The `private` bucket of `sort_object_keys`, in entry order. -/
def privateOf (m : JMap) : JMap :=
  m.filter (fun p => (fieldSchema p.1).isNone && strStartsWithChar p.1 '_')

/-! ## The modelled `serde_json` layer

`serde_json`'s parser and pretty serializer are external library code, not
part of this repository; the spec describes them as "parse to structured
value" with a single `ParseError` failure mode, and a pretty serializer
producing multi-line, two-space-indented JSON.

Modelled from the spec: `parseJson` below is a standard JSON parser
(whitespace per RFC 8259; strings with the usual escapes including
`\uXXXX` and surrogate pairs; objects with last-duplicate-wins,
first-position-kept insertion, as `serde_json` with its insertion-ordered
map) restricted to integer numerals (this development does not model
floating-point numbers, so texts containing fractional or exponent parts
are outside the modelled valid set).  `renderValue` is the pretty
serializer (two-space indent, `": "` separators, `"[]"`/`"{}"` for empty
containers, no trailing newline — `sort_package_json` appends one). -/

/-- JSON insignificant whitespace: space, tab, line feed, carriage return.
The byte-order marker `U+FEFF` is NOT whitespace; a leading one makes the
text unparseable, as with `serde_json::from_str`. -/
def isJsonWs (c : Char) : Bool :=
  c == ' ' || c == '\t' || c == '\n' || c == '\r'

/-- Drop leading JSON whitespace. -/
def skipWs : List Char → List Char
  | [] => []
  | c :: cs => if isJsonWs c then skipWs cs else c :: cs

/-- Decimal digit test (on code points, `0`-`9`). -/
def isDigitChar (c : Char) : Bool := 48 ≤ c.toNat && c.toNat ≤ 57

/-- Split off the longest leading run of decimal digits. -/
def takeDigits : List Char → List Char × List Char
  | [] => ([], [])
  | c :: cs =>
    if isDigitChar c then
      let (d, r) := takeDigits cs
      (c :: d, r)
    else ([], c :: cs)

/-- The numeric value of a digit string. -/
def digitsToNat (ds : List Char) : Nat :=
  ds.foldl (fun acc c => acc * 10 + (c.toNat - 48)) 0

/-- Parse a JSON non-negative integer numeral: at least one digit, no
leading zero unless the numeral is exactly `0`. -/
def parseNat (input : List Char) : Option (Nat × List Char) :=
  match takeDigits input with
  | ([], _) => none
  | (d :: ds, r) =>
    if d == '0' && !ds.isEmpty then none
    else some (digitsToNat (d :: ds), r)

/-- Parse a JSON integer numeral with optional leading minus sign. -/
def parseNumber : List Char → Option (Int × List Char)
  | '-' :: rest => (parseNat rest).map (fun pr => (-(pr.1 : Int), pr.2))
  | input => (parseNat input).map (fun pr => ((pr.1 : Int), pr.2))

/-- The numeric value of a hexadecimal digit. -/
def hexVal (c : Char) : Option Nat :=
  if 48 ≤ c.toNat && c.toNat ≤ 57 then some (c.toNat - 48)
  else if 97 ≤ c.toNat && c.toNat ≤ 102 then some (c.toNat - 87)
  else if 65 ≤ c.toNat && c.toNat ≤ 70 then some (c.toNat - 55)
  else none

/-- Parse the body of a JSON string after the opening quote, up to and
including the closing quote; returns the decoded characters and the rest
of the input.  Handles the named escapes, `\uXXXX`, and surrogate pairs;
rejects unescaped control characters and lone surrogates. -/
def parseStringBody : List Char → Option (List Char × List Char)
  | [] => none
  | '"' :: rest => some ([], rest)
  | '\\' :: 'u' :: h1 :: h2 :: h3 :: h4 :: rest =>
    (match hexVal h1, hexVal h2, hexVal h3, hexVal h4 with
    | some v1, some v2, some v3, some v4 =>
      let n := ((v1 * 16 + v2) * 16 + v3) * 16 + v4
      if 0xD800 ≤ n && n ≤ 0xDBFF then
        match rest with
        | '\\' :: 'u' :: g1 :: g2 :: g3 :: g4 :: rest2 =>
          (match hexVal g1, hexVal g2, hexVal g3, hexVal g4 with
          | some w1, some w2, some w3, some w4 =>
            let n2 := ((w1 * 16 + w2) * 16 + w3) * 16 + w4
            if 0xDC00 ≤ n2 && n2 ≤ 0xDFFF then
              (parseStringBody rest2).map (fun pr =>
                (Char.ofNat (0x10000 + (n - 0xD800) * 0x400 + (n2 - 0xDC00)) :: pr.1, pr.2))
            else none
          | _, _, _, _ => none)
        | _ => none
      else if 0xDC00 ≤ n && n ≤ 0xDFFF then none
      else (parseStringBody rest).map (fun pr => (Char.ofNat n :: pr.1, pr.2))
    | _, _, _, _ => none)
  | '\\' :: e :: rest =>
    (match e with
    | '"' => (parseStringBody rest).map (fun pr => ('"' :: pr.1, pr.2))
    | '\\' => (parseStringBody rest).map (fun pr => ('\\' :: pr.1, pr.2))
    | '/' => (parseStringBody rest).map (fun pr => ('/' :: pr.1, pr.2))
    | 'b' => (parseStringBody rest).map (fun pr => ('\x08' :: pr.1, pr.2))
    | 'f' => (parseStringBody rest).map (fun pr => ('\x0C' :: pr.1, pr.2))
    | 'n' => (parseStringBody rest).map (fun pr => ('\n' :: pr.1, pr.2))
    | 'r' => (parseStringBody rest).map (fun pr => ('\r' :: pr.1, pr.2))
    | 't' => (parseStringBody rest).map (fun pr => ('\t' :: pr.1, pr.2))
    | _ => none)
  | c :: rest =>
    if c.toNat < 0x20 then none
    else (parseStringBody rest).map (fun pr => (c :: pr.1, pr.2))

mutual

/-- Fueled recursive-descent JSON value parser.  The fuel only bounds the
container nesting walk; `parseJson` supplies enough for its input. -/
def parseValue : Nat → List Char → Option (JValue × List Char)
  | 0, _ => none
  | fuel + 1, input =>
    match skipWs input with
    | [] => none
    | 'n' :: 'u' :: 'l' :: 'l' :: rest => some (.null, rest)
    | 't' :: 'r' :: 'u' :: 'e' :: rest => some (.bool true, rest)
    | 'f' :: 'a' :: 'l' :: 's' :: 'e' :: rest => some (.bool false, rest)
    | '"' :: rest => (parseStringBody rest).map (fun pr => (.str (String.mk pr.1), pr.2))
    | '[' :: rest =>
      (match skipWs rest with
      | ']' :: rest2 => some (.arr [], rest2)
      | rest2 => parseElems fuel rest2 [])
    | '\x7b' :: rest =>
      (match skipWs rest with
      | '\x7d' :: rest2 => some (.obj [], rest2)
      | rest2 => parseMembers fuel rest2 [])
    | c :: rest =>
      if c == '-' || isDigitChar c then
        (parseNumber (c :: rest)).map (fun pr => (.num pr.1, pr.2))
      else none
termination_by structural fuel => fuel

/-- Parse the elements of a non-empty JSON array (after `[`). -/
def parseElems : Nat → List Char → List JValue → Option (JValue × List Char)
  | 0, _, _ => none
  | fuel + 1, input, acc =>
    match parseValue fuel input with
    | none => none
    | some (v, r) =>
      match skipWs r with
      | ',' :: r2 => parseElems fuel r2 (acc ++ [v])
      | ']' :: r2 => some (.arr (acc ++ [v]), r2)
      | _ => none
termination_by structural fuel _ _ => fuel

/-- Parse the members of a non-empty JSON object (after the opening
brace).  Duplicate keys follow `serde_json`'s insertion-ordered map:
the value is replaced, the first position kept (`mapInsert`). -/
def parseMembers : Nat → List Char → JMap → Option (JValue × List Char)
  | 0, _, _ => none
  | fuel + 1, input, acc =>
    match skipWs input with
    | '"' :: r =>
      (match parseStringBody r with
      | none => none
      | some (k, r2) =>
        match skipWs r2 with
        | ':' :: r3 =>
          (match parseValue fuel r3 with
          | none => none
          | some (v, r4) =>
            let acc2 := mapInsert acc (String.mk k) v
            match skipWs r4 with
            | ',' :: r5 => parseMembers fuel r5 acc2
            | '\x7d' :: r5 => some (.obj acc2, r5)
            | _ => none)
        | _ => none)
    | _ => none
termination_by structural fuel _ _ => fuel

end

/-- Parse a complete JSON text: one value, optionally surrounded by
whitespace, and nothing else (`serde_json::from_str`). -/
def parseJson (s : String) : Option JValue :=
  match parseValue (2 * s.data.length + 2) s.data with
  | none => none
  | some (v, rest) =>
    match skipWs rest with
    | [] => some v
    | _ => none

/-- A hexadecimal digit character (lowercase, as `serde_json`). -/
def hexDigitChar (n : Nat) : Char :=
  if n < 10 then Char.ofNat (48 + n) else Char.ofNat (87 + n)

/-- `serde_json`'s string escaping for one character: quote and backslash
get short escapes, the named control characters get `\b \f \n \r \t`, the
remaining control characters get `\u00XX` (lowercase hex), everything else
is emitted verbatim. -/
def escapeChar (c : Char) : List Char :=
  if c == '"' then ['\\', '"']
  else if c == '\\' then ['\\', '\\']
  else if c == '\x08' then ['\\', 'b']
  else if c == '\x0C' then ['\\', 'f']
  else if c == '\n' then ['\\', 'n']
  else if c == '\r' then ['\\', 'r']
  else if c == '\t' then ['\\', 't']
  else if c.toNat < 0x20 then
    ['\\', 'u', '0', '0', hexDigitChar (c.toNat / 16), hexDigitChar (c.toNat % 16)]
  else [c]

/-- Escape a whole character list. -/
def escapeChars : List Char → List Char
  | [] => []
  | c :: cs => escapeChar c ++ escapeChars cs

/-- The decimal digit character for `n < 10`. -/
def digitChar (n : Nat) : Char := Char.ofNat (48 + n)

/-- Decimal digits of `n`, most significant first; the first argument is
fuel (any bound on the number of digits). -/
def natToDigitsAux : Nat → Nat → List Char
  | 0, _ => []
  | fuel + 1, n =>
    if n < 10 then [digitChar n]
    else natToDigitsAux fuel (n / 10) ++ [digitChar (n % 10)]

/-- Decimal numeral of a natural number. -/
def natToChars (n : Nat) : List Char := natToDigitsAux (n + 1) n

/-- Decimal numeral of an integer. -/
def intToChars : Int → List Char
  | .ofNat n => natToChars n
  | .negSucc m => '-' :: natToChars (m + 1)

/-- Two-space indentation at depth `ind` (the `serde_json` pretty
formatter's default indent). -/
def indentChars (ind : Nat) : List Char := List.replicate (2 * ind) ' '

mutual

/-- The pretty serializer (`serde_json::to_string_pretty`): scalars
compact, non-empty containers multi-line with two-space indentation,
member separator `": "`, empty containers as `[]` and `\x7b\x7d`. -/
def renderValue (ind : Nat) : JValue → List Char
  | .null => "null".data
  | .bool true => "true".data
  | .bool false => "false".data
  | .num n => intToChars n
  | .str s => '"' :: (escapeChars s.data ++ ['"'])
  | .arr elems =>
    if elems.isEmpty then "[]".data
    else '[' :: '\n' :: (renderItems (ind + 1) elems ++ '\n' :: (indentChars ind ++ [']']))
  | .obj entries =>
    if entries.isEmpty then "\x7b\x7d".data
    else '\x7b' :: '\n' ::
      (renderMembers (ind + 1) entries ++ '\n' :: (indentChars ind ++ ['\x7d']))
termination_by structural v => v

/-- Render array elements, one per line, comma-separated. -/
def renderItems (ind : Nat) : List JValue → List Char
  | [] => []
  | v :: rest =>
    indentChars ind ++ renderValue ind v ++
      (if rest.isEmpty then [] else [',', '\n']) ++ renderItems ind rest
termination_by structural l => l

/-- Render object members, one per line, comma-separated. -/
def renderMembers (ind : Nat) : JMap → List Char
  | [] => []
  | (k, v) :: rest =>
    (indentChars ind ++ ('"' :: (escapeChars k.data ++ ['"', ':', ' ']))) ++
      renderValue ind v ++
      (if rest.isEmpty then [] else [',', '\n']) ++ renderMembers ind rest
termination_by structural l => l

end

/-- The single error kind of the core (`serde_json::Error` as far as the
core is concerned): the input text is not well-formed JSON. -/
inductive ParseError where
  | parseError
deriving Repr, DecidableEq

instance : DecidableEq (Except ParseError String) := fun x y =>
  match x, y with
  | .ok a, .ok b =>
    if h : a = b then isTrue (by rw [h]) else isFalse (fun hh => h (Except.ok.inj hh))
  | .error a, .error b =>
    if h : a = b then isTrue (by rw [h]) else isFalse (fun hh => h (Except.error.inj hh))
  | .ok _, .error _ => isFalse (fun hh => Except.noConfusion hh)
  | .error _, .ok _ => isFalse (fun hh => Except.noConfusion hh)

/-- `sort_package_json` (lib.rs:3-12): parse the input text, sort the keys
when the top-level value is an object, pretty-print, and append a final
newline.  A parse failure is surfaced as `ParseError`. -/
def sort_package_json (input : String) : Except ParseError String :=
  match parseJson input with
  | none => .error .parseError
  | some value =>
    let sorted_value :=
      match value with
      | .obj obj => JValue.obj (sort_object_keys obj)
      | v => v
    .ok (String.mk (renderValue 0 sorted_value ++ ['\n']))

/-- The Unicode byte-order marker `U+FEFF`. -/
def bomChar : Char := Char.ofNat 0xFEFF

/-! ## Wellformedness of parsed values

A JSON object produced by the parser has pairwise-distinct keys at every
nesting level (`mapInsert` collapses duplicate members).  The transforms
preserve this, and the idempotence of the engine holds on such values. -/

/-- No duplicates in a key list. -/
def keysNodupB : List String → Bool
  | [] => true
  | k :: ks => !(ks.contains k) && keysNodupB ks

mutual

/-- A wellformed value: every object inside it has pairwise-distinct keys. -/
def wfV : JValue → Bool
  | .arr es => wfVL es
  | .obj m => keysNodupB (mapKeys m) && wfVM m
  | _ => true
termination_by structural v => v

/-- Every value of the list is wellformed. -/
def wfVL : List JValue → Bool
  | [] => true
  | v :: vs => wfV v && wfVL vs
termination_by structural l => l

/-- Every value of the map is wellformed. -/
def wfVM : JMap → Bool
  | [] => true
  | (_, v) :: rest => wfV v && wfVM rest
termination_by structural m => m

end

/-- A `keyOrder` transform is wellformed when its fixed key list has no
duplicates; every `keyOrder` row of the schema table satisfies this. -/
def goodTB : FieldTransform → Bool
  | .keyOrder order => keysNodupB order
  | _ => true

/-! ## Fuel accounting for the parser-serializer roundtrip -/

/-- The head of the list is not a decimal digit (so the remainder of the
input cannot extend a rendered numeral). -/
def headNotDigit : List Char → Bool
  | [] => true
  | c :: _ => !isDigitChar c

mutual

/-- Parser fuel sufficient for a value's rendered text. -/
def needV : JValue → Nat
  | .arr es => needL es + 1
  | .obj ms => needM ms + 1
  | _ => 1
termination_by structural v => v

/-- Parser fuel sufficient for the remaining elements of an array. -/
def needL : List JValue → Nat
  | [] => 0
  | e :: es => max (needV e) (needL es) + 1
termination_by structural l => l

/-- Parser fuel sufficient for the remaining members of an object. -/
def needM : JMap → Nat
  | [] => 0
  | (_, v) :: ms => max (needV v) (needM ms) + 1
termination_by structural m => m

end

/-- The rendered text that follows one array element: either the closing
line of the array, or the separator and the remaining elements. -/
def itemsRest (ind : Nat) (es : List JValue) (close : List Char) : List Char :=
  match es with
  | [] => '\n' :: (indentChars ind ++ ']' :: close)
  | _ :: _ =>
    ',' :: '\n' :: (renderItems (ind + 1) es ++ '\n' :: (indentChars ind ++ ']' :: close))

/-- The rendered text that follows one object member: either the closing
line of the object, or the separator and the remaining members. -/
def membersRest (ind : Nat) (ms : JMap) (close : List Char) : List Char :=
  match ms with
  | [] => '\n' :: (indentChars ind ++ '\x7d' :: close)
  | _ :: _ =>
    ',' :: '\n' :: (renderMembers (ind + 1) ms ++ '\n' :: (indentChars ind ++ '\x7d' :: close))

/-- The top-level step of `sort_package_json` (lib.rs:6-9): sort the keys
when the parsed value is an object, leave every other value unchanged. -/
def sortTop : JValue → JValue
  | .obj obj => .obj (sort_object_keys obj)
  | v => v

/-! ## Order lemmas for the string comparison -/

theorem charsLt_irrefl : ∀ a : List Char, charsLt a a = false
  | [] => rfl
  | _ :: cs => by simp [charsLt, charsLt_irrefl cs]

theorem charsLt_asymm : ∀ a b : List Char, charsLt a b = true → charsLt b a = false
  | [], [] => by simp [charsLt]
  | [], _ :: _ => by simp [charsLt]
  | _ :: _, [] => by simp [charsLt]
  | a :: as, b :: bs => by
    intro h
    by_cases h1 : a.toNat < b.toNat
    · have h2 : ¬ b.toNat < a.toNat := by omega
      simp [charsLt, h1, h2]
    · by_cases h2 : b.toNat < a.toNat
      · simp [charsLt, h1, h2] at h
      · simp only [charsLt, if_neg h1, if_neg h2] at h
        simp only [charsLt, if_neg h2, if_neg h1]
        exact charsLt_asymm as bs h

theorem charsLt_trans :
    ∀ a b c : List Char, charsLt a b = true → charsLt b c = true → charsLt a c = true
  | [], [], _ => by simp [charsLt]
  | [], _ :: _, [] => by simp [charsLt]
  | [], _ :: _, _ :: _ => by simp [charsLt]
  | _ :: _, [], _ => by simp [charsLt]
  | _ :: _, _ :: _, [] => by simp [charsLt]
  | a :: as, b :: bs, c :: cs => by
    intro h1 h2
    by_cases hab : a.toNat < b.toNat <;> by_cases hbc : b.toNat < c.toNat
    · have hac : a.toNat < c.toNat := by omega
      simp [charsLt, hac]
    · by_cases hcb : c.toNat < b.toNat
      · simp [charsLt, hbc, hcb] at h2
      · have hac : a.toNat < c.toNat := by omega
        simp [charsLt, hac]
    · by_cases hba : b.toNat < a.toNat
      · simp [charsLt, hab, hba] at h1
      · have hac : a.toNat < c.toNat := by omega
        simp [charsLt, hac]
    · by_cases hba : b.toNat < a.toNat
      · simp [charsLt, hab, hba] at h1
      · by_cases hcb : c.toNat < b.toNat
        · simp [charsLt, hbc, hcb] at h2
        · have hac1 : ¬ a.toNat < c.toNat := by omega
          have hac2 : ¬ c.toNat < a.toNat := by omega
          simp [charsLt, hab, hba] at h1
          simp [charsLt, hbc, hcb] at h2
          simp [charsLt, hac1, hac2, charsLt_trans as bs cs h1 h2]

theorem charsLt_connex :
    ∀ a b : List Char, charsLt a b = false → charsLt b a = false → a = b
  | [], [] => by simp
  | [], _ :: _ => by simp [charsLt]
  | _ :: _, [] => by simp [charsLt]
  | a :: as, b :: bs => by
    intro h1 h2
    by_cases hab : a.toNat < b.toNat
    · simp [charsLt, hab] at h1
    · by_cases hba : b.toNat < a.toNat
      · simp [charsLt, hba] at h2
      · simp [charsLt, hab, hba] at h1 h2
        have htn : a.toNat = b.toNat := by omega
        have hhd : a = b := Char.eq_of_val_eq (UInt32.ext htn)
        rw [hhd, charsLt_connex as bs h1 h2]

theorem string_data_inj {a b : String} (h : a.data = b.data) : a = b := by
  cases a; cases b; simp_all

theorem strLe_total (a b : String) : strLe a b = true ∨ strLe b a = true := by
  by_cases h : charsLt b.data a.data = true
  · right
    simp [strLe, charsLt_asymm _ _ h]
  · left
    simp [strLe]
    simpa using h

theorem strLe_trans {a b c : String} (h1 : strLe a b = true) (h2 : strLe b c = true) :
    strLe a c = true := by
  simp only [strLe, Bool.not_eq_true'] at h1 h2 ⊢
  by_cases hab : charsLt a.data b.data = true
  · by_cases hca : charsLt c.data a.data = true
    · have hcb := charsLt_trans _ _ _ hca hab
      rw [hcb] at h2
      cases h2
    · simpa using hca
  · have hd : b.data = a.data := charsLt_connex _ _ h1 (by simpa using hab)
    rw [← hd]
    exact h2

theorem strLe_antisymm {a b : String} (h1 : strLe a b = true) (h2 : strLe b a = true) :
    a = b := by
  simp only [strLe, Bool.not_eq_true'] at h1 h2
  exact string_data_inj (charsLt_connex _ _ h2 h1)

theorem strLt_of_strLe_ne {a b : String} (h1 : strLe a b = true) (h2 : a ≠ b) :
    strLt a b = true := by
  simp only [strLe, Bool.not_eq_true'] at h1
  by_cases h : charsLt a.data b.data = true
  · exact h
  · exact absurd (string_data_inj (charsLt_connex _ _ (by simpa using h) h1)) h2

/-! ## Lemmas for the stable sort -/

theorem insertSorted_perm (le : α → α → Bool) (x : α) :
    ∀ l : List α, (insertSorted le x l).Perm (x :: l)
  | [] => List.Perm.refl _
  | y :: ys => by
    unfold insertSorted
    by_cases h : le x y = true
    · rw [if_pos h]
    · rw [if_neg h]
      exact ((insertSorted_perm le x ys).cons y).trans (List.Perm.swap x y ys)

theorem mem_insertSorted {le : α → α → Bool} {x a : α} {l : List α} :
    a ∈ insertSorted le x l ↔ a = x ∨ a ∈ l := by
  rw [(insertSorted_perm le x l).mem_iff, List.mem_cons]

theorem insertSorted_pairwise {le : α → α → Bool}
    (htot : ∀ a b, le a b = true ∨ le b a = true)
    (htrans : ∀ a b c, le a b = true → le b c = true → le a c = true) (x : α) :
    ∀ l : List α, l.Pairwise (fun a b => le a b = true) →
      (insertSorted le x l).Pairwise (fun a b => le a b = true)
  | [], _ => by simp [insertSorted]
  | y :: ys, hl => by
    obtain ⟨hy, hys⟩ := List.pairwise_cons.mp hl
    unfold insertSorted
    by_cases h : le x y = true
    · rw [if_pos h]
      refine List.pairwise_cons.mpr ⟨?_, hl⟩
      intro z hz
      rcases List.mem_cons.mp hz with rfl | hz2
      · exact h
      · exact htrans _ _ _ h (hy z hz2)
    · rw [if_neg h]
      refine List.pairwise_cons.mpr ⟨?_, insertSorted_pairwise htot htrans x ys hys⟩
      intro z hz
      rcases mem_insertSorted.mp hz with hzx | hz2
      · rw [hzx]
        rcases htot x y with hxy | hyx
        · exact absurd hxy h
        · exact hyx
      · exact hy z hz2

theorem sortByLe_pairwise {le : α → α → Bool}
    (htot : ∀ a b, le a b = true ∨ le b a = true)
    (htrans : ∀ a b c, le a b = true → le b c = true → le a c = true) :
    ∀ l : List α, (sortByLe le l).Pairwise (fun a b => le a b = true)
  | [] => List.Pairwise.nil
  | x :: xs => insertSorted_pairwise htot htrans x _ (sortByLe_pairwise htot htrans xs)

theorem sortByLe_perm (le : α → α → Bool) : ∀ l : List α, (sortByLe le l).Perm l
  | [] => List.Perm.refl _
  | x :: xs => (insertSorted_perm le x _).trans ((sortByLe_perm le xs).cons x)

theorem sortByLe_eq_self {le : α → α → Bool} :
    ∀ l : List α, l.Pairwise (fun a b => le a b = true) → sortByLe le l = l
  | [], _ => rfl
  | x :: xs, hl => by
    obtain ⟨hx, hxs⟩ := List.pairwise_cons.mp hl
    unfold sortByLe
    rw [sortByLe_eq_self xs hxs]
    cases xs with
    | nil => rfl
    | cons y ys =>
      unfold insertSorted
      rw [if_pos (hx y (List.mem_cons_self y ys))]

theorem sortByLe_nodup {le : α → α → Bool} {l : List α} (h : l.Nodup) :
    (sortByLe le l).Nodup := (sortByLe_perm le l).nodup_iff.mpr h

/-! ## Lemmas for the map operations -/

theorem mapContains_iff {m : JMap} {k : String} :
    mapContains m k = true ↔ k ∈ mapKeys m := by
  simp [mapContains, mapKeys, List.any_eq_true, List.mem_map]

theorem mapContains_eq_false_iff {m : JMap} {k : String} :
    mapContains m k = false ↔ k ∉ mapKeys m := by
  rw [← mapContains_iff]
  cases mapContains m k <;> simp

theorem mapContains_append {m1 m2 : JMap} {k : String} :
    mapContains (m1 ++ m2) k = (mapContains m1 k || mapContains m2 k) := by
  simp [mapContains, List.any_append]

theorem mapInsert_not_contains {m : JMap} {k : String} {v : JValue}
    (h : mapContains m k = false) : mapInsert m k v = m ++ [(k, v)] := by
  simp [mapInsert, h]

theorem mapGet_eq_none_iff {m : JMap} {k : String} :
    mapGet m k = none ↔ k ∉ mapKeys m := by
  simp [mapGet, List.find?_eq_none, mapKeys, List.mem_map]
  constructor
  · intro h p hp
    exact h k p hp rfl
  · intro h a b hab he
    exact h b (he ▸ hab)

theorem mapGet_isSome_of_mem {m : JMap} {k : String} (h : k ∈ mapKeys m) :
    ∃ v, mapGet m k = some v := by
  cases hg : mapGet m k with
  | none => exact absurd h (mapGet_eq_none_iff.mp hg)
  | some v => exact ⟨v, rfl⟩

theorem mapGet_mem {m : JMap} {k : String} {v : JValue} (h : mapGet m k = some v) :
    (k, v) ∈ m := by
  simp only [mapGet, Option.map_eq_some'] at h
  obtain ⟨p, hp, hv⟩ := h
  have hm := List.mem_of_find?_eq_some hp
  have hk := List.find?_some hp
  obtain ⟨a, b⟩ := p
  simp at hk hv
  rw [← hk, ← hv]
  exact hm

theorem mapGet_key_mem {m : JMap} {k : String} {v : JValue} (h : mapGet m k = some v) :
    k ∈ mapKeys m :=
  List.mem_map_of_mem (fun p => p.1) (mapGet_mem h)

theorem mem_mapGet {m : JMap} {k : String} {v : JValue}
    (hnd : (mapKeys m).Nodup) (h : (k, v) ∈ m) : mapGet m k = some v := by
  induction m with
  | nil => cases h
  | cons p rest ih =>
    obtain ⟨hk, hrest⟩ := List.pairwise_cons.mp hnd
    rcases List.mem_cons.mp h with rfl | hmem
    · simp [mapGet, List.find?]
    · have hne : p.1 ≠ k := fun he =>
        hk k (List.mem_map_of_mem (fun q => q.1) hmem) he
      have hbe : (p.1 == k) = false := by simpa using hne
      have : mapGet (p :: rest) k = mapGet rest k := by
        simp [mapGet, List.find?, hbe]
      rw [this]
      exact ih hrest hmem

theorem mapGet_eq_of_perm {m1 m2 : JMap} (hp : m1.Perm m2)
    (hnd : (mapKeys m1).Nodup) (k : String) : mapGet m1 k = mapGet m2 k := by
  have hnd2 : (mapKeys m2).Nodup :=
    (List.Perm.map (fun p : String × JValue => p.1) hp).nodup_iff.mp hnd
  cases hg : mapGet m1 k with
  | some v =>
    exact (mem_mapGet hnd2 (hp.mem_iff.mp (mapGet_mem hg))).symm
  | none =>
    cases hg2 : mapGet m2 k with
    | none => rfl
    | some v =>
      have := mapGet_mem hg2
      have hin : (k, v) ∈ m1 := hp.mem_iff.mpr this
      rw [mem_mapGet hnd hin] at hg
      cases hg

theorem entries_nodup_of_keys_nodup {m : JMap} (h : (mapKeys m).Nodup) : m.Nodup :=
  List.Nodup.of_map _ h

/-- Two maps with no duplicate keys and the same lookup function are
permutations of each other. -/
theorem perm_of_mapGet_eq {m1 m2 : JMap} (h1 : (mapKeys m1).Nodup)
    (h2 : (mapKeys m2).Nodup) (h : ∀ k, mapGet m1 k = mapGet m2 k) : m1.Perm m2 := by
  rw [List.perm_ext_iff_of_nodup (entries_nodup_of_keys_nodup h1)
    (entries_nodup_of_keys_nodup h2)]
  rintro ⟨k, v⟩
  constructor
  · intro hm
    exact mapGet_mem ((h k) ▸ mem_mapGet h1 hm)
  · intro hm
    exact mapGet_mem ((h k) ▸ mem_mapGet h2 hm)

/-! ## The rebuild loops of the transform functions -/

theorem selectKeys_cons (m : JMap) (k : String) (ks : List String) :
    selectKeys m (k :: ks) =
      (match mapGet m k with
      | some v => (k, v) :: selectKeys m ks
      | none => selectKeys m ks) := by
  cases h : mapGet m k <;> simp [selectKeys, h]

theorem mem_selectKeys {m : JMap} {ks : List String} {k : String} {v : JValue} :
    (k, v) ∈ selectKeys m ks ↔ k ∈ ks ∧ mapGet m k = some v := by
  simp only [selectKeys, List.mem_filterMap, Option.map_eq_some']
  constructor
  · rintro ⟨x, hx, w, hw, he⟩
    obtain ⟨he1, he2⟩ := Prod.mk.injEq .. ▸ he
    exact ⟨he1 ▸ hx, he1 ▸ (hw.trans (by rw [he2]))⟩
  · rintro ⟨hk, hw⟩
    exact ⟨k, hk, v, hw, rfl⟩

theorem mapGet_selectKeys (m : JMap) {ks : List String} (hnd : ks.Nodup) (k : String) :
    mapGet (selectKeys m ks) k = if k ∈ ks then mapGet m k else none := by
  induction ks with
  | nil => simp [selectKeys, mapGet]
  | cons q ks ih =>
    obtain ⟨hq, hnd'⟩ := List.pairwise_cons.mp hnd
    rw [selectKeys_cons]
    by_cases hkq : k = q
    · subst hkq
      cases hg : mapGet m k with
      | none =>
        simp only [hg]
        rw [ih hnd']
        have : k ∉ ks := fun hin => (hq k hin) rfl
        simp [this, hg]
      | some v =>
        simp only [hg]
        simp [mapGet, List.find?]
    · cases hg : mapGet m q with
      | none =>
        simp only [hg]
        rw [ih hnd']
        simp [List.mem_cons, hkq]
      | some v =>
        simp only [hg]
        have hbe : (q == k) = false := by simpa using fun he => hkq he.symm
        have : mapGet ((q, v) :: selectKeys m ks) k = mapGet (selectKeys m ks) k := by
          simp [mapGet, List.find?, hbe]
        rw [this, ih hnd']
        simp [List.mem_cons, hkq]

theorem mapKeys_selectKeys_all_present (m : JMap) :
    ∀ ks : List String, (∀ k ∈ ks, k ∈ mapKeys m) → mapKeys (selectKeys m ks) = ks
  | [], _ => rfl
  | k :: ks, h => by
    rw [selectKeys_cons]
    obtain ⟨v, hv⟩ := mapGet_isSome_of_mem (h k (List.mem_cons_self _ _))
    simp only [hv, mapKeys, List.map_cons]
    have := mapKeys_selectKeys_all_present m ks (fun q hq => h q (List.mem_cons_of_mem _ hq))
    simp only [mapKeys] at this
    rw [this]

theorem selectKeys_perm (m : JMap) (hnd : (mapKeys m).Nodup) {ks : List String}
    (hks : ks.Perm (mapKeys m)) : (selectKeys m ks).Perm m := by
  have hksnd : ks.Nodup := hks.nodup_iff.mpr hnd
  have hkeys : mapKeys (selectKeys m ks) = ks :=
    mapKeys_selectKeys_all_present m ks (fun k hk => hks.subset hk)
  apply perm_of_mapGet_eq (hkeys.symm ▸ hksnd) hnd
  intro k
  rw [mapGet_selectKeys m hksnd k]
  by_cases hin : k ∈ ks
  · simp [hin]
  · have : k ∉ mapKeys m := fun hm => hin (hks.mem_iff.mpr hm)
    simp [hin, mapGet_eq_none_iff.mpr this]

theorem foldl_get_insert (m : JMap) :
    ∀ (ks : List String), ks.Nodup → ∀ (acc : JMap),
      (∀ k ∈ ks, mapContains acc k = false) →
      ks.foldl (fun result key =>
        match mapGet m key with
        | some value => mapInsert result key value
        | none => result) acc = acc ++ selectKeys m ks
  | [], _, acc, _ => by simp [selectKeys]
  | k :: ks, hnd, acc, hfree => by
    obtain ⟨hk, hnd'⟩ := List.pairwise_cons.mp hnd
    rw [List.foldl_cons, selectKeys_cons]
    cases hg : mapGet m k with
    | none =>
      simp only [hg]
      exact foldl_get_insert m ks hnd' acc (fun q hq => hfree q (List.mem_cons_of_mem _ hq))
    | some v =>
      simp only [hg]
      rw [mapInsert_not_contains (hfree k (List.mem_cons_self _ _))]
      rw [foldl_get_insert m ks hnd' (acc ++ [(k, v)]) ?_]
      · simp
      · intro q hq
        rw [mapContains_append]
        have h1 := hfree q (List.mem_cons_of_mem _ hq)
        have h2 : mapContains [(k, v)] q = false := by
          simp [mapContains]
          exact hk q hq
        simp [h1, h2]

/-! ## Structure of `sort_object_keys` -/

theorem foldl_insert_entries : ∀ (es acc : JMap), (mapKeys (acc ++ es)).Nodup →
    es.foldl (fun r p => mapInsert r p.1 p.2) acc = acc ++ es
  | [], acc, _ => by simp
  | (k, v) :: rest, acc, hnd => by
    rw [List.foldl_cons]
    have hkeys : mapKeys (acc ++ (k, v) :: rest) = mapKeys acc ++ k :: mapKeys rest := by
      simp [mapKeys]
    rw [hkeys] at hnd
    have hknotacc : k ∉ mapKeys acc := fun hin =>
      (List.disjoint_of_nodup_append hnd) hin (List.mem_cons_self _ _)
    rw [mapInsert_not_contains (mapContains_eq_false_iff.mpr hknotacc)]
    rw [foldl_insert_entries rest (acc ++ [(k, v)]) ?_]
    · simp
    · have : (acc ++ [(k, v)]) ++ rest = acc ++ (k, v) :: rest := by simp
      rw [this, hkeys]
      exact hnd

theorem classifyStep_known {a : List (Nat × String × JValue)} {b c : JMap}
    {k : String} {v : JValue} {i : Nat} {t : FieldTransform}
    (hf : fieldSchema k = some (i, t)) :
    classifyStep (a, b, c) (k, v) = (a ++ [(i, k, applyFieldTransform t v)], b, c) := by
  simp [classifyStep, hf]

theorem classifyStep_private {a : List (Nat × String × JValue)} {b c : JMap}
    {k : String} {v : JValue} (hf : fieldSchema k = none)
    (hu : strStartsWithChar k '_' = true) :
    classifyStep (a, b, c) (k, v) = (a, b, c ++ [(k, v)]) := by
  simp [classifyStep, hf, hu]

theorem classifyStep_public {a : List (Nat × String × JValue)} {b c : JMap}
    {k : String} {v : JValue} (hf : fieldSchema k = none)
    (hu : strStartsWithChar k '_' = false) :
    classifyStep (a, b, c) (k, v) = (a, b ++ [(k, v)], c) := by
  simp [classifyStep, hf, hu]

theorem classifyKeys_go :
    ∀ (m : JMap) (a : List (Nat × String × JValue)) (b c : JMap),
      m.foldl classifyStep (a, b, c)
      = (a ++ knownOf m, b ++ publicOf m, c ++ privateOf m)
  | [], a, b, c => by simp [knownOf, publicOf, privateOf]
  | (k, v) :: rest, a, b, c => by
    rw [List.foldl_cons]
    cases hf : fieldSchema k with
    | some it =>
      obtain ⟨i, t⟩ := it
      rw [classifyStep_known hf, classifyKeys_go rest _ b c]
      simp [knownOf, publicOf, privateOf, List.filterMap_cons, List.filter_cons, hf]
    | none =>
      by_cases hu : strStartsWithChar k '_' = true
      · rw [classifyStep_private hf hu, classifyKeys_go rest a b _]
        simp [knownOf, publicOf, privateOf, List.filterMap_cons, List.filter_cons, hf, hu]
      · simp only [Bool.not_eq_true] at hu
        rw [classifyStep_public hf hu, classifyKeys_go rest a _ c]
        simp [knownOf, publicOf, privateOf, List.filterMap_cons, List.filter_cons, hf, hu]

theorem classifyKeys_eq (m : JMap) :
    classifyKeys m = (knownOf m, publicOf m, privateOf m) := by
  have := classifyKeys_go m [] [] []
  simpa [classifyKeys] using this

/-- The three bucket key lists together are a permutation of the input's
keys: every key lands in exactly one bucket. -/
theorem bucket_keys_perm : ∀ m : JMap,
    ((knownOf m).map (fun p => p.2.1) ++
      (mapKeys (publicOf m) ++ mapKeys (privateOf m))).Perm (mapKeys m)
  | [] => by simp [knownOf, publicOf, privateOf, mapKeys]
  | (k, v) :: rest => by
    cases hf : fieldSchema k with
    | some it =>
      obtain ⟨i, t⟩ := it
      simp only [knownOf, publicOf, privateOf, mapKeys, List.filterMap_cons, List.filter_cons,
        hf, Option.map_some', Option.isNone_some, Bool.false_and, if_false,
        List.map_cons, List.cons_append]
      exact .cons k (bucket_keys_perm rest)
    | none =>
      by_cases hu : strStartsWithChar k '_' = true
      · simp only [knownOf, publicOf, privateOf, mapKeys, List.filterMap_cons,
          List.filter_cons, hf, Option.map_none', Option.isNone_none, Bool.true_and, hu,
          Bool.not_true, if_false, if_true, List.map_cons]
        refine ((List.Perm.append_left _ List.perm_middle).trans List.perm_middle).trans ?_
        exact .cons k (bucket_keys_perm rest)
      · simp only [Bool.not_eq_true] at hu
        simp only [knownOf, publicOf, privateOf, mapKeys, List.filterMap_cons,
          List.filter_cons, hf, Option.map_none', Option.isNone_none, Bool.true_and, hu,
          Bool.not_false, if_true, if_false, List.map_cons]
        refine List.perm_middle.trans ?_
        exact .cons k (bucket_keys_perm rest)

/-- Bucket sizes add up to the size of the input. -/
theorem bucket_lengths (m : JMap) :
    (knownOf m).length + (publicOf m).length + (privateOf m).length = m.length := by
  have h := (bucket_keys_perm m).length_eq
  simp only [List.length_append, List.length_map, mapKeys] at h
  omega

/-- `sort_object_keys` is exactly: the transformed `known` bucket sorted by
priority, then the `non_private` bucket sorted by key, then the `private`
bucket sorted by key. -/
theorem sort_object_keys_eq (m : JMap) (hnd : (mapKeys m).Nodup) :
    sort_object_keys m =
      (sortByLe (fun a b => Nat.ble a.1 b.1) (knownOf m)).map (fun p => (p.2.1, p.2.2)) ++
        (sortByLe (fun a b => strLe a.1 b.1) (publicOf m) ++
          sortByLe (fun a b => strLe a.1 b.1) (privateOf m)) := by
  have hbig := (bucket_keys_perm m).nodup_iff.mpr hnd
  have pA := sortByLe_perm (fun a b : Nat × String × JValue => Nat.ble a.1 b.1) (knownOf m)
  have pB := sortByLe_perm (fun a b : String × JValue => strLe a.1 b.1) (publicOf m)
  have pC := sortByLe_perm (fun a b : String × JValue => strLe a.1 b.1) (privateOf m)
  have hndsorted :
      ((sortByLe (fun a b => Nat.ble a.1 b.1) (knownOf m)).map (fun p => p.2.1) ++
        (mapKeys (sortByLe (fun a b => strLe a.1 b.1) (publicOf m)) ++
          mapKeys (sortByLe (fun a b => strLe a.1 b.1) (privateOf m)))).Nodup :=
    (List.Perm.append (pA.map _) (List.Perm.append (pB.map _) (pC.map _))).nodup_iff.mpr hbig
  obtain ⟨hndA, hndBC, hdisjABC⟩ := List.nodup_append.mp hndsorted
  obtain ⟨hndB, hndC, hdisjBC⟩ := List.nodup_append.mp hndBC
  simp only [sort_object_keys, classifyKeys_eq]
  rw [← List.foldl_map (fun p : Nat × String × JValue => (p.2.1, p.2.2))
    (fun r p => mapInsert r p.1 p.2)]
  rw [foldl_insert_entries
    ((sortByLe (fun a b => Nat.ble a.1 b.1) (knownOf m)).map (fun p => (p.2.1, p.2.2))) []
    ?hA]
  case hA =>
    simpa [mapKeys, List.map_map] using hndA
  rw [foldl_insert_entries (sortByLe (fun a b => strLe a.1 b.1) (publicOf m)) _ ?hB]
  case hB =>
    simp only [List.nil_append, mapKeys, List.map_append, List.map_map]
    rw [List.nodup_append]
    refine ⟨by simpa using hndA, hndB, ?_⟩
    intro x hx hy
    exact hdisjABC (by simpa using hx) (List.mem_append_left _ hy)
  rw [foldl_insert_entries (sortByLe (fun a b => strLe a.1 b.1) (privateOf m)) _ ?hC]
  case hC =>
    simp only [List.nil_append, mapKeys, List.map_append, List.map_map]
    rw [List.nodup_append]
    refine ⟨?_, hndC, ?_⟩
    · rw [List.nodup_append]
      refine ⟨by simpa using hndA, hndB, ?_⟩
      intro x hx hy
      exact hdisjABC (by simpa using hx) (List.mem_append_left _ hy)
    · intro x hx hy
      rcases List.mem_append.mp hx with hx1 | hx2
      · exact hdisjABC (by simpa using hx1) (List.mem_append_right _ hy)
      · exact hdisjBC hx2 hy
  simp

/-! ## Lookup characterization of the buckets -/

theorem mapGet_cons_self {k : String} {v : JValue} {m : JMap} :
    mapGet ((k, v) :: m) k = some v := by
  simp [mapGet, List.find?]

theorem mapGet_cons_ne {q k : String} {v : JValue} {m : JMap} (h : q ≠ k) :
    mapGet ((q, v) :: m) k = mapGet m k := by
  have hbe : (q == k) = false := by simpa using h
  simp [mapGet, List.find?, hbe]

theorem mapGet_append (m1 m2 : JMap) (k : String) :
    mapGet (m1 ++ m2) k =
      match mapGet m1 k with
      | some v => some v
      | none => mapGet m2 k := by
  induction m1 with
  | nil => simp [mapGet]
  | cons p rest ih =>
    obtain ⟨q, w⟩ := p
    by_cases h : q = k
    · subst h
      simp [mapGet_cons_self]
    · rw [List.cons_append, mapGet_cons_ne h, mapGet_cons_ne h, ih]

/-- Lookup in the (transformed) `known` bucket. -/
theorem mapGet_knownEntries : ∀ (m : JMap) (k : String),
    mapGet ((knownOf m).map (fun p => (p.2.1, p.2.2))) k =
      (match fieldSchema k with
      | some it => (mapGet m k).map (applyFieldTransform it.2)
      | none => none)
  | [], k => by cases hf : fieldSchema k <;> simp [knownOf, mapGet, hf]
  | (q, w) :: rest, k => by
    cases hf : fieldSchema q with
    | some it =>
      obtain ⟨i, t⟩ := it
      simp only [knownOf, List.filterMap_cons, hf, Option.map_some', List.map_cons]
      by_cases hqk : q = k
      · subst hqk
        rw [mapGet_cons_self, mapGet_cons_self, hf]
        simp
      · rw [mapGet_cons_ne hqk, mapGet_cons_ne hqk]
        have := mapGet_knownEntries rest k
        simp only [knownOf] at this
        rw [this]
    | none =>
      simp only [knownOf, List.filterMap_cons, hf, Option.map_none']
      by_cases hqk : q = k
      · subst hqk
        rw [mapGet_cons_self]
        have := mapGet_knownEntries rest q
        simp only [knownOf] at this
        rw [this, hf]
      · rw [mapGet_cons_ne hqk]
        have := mapGet_knownEntries rest k
        simp only [knownOf] at this
        rw [this]

/-- Lookup in the `non_private` bucket. -/
theorem mapGet_publicOf : ∀ (m : JMap) (k : String),
    mapGet (publicOf m) k =
      (if ((fieldSchema k).isNone && !(strStartsWithChar k '_')) = true
      then mapGet m k else none)
  | [], k => by simp [publicOf, mapGet]
  | (q, w) :: rest, k => by
    by_cases hp : ((fieldSchema q).isNone && !(strStartsWithChar q '_')) = true
    · simp only [publicOf, List.filter_cons, hp, if_true]
      by_cases hqk : q = k
      · subst hqk
        rw [mapGet_cons_self, mapGet_cons_self, if_pos hp]
      · rw [mapGet_cons_ne hqk, mapGet_cons_ne hqk]
        have := mapGet_publicOf rest k
        simp only [publicOf] at this
        rw [this]
    · have hcons : publicOf ((q, w) :: rest) = publicOf rest := by
        simp only [publicOf]
        exact List.filter_cons_of_neg hp
      rw [hcons]
      by_cases hqk : q = k
      · subst hqk
        rw [mapGet_publicOf rest q, if_neg hp, mapGet_cons_self]
        simp at hp
        by_cases hN : fieldSchema q = none
        · simp [hN, hp hN]
        · simp [hN]
      · rw [mapGet_publicOf rest k, mapGet_cons_ne hqk]

/-- Lookup in the `private` bucket. -/
theorem mapGet_privateOf : ∀ (m : JMap) (k : String),
    mapGet (privateOf m) k =
      (if ((fieldSchema k).isNone && strStartsWithChar k '_') = true
      then mapGet m k else none)
  | [], k => by simp [privateOf, mapGet]
  | (q, w) :: rest, k => by
    by_cases hp : ((fieldSchema q).isNone && strStartsWithChar q '_') = true
    · simp only [privateOf, List.filter_cons, hp, if_true]
      by_cases hqk : q = k
      · subst hqk
        rw [mapGet_cons_self, mapGet_cons_self, if_pos hp]
      · rw [mapGet_cons_ne hqk, mapGet_cons_ne hqk]
        have := mapGet_privateOf rest k
        simp only [privateOf] at this
        rw [this]
    · have hcons : privateOf ((q, w) :: rest) = privateOf rest := by
        simp only [privateOf]
        exact List.filter_cons_of_neg hp
      rw [hcons]
      by_cases hqk : q = k
      · subst hqk
        rw [mapGet_privateOf rest q, if_neg hp, mapGet_cons_self]
        simp at hp
        by_cases hN : fieldSchema q = none
        · simp [hN, hp hN]
        · simp [hN]
      · rw [mapGet_privateOf rest k, mapGet_cons_ne hqk]

/-! ## Claim C1 -/

/-- **C1**: the claim says `sort-unique-array` returns `S ++ R` — the
sorted, deduplicated strings followed by all non-string elements in
original order — so on
`["duplicate", "duplicate", 123, 123, true, true, null, null]` (the input
of the repo's own test `test_array_deduplication_only_for_strings`) the
result would have length `1 + 6 = 7`.  The code's `sort_array_unique`
keeps only the string elements: it returns `["duplicate"]`, of length 1,
dropping every non-string element.  The code contradicts the claim and the
repository's test suite. -/
theorem C1_sort_array_unique_drops_non_strings :
    sort_array_unique [.str "duplicate", .str "duplicate", .num 123, .num 123,
        .bool true, .bool true, .null, .null] = [.str "duplicate"] ∧
      (sort_array_unique [.str "duplicate", .str "duplicate", .num 123, .num 123,
        .bool true, .bool true, .null, .null]).length ≠ 7 := by
  constructor
  · decide
  · decide

/-! ## Claim C3 -/

/-- **C3**: for an object input with distinct keys (every JSON object), the
keys of `sort_object_keys` are a permutation of the input's keys (no key is
dropped, added, or duplicated); the three classification buckets cover the
input exactly (`|known| + |public| + |private| = |manifest|`); and each
key's value in the output is exactly the input value passed through that
field's own transform (the identity for unrecognized fields). -/
theorem C3_no_data_loss (m : JMap) (hnd : (mapKeys m).Nodup) :
    (mapKeys (sort_object_keys m)).Perm (mapKeys m) ∧
      ((classifyKeys m).1.length + (classifyKeys m).2.1.length +
        (classifyKeys m).2.2.length = m.length) ∧
      ∀ k, mapGet (sort_object_keys m) k =
        (match fieldSchema k with
        | some it => (mapGet m k).map (applyFieldTransform it.2)
        | none => mapGet m k) := by
  have hbig := (bucket_keys_perm m).nodup_iff.mpr hnd
  have pA := sortByLe_perm (fun a b : Nat × String × JValue => Nat.ble a.1 b.1) (knownOf m)
  have pB := sortByLe_perm (fun a b : String × JValue => strLe a.1 b.1) (publicOf m)
  have pC := sortByLe_perm (fun a b : String × JValue => strLe a.1 b.1) (privateOf m)
  have hndsorted :
      ((sortByLe (fun a b => Nat.ble a.1 b.1) (knownOf m)).map (fun p => p.2.1) ++
        (mapKeys (sortByLe (fun a b => strLe a.1 b.1) (publicOf m)) ++
          mapKeys (sortByLe (fun a b => strLe a.1 b.1) (privateOf m)))).Nodup :=
    (List.Perm.append (pA.map _) (List.Perm.append (pB.map _) (pC.map _))).nodup_iff.mpr hbig
  obtain ⟨hndA, hndBC, hdisjABC⟩ := List.nodup_append.mp hndsorted
  obtain ⟨hndB, hndC, hdisjBC⟩ := List.nodup_append.mp hndBC
  refine ⟨?_, ?_, ?_⟩
  · rw [sort_object_keys_eq m hnd]
    simp only [mapKeys, List.map_append, List.map_map]
    refine (List.Perm.append (pA.map _) (List.Perm.append (pB.map _) (pC.map _))).trans ?_
    have := bucket_keys_perm m
    simpa [mapKeys, Function.comp] using this
  · rw [classifyKeys_eq]
    exact bucket_lengths m
  · intro k
    rw [sort_object_keys_eq m hnd, mapGet_append, mapGet_append]
    have hA : mapGet ((sortByLe (fun a b => Nat.ble a.1 b.1) (knownOf m)).map
        (fun p => (p.2.1, p.2.2))) k =
        mapGet ((knownOf m).map (fun p => (p.2.1, p.2.2))) k :=
      mapGet_eq_of_perm (pA.map _) (by simpa [mapKeys, List.map_map] using hndA) k
    have hB : mapGet (sortByLe (fun a b => strLe a.1 b.1) (publicOf m)) k =
        mapGet (publicOf m) k := mapGet_eq_of_perm pB hndB k
    have hC : mapGet (sortByLe (fun a b => strLe a.1 b.1) (privateOf m)) k =
        mapGet (privateOf m) k := mapGet_eq_of_perm pC hndC k
    rw [hA, hB, hC, mapGet_knownEntries, mapGet_publicOf, mapGet_privateOf]
    cases hf : fieldSchema k with
    | some it => cases hg : mapGet m k <;> simp [hf, hg]
    | none =>
      by_cases hu : strStartsWithChar k '_' = true
      · cases hg : mapGet m k <;> simp [hf, hu, hg]
      · simp only [Bool.not_eq_true] at hu
        cases hg : mapGet m k <;> simp [hf, hu, hg]

/-- Witness for C3 at a concrete manifest (a known field, a public unknown
field, and a private field). -/
theorem C3_witness :
    ((mapKeys [("custom", JValue.num 1), ("name", JValue.str "p"), ("_x", JValue.null)]).Nodup) ∧
      ((mapKeys (sort_object_keys
        [("custom", JValue.num 1), ("name", JValue.str "p"), ("_x", JValue.null)])).Perm
        (mapKeys [("custom", JValue.num 1), ("name", JValue.str "p"), ("_x", JValue.null)]) ∧
      ((classifyKeys [("custom", JValue.num 1), ("name", JValue.str "p"),
          ("_x", JValue.null)]).1.length +
        (classifyKeys [("custom", JValue.num 1), ("name", JValue.str "p"),
          ("_x", JValue.null)]).2.1.length +
        (classifyKeys [("custom", JValue.num 1), ("name", JValue.str "p"),
          ("_x", JValue.null)]).2.2.length = 3) ∧
      ∀ k, mapGet (sort_object_keys
          [("custom", JValue.num 1), ("name", JValue.str "p"), ("_x", JValue.null)]) k =
        (match fieldSchema k with
        | some it => (mapGet [("custom", JValue.num 1), ("name", JValue.str "p"),
            ("_x", JValue.null)] k).map (applyFieldTransform it.2)
        | none => mapGet [("custom", JValue.num 1), ("name", JValue.str "p"),
            ("_x", JValue.null)] k)) :=
  ⟨by decide,
    C3_no_data_loss [("custom", JValue.num 1), ("name", JValue.str "p"), ("_x", JValue.null)]
      (by decide)⟩

/-! ## Claim C4 -/

theorem sublist_pair {a b : α} : ∀ {l : List α}, a ∈ l → b ∈ l → a ≠ b →
    [a, b].Sublist l ∨ [b, a].Sublist l := by
  intro l
  induction l with
  | nil => intro h; cases h
  | cons x xs ih =>
    intro ha hb hne
    rcases List.mem_cons.mp ha with ha1 | ha2
    · subst ha1
      have hb2 : b ∈ xs := by
        rcases List.mem_cons.mp hb with h | h
        · exact absurd h.symm hne
        · exact h
      exact Or.inl (List.Sublist.cons₂ a (List.singleton_sublist.mpr hb2))
    · rcases List.mem_cons.mp hb with hb1 | hb2
      · subst hb1
        exact Or.inr (List.Sublist.cons₂ b (List.singleton_sublist.mpr ha2))
      · rcases ih ha2 hb2 hne with h | h
        · exact Or.inl (h.cons x)
        · exact Or.inr (h.cons x)

theorem fieldSchema_mem {k : String} {i : Nat} {t : FieldTransform}
    (h : fieldSchema k = some (i, t)) : (k, i, t) ∈ schemaTable := by
  simp only [fieldSchema, Option.map_eq_some'] at h
  obtain ⟨e, he, hv⟩ := h
  have hmem := List.mem_of_find?_eq_some he
  have hpred := List.find?_some he
  obtain ⟨e1, e2⟩ := e
  simp at hpred hv
  rw [hpred, hv] at hmem
  exact hmem

/-- All priority indices of the schema table are distinct. -/
theorem schema_indices_nodup : (schemaTable.map (fun e => e.2.1)).Nodup := by decide

theorem fieldSchema_index_inj {k1 k2 : String} {i : Nat} {t1 t2 : FieldTransform}
    (h1 : fieldSchema k1 = some (i, t1)) (h2 : fieldSchema k2 = some (i, t2)) :
    k1 = k2 := by
  have m1 := fieldSchema_mem h1
  have m2 := fieldSchema_mem h2
  have := List.inj_on_of_nodup_map schema_indices_nodup m1 m2 rfl
  exact congrArg Prod.fst this

theorem mem_keys_exists {m : JMap} {k : String} (h : k ∈ mapKeys m) :
    ∃ v, (k, v) ∈ m := by
  simp only [mapKeys, List.mem_map] at h
  obtain ⟨⟨a, b⟩, hp, he⟩ := h
  exact ⟨b, by rwa [show a = k from he] at hp⟩

theorem mem_knownOf_of {m : JMap} {k : String} {v : JValue} {i : Nat} {t : FieldTransform}
    (hm : (k, v) ∈ m) (hf : fieldSchema k = some (i, t)) :
    (i, k, applyFieldTransform t v) ∈ knownOf m := by
  simp only [knownOf, List.mem_filterMap]
  exact ⟨(k, v), hm, by simp [hf]⟩

theorem nat_ble_total (a b : Nat × String × JValue) :
    Nat.ble a.1 b.1 = true ∨ Nat.ble b.1 a.1 = true := by
  rcases Nat.le_total a.1 b.1 with h | h
  · exact Or.inl (by simpa [Nat.ble_eq] using h)
  · exact Or.inr (by simpa [Nat.ble_eq] using h)

theorem nat_ble_trans (a b c : Nat × String × JValue)
    (h1 : Nat.ble a.1 b.1 = true) (h2 : Nat.ble b.1 c.1 = true) :
    Nat.ble a.1 c.1 = true := by
  simp only [Nat.ble_eq] at *
  omega

theorem pair_strLe_total (a b : String × JValue) :
    strLe a.1 b.1 = true ∨ strLe b.1 a.1 = true := strLe_total a.1 b.1

theorem pair_strLe_trans (a b c : String × JValue)
    (h1 : strLe a.1 b.1 = true) (h2 : strLe b.1 c.1 = true) : strLe a.1 c.1 = true :=
  strLe_trans h1 h2

/-- Strictly ascending keys of a key-sorted bucket with distinct keys. -/
theorem sorted_bucket_strict (l : List (String × JValue))
    (hnd : (mapKeys (sortByLe (fun a b => strLe a.1 b.1) l)).Nodup) :
    (mapKeys (sortByLe (fun a b => strLe a.1 b.1) l)).Pairwise
      (fun a b => strLt a b = true) := by
  have hpw := sortByLe_pairwise pair_strLe_total pair_strLe_trans l
  have hkeys : (mapKeys (sortByLe (fun a b => strLe a.1 b.1) l)).Pairwise
      (fun a b => strLe a b = true) := by
    simp only [mapKeys, List.pairwise_map]
    exact hpw
  have hne : (mapKeys (sortByLe (fun a b => strLe a.1 b.1) l)).Pairwise (fun a b => a ≠ b) :=
    hnd
  exact (hkeys.and hne).imp (fun h => strLt_of_strLe_ne h.1 h.2)

/-- **C4**: the output of `sort_object_keys` is exactly three blocks — all
recognized fields first, then the unknown keys not starting with `_` in
strictly ascending lexicographic order, then the unknown keys starting with
`_` in strictly ascending lexicographic order — and within the recognized
block, for any two recognized keys present in the input, the one with the
smaller schema priority appears strictly before the other. -/
theorem C4_output_order (m : JMap) (hnd : (mapKeys m).Nodup) :
    (∃ kn pub priv,
      sort_object_keys m = kn ++ (pub ++ priv) ∧
      (∀ p ∈ kn, ∃ i t, fieldSchema p.1 = some (i, t)) ∧
      (∀ p ∈ pub, fieldSchema p.1 = none ∧ strStartsWithChar p.1 '_' = false) ∧
      (∀ p ∈ priv, fieldSchema p.1 = none ∧ strStartsWithChar p.1 '_' = true) ∧
      (mapKeys pub).Pairwise (fun a b => strLt a b = true) ∧
      (mapKeys priv).Pairwise (fun a b => strLt a b = true)) ∧
    (∀ k1 k2 i1 i2 t1 t2, fieldSchema k1 = some (i1, t1) → fieldSchema k2 = some (i2, t2) →
      k1 ∈ mapKeys m → k2 ∈ mapKeys m → i1 < i2 →
      [k1, k2].Sublist (mapKeys (sort_object_keys m))) := by
  have hbig := (bucket_keys_perm m).nodup_iff.mpr hnd
  have pA := sortByLe_perm (fun a b : Nat × String × JValue => Nat.ble a.1 b.1) (knownOf m)
  have pB := sortByLe_perm (fun a b : String × JValue => strLe a.1 b.1) (publicOf m)
  have pC := sortByLe_perm (fun a b : String × JValue => strLe a.1 b.1) (privateOf m)
  have hndsorted :
      ((sortByLe (fun a b => Nat.ble a.1 b.1) (knownOf m)).map (fun p => p.2.1) ++
        (mapKeys (sortByLe (fun a b => strLe a.1 b.1) (publicOf m)) ++
          mapKeys (sortByLe (fun a b => strLe a.1 b.1) (privateOf m)))).Nodup :=
    (List.Perm.append (pA.map _) (List.Perm.append (pB.map _) (pC.map _))).nodup_iff.mpr hbig
  obtain ⟨hndA, hndBC, hdisjABC⟩ := List.nodup_append.mp hndsorted
  obtain ⟨hndB, hndC, hdisjBC⟩ := List.nodup_append.mp hndBC
  constructor
  · refine ⟨(sortByLe (fun a b => Nat.ble a.1 b.1) (knownOf m)).map (fun p => (p.2.1, p.2.2)),
      sortByLe (fun a b => strLe a.1 b.1) (publicOf m),
      sortByLe (fun a b => strLe a.1 b.1) (privateOf m),
      sort_object_keys_eq m hnd, ?_, ?_, ?_, ?_, ?_⟩
    · intro p hp
      simp only [List.mem_map] at hp
      obtain ⟨q, hq, he⟩ := hp
      have hqk : q ∈ knownOf m := pA.mem_iff.mp hq
      simp only [knownOf, List.mem_filterMap, Option.map_eq_some'] at hqk
      obtain ⟨⟨k, v⟩, _, it, hf, hqe⟩ := hqk
      refine ⟨it.1, it.2, ?_⟩
      rw [← he, ← hqe]
      simpa using hf
    · intro p hp
      have := pB.mem_iff.mp hp
      simp only [publicOf, List.mem_filter, Bool.and_eq_true, Bool.not_eq_true',
        Option.isNone_iff_eq_none] at this
      exact this.2
    · intro p hp
      have := pC.mem_iff.mp hp
      simp only [privateOf, List.mem_filter, Bool.and_eq_true,
        Option.isNone_iff_eq_none] at this
      exact this.2
    · exact sorted_bucket_strict (publicOf m) hndB
    · exact sorted_bucket_strict (privateOf m) hndC
  · intro k1 k2 i1 i2 t1 t2 hf1 hf2 hk1 hk2 hlt
    obtain ⟨v1, hv1⟩ := mem_keys_exists hk1
    obtain ⟨v2, hv2⟩ := mem_keys_exists hk2
    have ha1 : (i1, k1, applyFieldTransform t1 v1) ∈
        sortByLe (fun a b => Nat.ble a.1 b.1) (knownOf m) :=
      pA.mem_iff.mpr (mem_knownOf_of hv1 hf1)
    have ha2 : (i2, k2, applyFieldTransform t2 v2) ∈
        sortByLe (fun a b => Nat.ble a.1 b.1) (knownOf m) :=
      pA.mem_iff.mpr (mem_knownOf_of hv2 hf2)
    have hk12 : k1 ≠ k2 := by
      intro he
      rw [he] at hf1
      rw [hf1] at hf2
      have := (Prod.mk.injEq .. ▸ Option.some.inj hf2).1
      omega
    have hane : (i1, k1, applyFieldTransform t1 v1) ≠ (i2, k2, applyFieldTransform t2 v2) := by
      intro he
      exact hk12 (congrArg (fun p => p.2.1) he)
    have hpwA := sortByLe_pairwise nat_ble_total nat_ble_trans (knownOf m)
    rcases sublist_pair ha1 ha2 hane with hsub | hsub
    · have hmap := hsub.map (fun p => p.2.1)
      rw [sort_object_keys_eq m hnd]
      simp only [mapKeys, List.map_append, List.map_map]
      refine List.Sublist.trans ?_ (List.sublist_append_left _ _)
      simpa using hmap
    · have := List.pairwise_cons.mp (hpwA.sublist hsub)
      have hble := this.1 _ (List.mem_cons_self _ _)
      simp only [Nat.ble_eq] at hble
      omega

/-- Witness for C4: a manifest with two known fields (`version` has larger
priority than `name`), two public unknown keys, and two private keys. -/
theorem C4_witness :
    ((mapKeys [("zeta", JValue.num 1), ("version", JValue.str "1"), ("_b", JValue.null),
      ("alpha", JValue.num 2), ("name", JValue.str "p"), ("_a", JValue.bool true)]).Nodup) ∧
      ((∃ kn pub priv,
        sort_object_keys [("zeta", JValue.num 1), ("version", JValue.str "1"),
          ("_b", JValue.null), ("alpha", JValue.num 2), ("name", JValue.str "p"),
          ("_a", JValue.bool true)] = kn ++ (pub ++ priv) ∧
        (∀ p ∈ kn, ∃ i t, fieldSchema p.1 = some (i, t)) ∧
        (∀ p ∈ pub, fieldSchema p.1 = none ∧ strStartsWithChar p.1 '_' = false) ∧
        (∀ p ∈ priv, fieldSchema p.1 = none ∧ strStartsWithChar p.1 '_' = true) ∧
        (mapKeys pub).Pairwise (fun a b => strLt a b = true) ∧
        (mapKeys priv).Pairwise (fun a b => strLt a b = true)) ∧
      (∀ k1 k2 i1 i2 t1 t2, fieldSchema k1 = some (i1, t1) → fieldSchema k2 = some (i2, t2) →
        k1 ∈ mapKeys [("zeta", JValue.num 1), ("version", JValue.str "1"),
          ("_b", JValue.null), ("alpha", JValue.num 2), ("name", JValue.str "p"),
          ("_a", JValue.bool true)] →
        k2 ∈ mapKeys [("zeta", JValue.num 1), ("version", JValue.str "1"),
          ("_b", JValue.null), ("alpha", JValue.num 2), ("name", JValue.str "p"),
          ("_a", JValue.bool true)] → i1 < i2 →
        [k1, k2].Sublist (mapKeys (sort_object_keys [("zeta", JValue.num 1),
          ("version", JValue.str "1"), ("_b", JValue.null), ("alpha", JValue.num 2),
          ("name", JValue.str "p"), ("_a", JValue.bool true)])))) :=
  ⟨by decide,
    C4_output_order [("zeta", JValue.num 1), ("version", JValue.str "1"), ("_b", JValue.null),
      ("alpha", JValue.num 2), ("name", JValue.str "p"), ("_a", JValue.bool true)] (by decide)⟩

/-! ## Claim C9 -/

/-- **C9**: for every recognized field, when the value's runtime shape does
not match what the field's transform expects, the transform is the
identity: the value passes through unchanged and no error is raised (the
transform functions are total). -/
theorem C9_shape_mismatch_is_identity :
    ∀ (key : String) (idx : Nat) (t : FieldTransform) (v : JValue),
      fieldSchema key = some (idx, t) →
      transformShapeMatches t v = false →
      applyFieldTransform t v = v := by
  intro key idx t v _ hmis
  cases t <;> cases v <;> first
    | rfl
    | simp [transformShapeMatches] at hmis

/-- Witness for C9: the `dependencies` field (an object-shaped transform)
holding a string passes through unchanged, as in the repo test
`test_invalid_value_types_preservation`. -/
theorem C9_witness :
    fieldSchema "dependencies" = some (83, .alphabetical) ∧
      transformShapeMatches .alphabetical (.str "should be object") = false ∧
      applyFieldTransform .alphabetical (.str "should be object") = .str "should be object" :=
  ⟨by decide, by decide,
    C9_shape_mismatch_is_identity "dependencies" 83 .alphabetical (.str "should be object")
      (by decide) (by decide)⟩

/-! ## Structure of `sort_exports` -/

theorem classifyExportsStep_path {a b c : List String} {d : Option (String × JValue)}
    {k : String} {v : JValue} (h : isPathKey k = true) :
    classifyExportsStep (a, b, c, d) (k, v) = (a ++ [k], b, c, d) := by
  simp [classifyExportsStep, h]

theorem classifyExportsStep_default {a b c : List String} {d : Option (String × JValue)}
    {k : String} {v : JValue} (hp : isPathKey k = false) (hd : isDefaultKey k = true) :
    classifyExportsStep (a, b, c, d) (k, v) = (a, b, c, some (k, v)) := by
  simp [classifyExportsStep, hp, hd]

theorem classifyExportsStep_types {a b c : List String} {d : Option (String × JValue)}
    {k : String} {v : JValue} (hp : isPathKey k = false) (hd : isDefaultKey k = false)
    (ht : isTypesKey k = true) :
    classifyExportsStep (a, b, c, d) (k, v) = (a, b ++ [k], c, d) := by
  simp [classifyExportsStep, hp, hd, ht]

theorem classifyExportsStep_other {a b c : List String} {d : Option (String × JValue)}
    {k : String} {v : JValue} (hp : isPathKey k = false) (hd : isDefaultKey k = false)
    (ht : isTypesKey k = false) :
    classifyExportsStep (a, b, c, d) (k, v) = (a, b, c ++ [k], d) := by
  simp [classifyExportsStep, hp, hd, ht]

theorem classifyExports_go :
    ∀ (m : JMap) (a b c : List String) (d : Option (String × JValue)),
      m.foldl classifyExportsStep (a, b, c, d) =
        (a ++ pathsOf m, b ++ typesOf m, c ++ othersOf m, (defaultLastOf m).or d)
  | [], a, b, c, d => by simp [pathsOf, typesOf, othersOf, defaultLastOf]
  | (k, v) :: rest, a, b, c, d => by
    rw [List.foldl_cons]
    by_cases hp : isPathKey k = true
    · rw [classifyExportsStep_path hp, classifyExports_go rest _ b c d]
      simp [pathsOf, typesOf, othersOf, defaultLastOf, List.filter_cons, hp]
    · simp only [Bool.not_eq_true] at hp
      by_cases hd : isDefaultKey k = true
      · rw [classifyExportsStep_default hp hd, classifyExports_go rest a b c _]
        have habs : ∀ (x : Option (String × JValue)) (y : String × JValue),
            (x.or (some y)).or d = x.or (some y) := by
          intro x y
          cases x <;> rfl
        simp [pathsOf, typesOf, othersOf, defaultLastOf, List.filter_cons, hp, hd, habs]
      · simp only [Bool.not_eq_true] at hd
        by_cases ht : isTypesKey k = true
        · rw [classifyExportsStep_types hp hd ht, classifyExports_go rest a _ c d]
          simp [pathsOf, typesOf, othersOf, defaultLastOf, List.filter_cons, hp, hd, ht]
        · simp only [Bool.not_eq_true] at ht
          rw [classifyExportsStep_other hp hd ht, classifyExports_go rest a b _ d]
          simp [pathsOf, typesOf, othersOf, defaultLastOf, List.filter_cons, hp, hd, ht]

theorem classifyExports_eq (m : JMap) :
    classifyExports m = (pathsOf m, typesOf m, othersOf m, defaultLastOf m) := by
  have := classifyExports_go m [] [] [] none
  simpa [classifyExports] using this

theorem mapKeys_sortExportsPathEntries :
    ∀ m : JMap, mapKeys (sortExportsPathEntries m) = mapKeys m
  | [] => rfl
  | (k, v) :: rest => by
    simp [sortExportsPathEntries, mapKeys] at *
    exact mapKeys_sortExportsPathEntries rest

theorem mapGet_sortExportsPathEntries :
    ∀ (m : JMap) (k : String), mapGet (sortExportsPathEntries m) k =
      (mapGet m k).map (fun v => if isPathKey k = true then sortExportsValue v else v)
  | [], _ => by simp [sortExportsPathEntries, mapGet]
  | (q, w) :: rest, k => by
    rw [sortExportsPathEntries]
    by_cases hqk : q = k
    · subst hqk
      rw [mapGet_cons_self, mapGet_cons_self]
      by_cases hq : isPathKey q = true <;> simp [hq]
    · rw [mapGet_cons_ne hqk, mapGet_cons_ne hqk, mapGet_sortExportsPathEntries rest k]

theorem filter_keys_sortExportsPathEntries (p : String → Bool) :
    ∀ m : JMap, ((sortExportsPathEntries m).filter (fun e => p e.1)).map (fun e => e.1) =
      (m.filter (fun e => p e.1)).map (fun e => e.1)
  | [] => rfl
  | (k, v) :: rest => by
    rw [sortExportsPathEntries]
    by_cases hk : p k = true
    · rw [List.filter_cons_of_pos (by simpa using hk), List.filter_cons_of_pos (by simpa using hk)]
      simp only [List.map_cons]
      rw [filter_keys_sortExportsPathEntries p rest]
    · rw [List.filter_cons_of_neg (by simpa using hk), List.filter_cons_of_neg (by simpa using hk)]
      exact filter_keys_sortExportsPathEntries p rest

theorem pathsOf_sortExportsPathEntries (m : JMap) :
    pathsOf (sortExportsPathEntries m) = pathsOf m :=
  filter_keys_sortExportsPathEntries (fun k => isPathKey k) m

theorem typesOf_sortExportsPathEntries (m : JMap) :
    typesOf (sortExportsPathEntries m) = typesOf m :=
  filter_keys_sortExportsPathEntries
    (fun k => !isPathKey k && !isDefaultKey k && isTypesKey k) m

theorem othersOf_sortExportsPathEntries (m : JMap) :
    othersOf (sortExportsPathEntries m) = othersOf m :=
  filter_keys_sortExportsPathEntries
    (fun k => !isPathKey k && !isDefaultKey k && !isTypesKey k) m

theorem defaultLastOf_sortExportsPathEntries :
    ∀ m : JMap, defaultLastOf (sortExportsPathEntries m) = defaultLastOf m
  | [] => rfl
  | (k, v) :: rest => by
    rw [sortExportsPathEntries, defaultLastOf, defaultLastOf,
      defaultLastOf_sortExportsPathEntries rest]
    by_cases hp : isPathKey k = true
    · simp [hp]
    · simp only [Bool.not_eq_true] at hp
      simp [hp]

theorem mem_pathsOf {m : JMap} {k : String} (h : k ∈ pathsOf m) : isPathKey k = true := by
  simp only [pathsOf, List.mem_map, List.mem_filter] at h
  obtain ⟨p, ⟨_, hp⟩, he⟩ := h
  exact he ▸ hp

theorem mem_typesOf {m : JMap} {k : String} (h : k ∈ typesOf m) :
    isPathKey k = false ∧ isDefaultKey k = false ∧ isTypesKey k = true := by
  simp only [typesOf, List.mem_map, List.mem_filter, Bool.and_eq_true,
    Bool.not_eq_true'] at h
  obtain ⟨p, ⟨_, hp⟩, he⟩ := h
  exact he ▸ ⟨hp.1.1, hp.1.2, hp.2⟩

theorem mem_othersOf {m : JMap} {k : String} (h : k ∈ othersOf m) :
    isPathKey k = false ∧ isDefaultKey k = false ∧ isTypesKey k = false := by
  simp only [othersOf, List.mem_map, List.mem_filter, Bool.and_eq_true,
    Bool.not_eq_true'] at h
  obtain ⟨p, ⟨_, hp⟩, he⟩ := h
  exact he ▸ ⟨hp.1.1, hp.1.2, hp.2⟩

theorem mem_groupOf_keys {m : JMap} {k : String} (p : String → Bool)
    (h : k ∈ (m.filter (fun e => p e.1)).map (fun e => e.1)) : k ∈ mapKeys m := by
  simp only [List.mem_map, List.mem_filter] at h
  obtain ⟨e, ⟨he, _⟩, hek⟩ := h
  exact hek ▸ List.mem_map_of_mem _ he

theorem groupOf_keys_nodup {m : JMap} (hnd : (mapKeys m).Nodup) (p : String → Bool) :
    ((m.filter (fun e => p e.1)).map (fun e => e.1)).Nodup :=
  List.Nodup.sublist (List.Sublist.map _ (List.filter_sublist m)) hnd

theorem mem_key_of_mem_group {m : JMap} {k : String} (p : String → Bool)
    (hm : k ∈ mapKeys m) (hp : p k = true) :
    k ∈ (m.filter (fun e => p e.1)).map (fun e => e.1) := by
  obtain ⟨v, hv⟩ := mem_keys_exists hm
  exact List.mem_map_of_mem _ (List.mem_filter.mpr ⟨hv, hp⟩)

theorem defaultLastOf_none {m : JMap} (h : defaultLastOf m = none) {k : String} {v : JValue}
    (hk : isPathKey k = false) (hd : isDefaultKey k = true) : (k, v) ∉ m := by
  induction m with
  | nil => simp
  | cons q rest ih =>
    obtain ⟨q1, q2⟩ := q
    rw [defaultLastOf] at h
    have h12 : defaultLastOf rest = none ∧
        (if (!isPathKey q1 && isDefaultKey q1) = true then some (q1, q2) else none) = none := by
      cases hx : defaultLastOf rest with
      | some r =>
        rw [hx] at h
        simp [Option.or] at h
      | none =>
        rw [hx] at h
        exact ⟨rfl, h⟩
    intro hmem
    rcases List.mem_cons.mp hmem with he | hmem2
    · have he1 : k = q1 := congrArg Prod.fst he
      have h2 := h12.2
      rw [← he1] at h2
      simp [hk, hd] at h2
    · exact ih h12.1 hmem2

theorem defaultLastOf_some {m : JMap} (hnd : (mapKeys m).Nodup)
    {p : String × JValue} (h : defaultLastOf m = some p) :
    isDefaultKey p.1 = true ∧ mapGet m p.1 = some p.2 := by
  induction m with
  | nil => simp [defaultLastOf] at h
  | cons q rest ih =>
    obtain ⟨q1, q2⟩ := q
    obtain ⟨hq, hnd'⟩ := List.pairwise_cons.mp hnd
    rw [defaultLastOf] at h
    cases hdl : defaultLastOf rest with
    | some r =>
      rw [hdl] at h
      simp only [Option.or] at h
      have hrp : r = p := Option.some.inj h
      subst hrp
      obtain ⟨hd, hg⟩ := ih hnd' hdl
      refine ⟨hd, ?_⟩
      have hne : q1 ≠ r.1 := fun he => hq r.1 (mapGet_key_mem hg) he
      rw [mapGet_cons_ne hne]
      exact hg
    | none =>
      rw [hdl] at h
      simp only [Option.or] at h
      by_cases hcond : (!isPathKey q1 && isDefaultKey q1) = true
      · rw [if_pos hcond] at h
        have hpe : p = (q1, q2) := (Option.some.inj h).symm
        subst hpe
        exact ⟨((Bool.and_eq_true _ _).mp hcond).2, mapGet_cons_self⟩
      · rw [if_neg hcond] at h
        cases h

/-- `sort_exports` is exactly: the path-condition entries (with the
recursion applied) sorted by key, then the `types`-condition entries sorted
by key, then the other-condition entries sorted by key, then the `default`
entry if present. -/
theorem sort_exports_eq (m : JMap) (hnd : (mapKeys m).Nodup) :
    sort_exports m =
      selectKeys (sortExportsPathEntries m) (sortByLe strLe (pathsOf m)) ++
        (selectKeys (sortExportsPathEntries m) (sortByLe strLe (typesOf m)) ++
          (selectKeys (sortExportsPathEntries m) (sortByLe strLe (othersOf m)) ++
            (match defaultLastOf m with
            | some p => [p]
            | none => []))) := by
  have hkeys' : mapKeys (sortExportsPathEntries m) = mapKeys m :=
    mapKeys_sortExportsPathEntries m
  have hndP : (sortByLe strLe (pathsOf m)).Nodup :=
    sortByLe_nodup (groupOf_keys_nodup hnd (fun k => isPathKey k))
  have hndT : (sortByLe strLe (typesOf m)).Nodup :=
    sortByLe_nodup (groupOf_keys_nodup hnd (fun k => !isPathKey k && !isDefaultKey k && isTypesKey k))
  have hndO : (sortByLe strLe (othersOf m)).Nodup :=
    sortByLe_nodup (groupOf_keys_nodup hnd (fun k => !isPathKey k && !isDefaultKey k && !isTypesKey k))
  have hsubP : ∀ k ∈ sortByLe strLe (pathsOf m), k ∈ mapKeys (sortExportsPathEntries m) := by
    intro k hk
    rw [hkeys']
    exact mem_groupOf_keys _ ((sortByLe_perm _ _).subset hk)
  have hsubT : ∀ k ∈ sortByLe strLe (typesOf m), k ∈ mapKeys (sortExportsPathEntries m) := by
    intro k hk
    rw [hkeys']
    exact mem_groupOf_keys (fun k => !isPathKey k && !isDefaultKey k && isTypesKey k)
      ((sortByLe_perm strLe (typesOf m)).subset hk)
  have hsubO : ∀ k ∈ sortByLe strLe (othersOf m), k ∈ mapKeys (sortExportsPathEntries m) := by
    intro k hk
    rw [hkeys']
    exact mem_groupOf_keys (fun k => !isPathKey k && !isDefaultKey k && !isTypesKey k)
      ((sortByLe_perm strLe (othersOf m)).subset hk)
  have hkeysP : mapKeys (selectKeys (sortExportsPathEntries m) (sortByLe strLe (pathsOf m))) =
      sortByLe strLe (pathsOf m) := mapKeys_selectKeys_all_present _ _ hsubP
  have hkeysT : mapKeys (selectKeys (sortExportsPathEntries m) (sortByLe strLe (typesOf m))) =
      sortByLe strLe (typesOf m) := mapKeys_selectKeys_all_present _ _ hsubT
  have hkeysO : mapKeys (selectKeys (sortExportsPathEntries m) (sortByLe strLe (othersOf m))) =
      sortByLe strLe (othersOf m) := mapKeys_selectKeys_all_present _ _ hsubO
  simp only [sort_exports, rebuildExports, classifyExports_eq,
    pathsOf_sortExportsPathEntries, typesOf_sortExportsPathEntries,
    othersOf_sortExportsPathEntries, defaultLastOf_sortExportsPathEntries]
  rw [foldl_get_insert (sortExportsPathEntries m) (sortByLe strLe (pathsOf m)) hndP []
    (fun k _ => rfl)]
  rw [foldl_get_insert (sortExportsPathEntries m) (sortByLe strLe (typesOf m)) hndT _ ?hT]
  case hT =>
    intro k hk
    rw [mapContains_eq_false_iff, List.nil_append, hkeysP]
    intro hmem
    have hp := mem_pathsOf ((sortByLe_perm strLe (pathsOf m)).subset hmem)
    have ht := mem_typesOf ((sortByLe_perm strLe (typesOf m)).subset hk)
    rw [ht.1] at hp
    cases hp
  rw [foldl_get_insert (sortExportsPathEntries m) (sortByLe strLe (othersOf m)) hndO _ ?hO]
  case hO =>
    intro k hk
    rw [mapContains_eq_false_iff]
    have ho := mem_othersOf ((sortByLe_perm strLe (othersOf m)).subset hk)
    intro hmem
    rw [List.nil_append] at hmem
    simp only [mapKeys, List.map_append] at hmem
    rcases List.mem_append.mp hmem with h1 | h2
    · have hp := mem_pathsOf ((sortByLe_perm strLe (pathsOf m)).subset (by
        simpa [mapKeys] using (hkeysP ▸ (by simpa [mapKeys] using h1 :
          k ∈ mapKeys (selectKeys (sortExportsPathEntries m)
            (sortByLe strLe (pathsOf m)))))))
      rw [ho.1] at hp
      cases hp
    · have ht := mem_typesOf ((sortByLe_perm strLe (typesOf m)).subset (by
        simpa [mapKeys] using (hkeysT ▸ (by simpa [mapKeys] using h2 :
          k ∈ mapKeys (selectKeys (sortExportsPathEntries m)
            (sortByLe strLe (typesOf m)))))))
      rw [ho.2.2] at ht
      cases ht.2.2
  cases hdl : defaultLastOf m with
  | none => simp
  | some p =>
    obtain ⟨p1, p2⟩ := p
    have hdp := defaultLastOf_some hnd hdl
    have hpk : p1 = "default" := by
      have := hdp.1
      simp [isDefaultKey] at this
      exact this
    have hcont : mapContains ((([] ++
        selectKeys (sortExportsPathEntries m) (sortByLe strLe (pathsOf m))) ++
        selectKeys (sortExportsPathEntries m) (sortByLe strLe (typesOf m))) ++
        selectKeys (sortExportsPathEntries m) (sortByLe strLe (othersOf m))) p1 = false := by
      rw [mapContains_eq_false_iff]
      intro hmem
      simp only [mapKeys, List.map_append, List.nil_append] at hmem
      rcases List.mem_append.mp hmem with h12 | h3
      · rcases List.mem_append.mp h12 with h1 | h2
        · have hp := mem_pathsOf ((sortByLe_perm strLe (pathsOf m)).subset (by
            simpa [mapKeys] using (hkeysP ▸ (by simpa [mapKeys] using h1 :
              p1 ∈ mapKeys (selectKeys (sortExportsPathEntries m)
                (sortByLe strLe (pathsOf m)))))))
          rw [hpk] at hp
          cases hp
        · have ht := mem_typesOf ((sortByLe_perm strLe (typesOf m)).subset (by
            simpa [mapKeys] using (hkeysT ▸ (by simpa [mapKeys] using h2 :
              p1 ∈ mapKeys (selectKeys (sortExportsPathEntries m)
                (sortByLe strLe (typesOf m)))))))
          rw [hpk] at ht
          cases ht.2.1
      · have ho := mem_othersOf ((sortByLe_perm strLe (othersOf m)).subset (by
          simpa [mapKeys] using (hkeysO ▸ (by simpa [mapKeys] using h3 :
            p1 ∈ mapKeys (selectKeys (sortExportsPathEntries m)
              (sortByLe strLe (othersOf m)))))))
        rw [hpk] at ho
        cases ho.2.1
    simp only [mapInsert_not_contains hcont]
    simp

/-- The four export groups together cover the object's keys exactly. -/
theorem exports_groups_perm : ∀ (m : JMap), (mapKeys m).Nodup →
    (pathsOf m ++ (typesOf m ++ (othersOf m ++
      (match defaultLastOf m with | some p => [p.1] | none => [])))).Perm (mapKeys m)
  | [], _ => by simp [pathsOf, typesOf, othersOf, defaultLastOf, mapKeys]
  | (k, v) :: rest, hnd => by
    obtain ⟨hq, hnd'⟩ := List.pairwise_cons.mp hnd
    have IH := exports_groups_perm rest hnd'
    by_cases hp : isPathKey k = true
    · simp only [pathsOf, typesOf, othersOf, defaultLastOf, List.filter_cons, mapKeys,
        List.map_cons, hp, Bool.not_true, Bool.false_and, Bool.and_false, if_false, if_true,
        List.cons_append, Option.or_none, Bool.false_eq_true, eq_self_iff_true]
      exact .cons k IH
    · have hpf : isPathKey k = false := by simpa using hp
      by_cases hd : isDefaultKey k = true
      · have hdlrest : defaultLastOf rest = none := by
          cases hx : defaultLastOf rest with
          | none => rfl
          | some r =>
            obtain ⟨hrd, hrg⟩ := defaultLastOf_some hnd' hx
            have hkr : k = r.1 := by
              have h1 : k = "default" := by simpa [isDefaultKey] using hd
              have h2 : r.1 = "default" := by simpa [isDefaultKey] using hrd
              rw [h1, h2]
            exact absurd hkr (hq r.1 (mapGet_key_mem hrg))
        rw [hdlrest] at IH
        simp only [List.append_nil] at IH
        simp only [pathsOf, typesOf, othersOf, defaultLastOf, List.filter_cons, mapKeys,
          List.map_cons, hpf, hd, hdlrest, Bool.not_false, Bool.not_true, Bool.true_and,
          Bool.and_false, Bool.false_and, Bool.and_true, if_false, if_true, Option.none_or,
          Bool.false_eq_true, eq_self_iff_true]
        have hassoc : pathsOf rest ++ (typesOf rest ++ (othersOf rest ++ [k])) =
            (pathsOf rest ++ (typesOf rest ++ othersOf rest)) ++ [k] := by
          simp [List.append_assoc]
        simp only [pathsOf, typesOf, othersOf] at hassoc
        rw [hassoc]
        exact (List.perm_append_singleton _ _).trans (.cons k IH)
      · have hdf : isDefaultKey k = false := by simpa using hd
        by_cases ht : isTypesKey k = true
        · simp only [pathsOf, typesOf, othersOf, defaultLastOf, List.filter_cons, mapKeys,
            List.map_cons, hpf, hdf, ht, Bool.not_false, Bool.true_and, Bool.and_true,
            Bool.and_false, if_false, if_true, List.cons_append, Option.or_none,
            Bool.false_eq_true, eq_self_iff_true]
          exact List.perm_middle.trans (.cons k IH)
        · have htf : isTypesKey k = false := by simpa using ht
          simp only [pathsOf, typesOf, othersOf, defaultLastOf, List.filter_cons, mapKeys,
            List.map_cons, hpf, hdf, htf, Bool.not_false, Bool.true_and, Bool.and_false,
            Bool.and_true, if_false, if_true, List.cons_append, Option.or_none,
            Bool.false_eq_true, eq_self_iff_true]
          exact ((List.Perm.append_left _ List.perm_middle).trans List.perm_middle).trans
            (.cons k IH)

/-- A key-sorted list of distinct strings is strictly ascending. -/
theorem sorted_keys_strict (ks : List String) (hnd : (sortByLe strLe ks).Nodup) :
    (sortByLe strLe ks).Pairwise (fun a b => strLt a b = true) := by
  have hpw := sortByLe_pairwise (fun a b => strLe_total a b)
    (fun a b c h1 h2 => strLe_trans h1 h2) ks
  exact (hpw.and hnd).imp (fun h => strLt_of_strLe_ne h.1 h.2)

/-! ## Claim C7 -/

/-- **C7**: `sort_exports` on an object (with distinct keys, as every JSON
object) partitions the entries into four groups — path conditions (keys
starting with `.`), `types` conditions (`types` or `types@...`), other
named conditions, and the `default` condition — emits them in that fixed
order, covers every key exactly once, and sorts keys strictly ascending
within each of the first three groups (the `default` group has at most one
entry). -/
theorem C7_exports_grouping (m : JMap) (hnd : (mapKeys m).Nodup) :
    ∃ ps ts os ds,
      sort_exports m = ps ++ (ts ++ (os ++ ds)) ∧
      (mapKeys (ps ++ (ts ++ (os ++ ds)))).Perm (mapKeys m) ∧
      (∀ p ∈ ps, isPathKey p.1 = true) ∧
      (∀ p ∈ ts, isPathKey p.1 = false ∧ isDefaultKey p.1 = false ∧ isTypesKey p.1 = true) ∧
      (∀ p ∈ os, isPathKey p.1 = false ∧ isDefaultKey p.1 = false ∧ isTypesKey p.1 = false) ∧
      (∀ p ∈ ds, isDefaultKey p.1 = true) ∧ ds.length ≤ 1 ∧
      (mapKeys ps).Pairwise (fun a b => strLt a b = true) ∧
      (mapKeys ts).Pairwise (fun a b => strLt a b = true) ∧
      (mapKeys os).Pairwise (fun a b => strLt a b = true) := by
  have hkeys' : mapKeys (sortExportsPathEntries m) = mapKeys m :=
    mapKeys_sortExportsPathEntries m
  have hndP : (sortByLe strLe (pathsOf m)).Nodup :=
    sortByLe_nodup (groupOf_keys_nodup hnd (fun k => isPathKey k))
  have hndT : (sortByLe strLe (typesOf m)).Nodup :=
    sortByLe_nodup (groupOf_keys_nodup hnd (fun k => !isPathKey k && !isDefaultKey k && isTypesKey k))
  have hndO : (sortByLe strLe (othersOf m)).Nodup :=
    sortByLe_nodup (groupOf_keys_nodup hnd (fun k => !isPathKey k && !isDefaultKey k && !isTypesKey k))
  have hsubP : ∀ k ∈ sortByLe strLe (pathsOf m), k ∈ mapKeys (sortExportsPathEntries m) := by
    intro k hk
    rw [hkeys']
    exact mem_groupOf_keys (fun k => isPathKey k) ((sortByLe_perm strLe (pathsOf m)).subset hk)
  have hsubT : ∀ k ∈ sortByLe strLe (typesOf m), k ∈ mapKeys (sortExportsPathEntries m) := by
    intro k hk
    rw [hkeys']
    exact mem_groupOf_keys (fun k => !isPathKey k && !isDefaultKey k && isTypesKey k)
      ((sortByLe_perm strLe (typesOf m)).subset hk)
  have hsubO : ∀ k ∈ sortByLe strLe (othersOf m), k ∈ mapKeys (sortExportsPathEntries m) := by
    intro k hk
    rw [hkeys']
    exact mem_groupOf_keys (fun k => !isPathKey k && !isDefaultKey k && !isTypesKey k)
      ((sortByLe_perm strLe (othersOf m)).subset hk)
  have hkeysP := mapKeys_selectKeys_all_present _ _ hsubP
  have hkeysT := mapKeys_selectKeys_all_present _ _ hsubT
  have hkeysO := mapKeys_selectKeys_all_present _ _ hsubO
  refine ⟨selectKeys (sortExportsPathEntries m) (sortByLe strLe (pathsOf m)),
    selectKeys (sortExportsPathEntries m) (sortByLe strLe (typesOf m)),
    selectKeys (sortExportsPathEntries m) (sortByLe strLe (othersOf m)),
    (match defaultLastOf m with | some p => [p] | none => []),
    sort_exports_eq m hnd, ?_, ?_, ?_, ?_, ?_, ?_, ?_, ?_, ?_⟩
  · simp only [mapKeys, List.map_append]
    simp only [mapKeys] at hkeysP hkeysT hkeysO
    rw [hkeysP, hkeysT, hkeysO]
    have hds : (List.map (fun p => p.1)
        (match defaultLastOf m with | some p => [p] | none => ([] : JMap))) =
        (match defaultLastOf m with | some p => [p.1] | none => []) := by
      cases defaultLastOf m <;> simp
    rw [hds]
    have h1 : (sortByLe strLe (pathsOf m) ++ (sortByLe strLe (typesOf m) ++
        (sortByLe strLe (othersOf m) ++
          (match defaultLastOf m with | some p => [p.1] | none => [])))).Perm
        (pathsOf m ++ (typesOf m ++ (othersOf m ++
          (match defaultLastOf m with | some p => [p.1] | none => [])))) :=
      List.Perm.append (sortByLe_perm _ _)
        (List.Perm.append (sortByLe_perm _ _)
          (List.Perm.append (sortByLe_perm _ _) (List.Perm.refl _)))
    exact h1.trans (exports_groups_perm m hnd)
  · intro p hp
    obtain ⟨hmem, _⟩ := mem_selectKeys.mp (by exact hp)
    exact mem_pathsOf ((sortByLe_perm strLe (pathsOf m)).subset hmem)
  · intro p hp
    obtain ⟨hmem, _⟩ := mem_selectKeys.mp (by exact hp)
    exact mem_typesOf ((sortByLe_perm strLe (typesOf m)).subset hmem)
  · intro p hp
    obtain ⟨hmem, _⟩ := mem_selectKeys.mp (by exact hp)
    exact mem_othersOf ((sortByLe_perm strLe (othersOf m)).subset hmem)
  · intro p hp
    cases hdl : defaultLastOf m with
    | some q =>
      rw [hdl] at hp
      have : p = q := by simpa using hp
      rw [this]
      exact (defaultLastOf_some hnd hdl).1
    | none =>
      rw [hdl] at hp
      cases hp
  · cases defaultLastOf m <;> simp
  · rw [show mapKeys (selectKeys (sortExportsPathEntries m) (sortByLe strLe (pathsOf m))) =
      sortByLe strLe (pathsOf m) from hkeysP]
    exact sorted_keys_strict _ hndP
  · rw [show mapKeys (selectKeys (sortExportsPathEntries m) (sortByLe strLe (typesOf m))) =
      sortByLe strLe (typesOf m) from hkeysT]
    exact sorted_keys_strict _ hndT
  · rw [show mapKeys (selectKeys (sortExportsPathEntries m) (sortByLe strLe (othersOf m))) =
      sortByLe strLe (othersOf m) from hkeysO]
    exact sorted_keys_strict _ hndO

/-- Witness for C7 at a concrete exports object with all four groups. -/
theorem C7_witness :
    ((mapKeys [("node", JValue.str "n"), ("default", JValue.str "d"),
      ("types", JValue.str "t"), (".", JValue.str "p"), ("import", JValue.str "i")]).Nodup) ∧
      (∃ ps ts os ds,
        sort_exports [("node", JValue.str "n"), ("default", JValue.str "d"),
          ("types", JValue.str "t"), (".", JValue.str "p"), ("import", JValue.str "i")] =
          ps ++ (ts ++ (os ++ ds)) ∧
        (mapKeys (ps ++ (ts ++ (os ++ ds)))).Perm
          (mapKeys [("node", JValue.str "n"), ("default", JValue.str "d"),
            ("types", JValue.str "t"), (".", JValue.str "p"), ("import", JValue.str "i")]) ∧
        (∀ p ∈ ps, isPathKey p.1 = true) ∧
        (∀ p ∈ ts, isPathKey p.1 = false ∧ isDefaultKey p.1 = false ∧ isTypesKey p.1 = true) ∧
        (∀ p ∈ os, isPathKey p.1 = false ∧ isDefaultKey p.1 = false ∧
          isTypesKey p.1 = false) ∧
        (∀ p ∈ ds, isDefaultKey p.1 = true) ∧ ds.length ≤ 1 ∧
        (mapKeys ps).Pairwise (fun a b => strLt a b = true) ∧
        (mapKeys ts).Pairwise (fun a b => strLt a b = true) ∧
        (mapKeys os).Pairwise (fun a b => strLt a b = true)) :=
  ⟨by decide,
    C7_exports_grouping [("node", JValue.str "n"), ("default", JValue.str "d"),
      ("types", JValue.str "t"), (".", JValue.str "p"), ("import", JValue.str "i")]
      (by decide)⟩

/-! ## Claim C6 -/

/-- **C6** (counterexample): the claim says `sort-exports` recurses into
object values in all four groups.  But on the exports object
`{"import": {"b": null, "a": null}}` — whose single entry `import` is an
other-named-condition — the code copies the nested object unchanged
(`b` before `a`), even though applying `sort_exports` to the nested object
would reorder it (`a` before `b`).  So the nested value is NOT canonicalized
by `sort-exports`, refuting the claim for the other-conditions group. -/
theorem C6_counterexample :
    sort_exports [("import", JValue.obj [("b", JValue.null), ("a", JValue.null)])] =
      [("import", JValue.obj [("b", JValue.null), ("a", JValue.null)])] ∧
      sort_exports [("b", JValue.null), ("a", JValue.null)] ≠
        [("b", JValue.null), ("a", JValue.null)] := by
  constructor
  · decide
  · decide

/-- **C6** (amended): the `sort-exports` recursion applies exactly to the
path-conditions group: the value of every entry whose key starts with `.`
is transformed by the recursive step (`sortExportsValue`, which applies
`sort_exports` to object values and is the identity elsewhere), and the
value of every other entry — `types`, other named conditions, and `default`
— is copied structurally unchanged. -/
theorem C6_recursion_only_on_paths (m : JMap) (hnd : (mapKeys m).Nodup) :
    ∀ k, mapGet (sort_exports m) k =
      (mapGet m k).map (fun v => if isPathKey k = true then sortExportsValue v else v) := by
  have hkeys' : mapKeys (sortExportsPathEntries m) = mapKeys m :=
    mapKeys_sortExportsPathEntries m
  have hndP : (sortByLe strLe (pathsOf m)).Nodup :=
    sortByLe_nodup (groupOf_keys_nodup hnd (fun k => isPathKey k))
  have hndT : (sortByLe strLe (typesOf m)).Nodup :=
    sortByLe_nodup (groupOf_keys_nodup hnd (fun k => !isPathKey k && !isDefaultKey k && isTypesKey k))
  have hndO : (sortByLe strLe (othersOf m)).Nodup :=
    sortByLe_nodup (groupOf_keys_nodup hnd (fun k => !isPathKey k && !isDefaultKey k && !isTypesKey k))
  intro k
  rw [sort_exports_eq m hnd, mapGet_append, mapGet_append, mapGet_append]
  rw [mapGet_selectKeys _ hndP k, mapGet_selectKeys _ hndT k, mapGet_selectKeys _ hndO k]
  have hPm : k ∈ sortByLe strLe (pathsOf m) ↔ (isPathKey k = true ∧ k ∈ mapKeys m) := by
    rw [(sortByLe_perm strLe (pathsOf m)).mem_iff]
    constructor
    · intro h
      exact ⟨mem_pathsOf h, mem_groupOf_keys (fun k => isPathKey k) h⟩
    · rintro ⟨h1, h2⟩
      exact mem_key_of_mem_group (fun k => isPathKey k) h2 h1
  have hTm : k ∈ sortByLe strLe (typesOf m) ↔
      ((!isPathKey k && !isDefaultKey k && isTypesKey k) = true ∧ k ∈ mapKeys m) := by
    rw [(sortByLe_perm strLe (typesOf m)).mem_iff]
    constructor
    · intro h
      obtain ⟨h1, h2, h3⟩ := mem_typesOf h
      exact ⟨by simp [h1, h2, h3],
        mem_groupOf_keys (fun k => !isPathKey k && !isDefaultKey k && isTypesKey k) h⟩
    · rintro ⟨h1, h2⟩
      exact mem_key_of_mem_group (fun k => !isPathKey k && !isDefaultKey k && isTypesKey k)
        h2 h1
  have hOm : k ∈ sortByLe strLe (othersOf m) ↔
      ((!isPathKey k && !isDefaultKey k && !isTypesKey k) = true ∧ k ∈ mapKeys m) := by
    rw [(sortByLe_perm strLe (othersOf m)).mem_iff]
    constructor
    · intro h
      obtain ⟨h1, h2, h3⟩ := mem_othersOf h
      exact ⟨by simp [h1, h2, h3],
        mem_groupOf_keys (fun k => !isPathKey k && !isDefaultKey k && !isTypesKey k) h⟩
    · rintro ⟨h1, h2⟩
      exact mem_key_of_mem_group (fun k => !isPathKey k && !isDefaultKey k && !isTypesKey k)
        h2 h1
  have hds : mapGet (match defaultLastOf m with | some p => [p] | none => ([] : JMap)) k =
      (if (!isPathKey k && isDefaultKey k) = true then mapGet m k else none) := by
    cases hdl : defaultLastOf m with
    | some p =>
      obtain ⟨hd1, hd2⟩ := defaultLastOf_some hnd hdl
      have hp1 : p.1 = "default" := by simpa [isDefaultKey] using hd1
      by_cases hkd : k = "default"
      · have hke : p.1 = k := by rw [hp1, hkd]
        have hpath : isPathKey k = false := by
          rw [hkd]
          decide
        obtain ⟨q1, q2⟩ := p
        simp only at hke
        rw [hke] at hd2 ⊢
        rw [mapGet_cons_self, hd2]
        have hcond : (!isPathKey k && isDefaultKey k) = true := by
          rw [hpath]
          simp [isDefaultKey, hkd]
        rw [if_pos hcond]
      · have hne : p.1 ≠ k := by
          rw [hp1]
          exact fun he => hkd he.symm
        obtain ⟨q1, q2⟩ := p
        rw [mapGet_cons_ne hne]
        have hkdf : isDefaultKey k = false := by
          simpa [isDefaultKey] using hkd
        simp [mapGet, hkdf]
    | none =>
      by_cases hkd : isDefaultKey k = true
      · have hkds : k = "default" := by simpa [isDefaultKey] using hkd
        have hpath : isPathKey k = false := by
          rw [hkds]
          decide
        have hget : mapGet m k = none := by
          cases hg : mapGet m k with
          | none => rfl
          | some v =>
            exact absurd (mapGet_mem hg) (defaultLastOf_none hdl hpath hkd)
        have hcond : (!isPathKey k && isDefaultKey k) = true := by
          simp [hpath, hkd]
        rw [if_pos hcond, hget]
        rfl
      · have hkdf : isDefaultKey k = false := by simpa using hkd
        simp [mapGet, hkdf]
  rw [hds]
  by_cases hp : isPathKey k = true
  · by_cases hmem : k ∈ mapKeys m
    · rw [if_pos (hPm.mpr ⟨hp, hmem⟩), mapGet_sortExportsPathEntries]
      obtain ⟨v, hv⟩ := mapGet_isSome_of_mem hmem
      simp [hv, hp]
    · obtain ⟨hg⟩ : mapGet m k = none ∧ True := ⟨mapGet_eq_none_iff.mpr hmem, trivial⟩
      rw [if_neg (fun h => hmem (hPm.mp h).2), if_neg (fun h => hmem (hTm.mp h).2),
        if_neg (fun h => hmem (hOm.mp h).2)]
      simp [hg, hp]
  · have hpf : isPathKey k = false := by simpa using hp
    rw [if_neg (fun h => by rw [(hPm.mp h).1] at hpf; cases hpf)]
    by_cases hmem : k ∈ mapKeys m
    · obtain ⟨v, hv⟩ := mapGet_isSome_of_mem hmem
      by_cases hd : isDefaultKey k = true
      · have htf : (!isPathKey k && !isDefaultKey k && isTypesKey k) = false := by
          simp [hd]
        have hof : (!isPathKey k && !isDefaultKey k && !isTypesKey k) = false := by
          simp [hd]
        rw [if_neg (fun h => by rw [(hTm.mp h).1] at htf; cases htf),
          if_neg (fun h => by rw [(hOm.mp h).1] at hof; cases hof)]
        simp [hv, hpf, hd]
      · have hdf : isDefaultKey k = false := by simpa using hd
        by_cases ht : isTypesKey k = true
        · rw [if_pos (hTm.mpr ⟨by simp [hpf, hdf, ht], hmem⟩), mapGet_sortExportsPathEntries]
          simp [hv, hpf, hdf]
        · have htf2 : isTypesKey k = false := by simpa using ht
          rw [if_neg (fun h => by
            have := (hTm.mp h).1
            rw [hpf, hdf, htf2] at this
            simp at this)]
          rw [if_pos (hOm.mpr ⟨by simp [hpf, hdf, htf2], hmem⟩), mapGet_sortExportsPathEntries]
          simp [hv, hpf, hdf]
    · have hg : mapGet m k = none := mapGet_eq_none_iff.mpr hmem
      rw [if_neg (fun h => hmem (hTm.mp h).2), if_neg (fun h => hmem (hOm.mp h).2)]
      simp [hg, hpf]

/-- Witness for the amended C6 at a concrete exports object: the path entry
`.` is recursed into, the other-condition entry `import` is not. -/
theorem C6_amended_witness :
    ((mapKeys [(".", JValue.obj [("z", JValue.null), ("default", JValue.str "d")]),
      ("import", JValue.obj [("b", JValue.null), ("a", JValue.null)])]).Nodup) ∧
      ∀ k, mapGet (sort_exports
        [(".", JValue.obj [("z", JValue.null), ("default", JValue.str "d")]),
          ("import", JValue.obj [("b", JValue.null), ("a", JValue.null)])]) k =
        (mapGet [(".", JValue.obj [("z", JValue.null), ("default", JValue.str "d")]),
          ("import", JValue.obj [("b", JValue.null), ("a", JValue.null)])] k).map
          (fun v => if isPathKey k = true then sortExportsValue v else v) :=
  ⟨by decide,
    C6_recursion_only_on_paths
      [(".", JValue.obj [("z", JValue.null), ("default", JValue.str "d")]),
        ("import", JValue.obj [("b", JValue.null), ("a", JValue.null)])] (by decide)⟩

/-! ## Parser rejection of non-value start characters -/

theorem parseValue_bad_start (fuel : Nat) (c : Char) (rest : List Char)
    (hws : isJsonWs c = false)
    (hn : c ≠ 'n') (ht : c ≠ 't') (hf : c ≠ 'f') (hq : c ≠ '"') (hlb : c ≠ '[')
    (hob : c ≠ '\x7b') (hm : c ≠ '-') (hd : isDigitChar c = false) :
    parseValue fuel (c :: rest) = none := by
  cases fuel with
  | zero => rfl
  | succ fuel =>
    have hskip : skipWs (c :: rest) = c :: rest := by simp [skipWs, hws]
    rw [parseValue, hskip]
    split
    · rfl
    · rename_i heq
      exact absurd (List.head_eq_of_cons_eq heq) hn
    · rename_i heq
      exact absurd (List.head_eq_of_cons_eq heq) ht
    · rename_i heq
      exact absurd (List.head_eq_of_cons_eq heq) hf
    · rename_i heq
      exact absurd (List.head_eq_of_cons_eq heq) hq
    · rename_i heq
      exact absurd (List.head_eq_of_cons_eq heq) hlb
    · rename_i heq
      exact absurd (List.head_eq_of_cons_eq heq) hob
    · rename_i hx1 hx2 heq
      injection heq with h1 h2
      rw [← h1]
      have hmb : (c == '-') = false := by simpa using hm
      simp [hmb, hd]

/-- A leading byte-order marker makes the whole text unparseable: the
marker is not JSON whitespace and starts no JSON value. -/
theorem bom_input_parse_error (s : String) (h : s.data.head? = some bomChar) :
    sort_package_json s = .error .parseError := by
  obtain ⟨rest, hrest⟩ : ∃ rest, s.data = bomChar :: rest := by
    cases hd : s.data with
    | nil => rw [hd] at h; cases h
    | cons c cs =>
      rw [hd] at h
      simp at h
      exact ⟨cs, by rw [h]⟩
  have hparse : parseJson s = none := by
    unfold parseJson
    rw [hrest, parseValue_bad_start _ _ _ (by decide) (by decide) (by decide) (by decide)
      (by decide) (by decide) (by decide) (by decide) (by decide)]
  unfold sort_package_json
  rw [hparse]

/-! ## Claim C10 -/

/-- **C10**: an input text beginning with the byte-order marker `U+FEFF`
is rejected: the parser treats the marker as an unexpected character (it
is not JSON whitespace and starts no JSON value), so `sort_package_json`
returns the parse error and no canonical output is produced. -/
theorem C10_bom_input_is_parse_error (s : String) (h : s.data.head? = some bomChar) :
    sort_package_json s = .error .parseError := bom_input_parse_error s h

/-- Witness for C10 at the concrete input `"﻿{}"`. -/
theorem C10_witness :
    ("\uFEFF\x7b\x7d".data.head? = some bomChar) ∧
      sort_package_json "\uFEFF\x7b\x7d" = .error .parseError :=
  ⟨by decide, C10_bom_input_is_parse_error "\uFEFF\x7b\x7d" (by decide)⟩

/-! ## The first character of rendered output -/

theorem digitChar_toNat {m : Nat} (h : m < 10) : (digitChar m).toNat = 48 + m := by
  interval_cases m <;> decide

theorem natToDigitsAux_digits :
    ∀ (fuel n : Nat) (c : Char), c ∈ natToDigitsAux fuel n →
      48 ≤ c.toNat ∧ c.toNat ≤ 57
  | 0, _, _ => by simp [natToDigitsAux]
  | fuel + 1, n, c => by
    intro hc
    rw [natToDigitsAux] at hc
    by_cases h : n < 10
    · rw [if_pos h] at hc
      simp at hc
      rw [hc, digitChar_toNat h]
      omega
    · rw [if_neg h] at hc
      rcases List.mem_append.mp hc with h1 | h2
      · exact natToDigitsAux_digits fuel (n / 10) c h1
      · simp at h2
        have h10 : n % 10 < 10 := Nat.mod_lt _ (by omega)
        rw [h2, digitChar_toNat h10]
        omega

theorem natToDigitsAux_ne_nil (fuel n : Nat) (h : 0 < fuel) :
    natToDigitsAux fuel n ≠ [] := by
  cases fuel with
  | zero => omega
  | succ fuel =>
    rw [natToDigitsAux]
    by_cases hn : n < 10
    · simp [hn]
    · rw [if_neg hn]
      simp

theorem natToChars_head (n : Nat) :
    ∃ c cs, natToChars n = c :: cs ∧ 48 ≤ c.toNat ∧ c.toNat ≤ 57 := by
  cases hc : natToChars n with
  | nil => exact absurd hc (natToDigitsAux_ne_nil (n + 1) n (by omega))
  | cons c cs =>
    have hmem : c ∈ natToDigitsAux (n + 1) n := by
      rw [show natToDigitsAux (n + 1) n = natToChars n from rfl, hc]
      exact List.mem_cons_self _ _
    exact ⟨c, cs, rfl, natToDigitsAux_digits _ _ _ hmem⟩

/-- The rendered form of any value starts with an ASCII character (one of
the brackets, a quote, a letter of a literal word, a minus sign, or a
digit) — in particular never with the byte-order marker. -/
theorem renderValue_head (ind : Nat) (v : JValue) :
    ∃ c cs, renderValue ind v = c :: cs ∧ c.toNat ≤ 123 := by
  cases v with
  | null => exact ⟨'n', ['u', 'l', 'l'], by simp [renderValue], by decide⟩
  | bool b =>
    cases b with
    | true => exact ⟨'t', ['r', 'u', 'e'], by simp [renderValue], by decide⟩
    | false => exact ⟨'f', ['a', 'l', 's', 'e'], by simp [renderValue], by decide⟩
  | num n =>
    cases n with
    | ofNat m =>
      obtain ⟨c, cs, hcons, h48, h57⟩ := natToChars_head m
      exact ⟨c, cs, by simp [renderValue, intToChars, hcons], by omega⟩
    | negSucc m =>
      exact ⟨'-', natToChars (m + 1), by simp [renderValue, intToChars], by decide⟩
  | str s => exact ⟨'"', escapeChars s.data ++ ['"'], by simp [renderValue], by decide⟩
  | arr elems =>
    cases elems with
    | nil => exact ⟨'[', [']'], by simp [renderValue], by decide⟩
    | cons e es =>
      exact ⟨'[', '\n' :: (renderItems (ind + 1) (e :: es) ++
        '\n' :: (indentChars ind ++ [']'])), by simp [renderValue], by decide⟩
  | obj entries =>
    cases entries with
    | nil => exact ⟨'\x7b', ['\x7d'], by simp [renderValue], by decide⟩
    | cons e es =>
      exact ⟨'\x7b', '\n' :: (renderMembers (ind + 1) (e :: es) ++
        '\n' :: (indentChars ind ++ ['\x7d'])), by simp [renderValue], by decide⟩

/-! ## Claim C5 -/

/-- **C5** (counterexample): the claim says a BOM-prefixed input is
canonicalized successfully with the marker re-prepended.  In the code there
is no BOM handling at all: on the BOM-prefixed text `"﻿{}"` (U+FEFF
followed by an empty object) `sort_package_json` fails with the parse
error instead of succeeding. -/
theorem C5_counterexample :
    sort_package_json (String.mk (bomChar :: "\x7b\x7d".data)) = .error .parseError ∧
      ¬ ∃ out, sort_package_json (String.mk (bomChar :: "\x7b\x7d".data)) = .ok out := by
  constructor
  · decide
  · rintro ⟨out, hout⟩
    rw [show sort_package_json (String.mk (bomChar :: "\x7b\x7d".data)) =
      .error .parseError from by decide] at hout
    cases hout

/-- **C5** (amended): there is no byte-order-marker handling: an input
beginning with the marker is rejected with the parse error, and a
successful output never begins with the marker (rendered output always
starts with an ASCII structural character). -/
theorem C5_bom_behaviour (s : String) :
    (s.data.head? = some bomChar → sort_package_json s = .error .parseError) ∧
    (∀ out, sort_package_json s = .ok out → out.data.head? ≠ some bomChar) := by
  constructor
  · exact bom_input_parse_error s
  · intro out hok
    unfold sort_package_json at hok
    split at hok
    · cases hok
    · rename_i v hp
      set sv := (match v with
        | JValue.obj obj => JValue.obj (sort_object_keys obj)
        | v => v) with hsv
      have hout := (Except.ok.inj hok).symm
      obtain ⟨c, cs, hcons, hbound⟩ := renderValue_head 0 sv
      have hdata : out.data = c :: (cs ++ ['\n']) := by
        rw [hout, hcons]
        rfl
      intro hbom
      rw [hdata] at hbom
      simp at hbom
      have hcn : c.toNat = bomChar.toNat := by rw [hbom]
      have hb : bomChar.toNat = 65279 := by decide
      omega

/-- Witness for the amended C5: the BOM-prefixed empty object is rejected;
the successful output for `"{}"` starts with a brace, not a marker. -/
theorem C5_witness :
    sort_package_json (String.mk (bomChar :: "\x7b\x7d".data)) = .error .parseError ∧
      ("\x7b\x7d\n".data.head? ≠ some bomChar) :=
  ⟨(C5_bom_behaviour (String.mk (bomChar :: "\x7b\x7d".data))).1 (by decide),
    (C5_bom_behaviour "\x7b\x7d").2 "\x7b\x7d\n" (by decide)⟩

/-! ## Claim C8 -/

/-- **C8**: `sort_package_json` fails exactly when the input text is not
well-formed JSON (for the modelled grammar), with the single `ParseError`
failure mode; on success the whole text is parsed and the canonical form
is returned — there is no partial success. -/
theorem C8_error_iff_unparseable (x : String) :
    ((∃ e, sort_package_json x = .error e) ↔ parseJson x = none) ∧
    (∀ v, parseJson x = some v → sort_package_json x =
      .ok (String.mk (renderValue 0
        (match v with
        | JValue.obj o => JValue.obj (sort_object_keys o)
        | w => w) ++ ['\n']))) := by
  constructor
  · constructor
    · rintro ⟨e, he⟩
      cases hp : parseJson x with
      | none => rfl
      | some v =>
        unfold sort_package_json at he
        rw [hp] at he
        cases he
    · intro hp
      unfold sort_package_json
      rw [hp]
      exact ⟨.parseError, rfl⟩
  · intro v hp
    unfold sort_package_json
    rw [hp]

/-- Witness for C8: an unparseable text errors; a parseable one returns
the rendered canonical form. -/
theorem C8_witness :
    (∃ e, sort_package_json "(" = Except.error e) ∧
      sort_package_json "null" = .ok (String.mk (renderValue 0 JValue.null ++ ['\n'])) :=
  ⟨(C8_error_iff_unparseable "(").1.mpr (by decide),
    (C8_error_iff_unparseable "null").2 JValue.null (by decide)⟩

/-! ## Wellformedness lemmas -/

theorem keysNodupB_iff : ∀ ks : List String, keysNodupB ks = true ↔ ks.Nodup
  | [] => by simp [keysNodupB]
  | k :: ks => by
    simp [keysNodupB, keysNodupB_iff ks, List.nodup_cons]

theorem wfVL_iff : ∀ es : List JValue, wfVL es = true ↔ ∀ e ∈ es, wfV e = true
  | [] => by simp [wfVL]
  | e :: es => by simp [wfVL, wfVL_iff es]

theorem wfVM_iff : ∀ m : JMap, wfVM m = true ↔ ∀ p ∈ m, wfV p.2 = true
  | [] => by simp [wfVM]
  | (k, v) :: rest => by simp [wfVM, wfVM_iff rest]

theorem wfV_obj {m : JMap} :
    wfV (.obj m) = (keysNodupB (mapKeys m) && wfVM m) := rfl

theorem wfV_arr {es : List JValue} : wfV (.arr es) = wfVL es := rfl

theorem wfV_obj_iff {m : JMap} :
    wfV (.obj m) = true ↔ (mapKeys m).Nodup ∧ ∀ p ∈ m, wfV p.2 = true := by
  rw [wfV_obj]
  simp [keysNodupB_iff, wfVM_iff]

theorem wfVM_of_perm {m1 m2 : JMap} (hp : m1.Perm m2) (h : wfVM m1 = true) :
    wfVM m2 = true := by
  rw [wfVM_iff] at h ⊢
  intro p hp2
  exact h p (hp.mem_iff.mpr hp2)

theorem wfVL_append {a b : List JValue} :
    wfVL (a ++ b) = true ↔ wfVL a = true ∧ wfVL b = true := by
  simp [wfVL_iff]
  constructor
  · intro h
    exact ⟨fun e he => h e (Or.inl he), fun e he => h e (Or.inr he)⟩
  · rintro ⟨h1, h2⟩ e (he | he)
    · exact h1 e he
    · exact h2 e he

/-! ## `mapInsert` preserves wellformedness -/

theorem mapKeys_mapInsert_contains {m : JMap} {k : String} {v : JValue}
    (h : mapContains m k = true) : mapKeys (mapInsert m k v) = mapKeys m := by
  simp only [mapInsert, h, if_true, mapKeys, List.map_map]
  refine List.map_congr_left ?_
  intro p _
  by_cases hpk : (p.1 == k) = true <;> simp [Function.comp, hpk]

theorem mapKeys_mapInsert_not_contains {m : JMap} {k : String} {v : JValue}
    (h : mapContains m k = false) : mapKeys (mapInsert m k v) = mapKeys m ++ [k] := by
  simp [mapInsert, h, mapKeys]

theorem mapKeys_mapInsert_nodup {m : JMap} {k : String} {v : JValue}
    (h : (mapKeys m).Nodup) : (mapKeys (mapInsert m k v)).Nodup := by
  cases hc : mapContains m k with
  | true => rw [mapKeys_mapInsert_contains hc]; exact h
  | false =>
    rw [mapKeys_mapInsert_not_contains hc]
    rw [List.nodup_append]
    refine ⟨h, List.nodup_singleton k, ?_⟩
    intro x hx hxk
    simp only [List.mem_singleton] at hxk
    subst hxk
    exact (mapContains_eq_false_iff.mp hc) hx

theorem wfVM_mapInsert {m : JMap} {k : String} {v : JValue}
    (hm : wfVM m = true) (hv : wfV v = true) : wfVM (mapInsert m k v) = true := by
  rw [wfVM_iff]
  intro p hp
  cases hc : mapContains m k with
  | true =>
    simp only [mapInsert, hc, if_true] at hp
    simp only [List.mem_map] at hp
    obtain ⟨q, hq, he⟩ := hp
    by_cases hqk : (q.1 == k) = true
    · rw [if_pos hqk] at he
      rw [← he]
      exact hv
    · rw [if_neg hqk] at he
      rw [← he]
      exact (wfVM_iff m).mp hm q hq
  | false =>
    simp only [mapInsert, hc, Bool.false_eq_true, if_false] at hp
    rcases List.mem_append.mp hp with h1 | h2
    · exact (wfVM_iff m).mp hm p h1
    · simp only [List.mem_singleton] at h2
      rw [h2]
      exact hv

/-! ## The parser emits only wellformed values -/

mutual

theorem parseValue_wf : ∀ (fuel : Nat) (input : List Char) (v : JValue) (r : List Char),
    parseValue fuel input = some (v, r) → wfV v = true
  | 0, _, _, _ => by intro h; cases h
  | fuel + 1, input, v, r => by
    intro h
    rw [parseValue] at h
    split at h
    · cases h
    · obtain ⟨h1, _⟩ := Prod.mk.injEq .. ▸ Option.some.inj h
      rw [← h1]; rfl
    · obtain ⟨h1, _⟩ := Prod.mk.injEq .. ▸ Option.some.inj h
      rw [← h1]; rfl
    · obtain ⟨h1, _⟩ := Prod.mk.injEq .. ▸ Option.some.inj h
      rw [← h1]; rfl
    · rename_i rest hx
      cases hsb : parseStringBody rest with
      | none => rw [hsb] at h; cases h
      | some pr =>
        rw [hsb] at h
        simp only [Option.map_some'] at h
        obtain ⟨h1, _⟩ := Prod.mk.injEq .. ▸ Option.some.inj h
        rw [← h1]; rfl
    · rename_i rest
      split at h
      · obtain ⟨h1, _⟩ := Prod.mk.injEq .. ▸ Option.some.inj h
        rw [← h1]; rfl
      · exact parseElems_wf fuel _ [] v r rfl h
    · rename_i rest
      split at h
      · obtain ⟨h1, _⟩ := Prod.mk.injEq .. ▸ Option.some.inj h
        rw [← h1]; rfl
      · exact parseMembers_wf fuel _ [] v r rfl h
    · split at h
      · cases hn : parseNumber _ with
        | none => rw [hn] at h; cases h
        | some pr =>
          rw [hn] at h
          simp only [Option.map_some'] at h
          obtain ⟨h1, _⟩ := Prod.mk.injEq .. ▸ Option.some.inj h
          rw [← h1]; rfl
      · cases h

theorem parseElems_wf : ∀ (fuel : Nat) (input : List Char) (acc : List JValue)
    (v : JValue) (r : List Char),
    wfVL acc = true → parseElems fuel input acc = some (v, r) → wfV v = true
  | 0, _, _, _, _ => by intro _ h; cases h
  | fuel + 1, input, acc, v, r => by
    intro hacc h
    rw [parseElems] at h
    split at h
    · cases h
    · rename_i w r1 hpv
      have hw : wfV w = true := parseValue_wf fuel input w r1 hpv
      have haccw : wfVL (acc ++ [w]) = true := by
        rw [wfVL_append]
        exact ⟨hacc, by simp [wfVL, hw]⟩
      split at h
      · exact parseElems_wf fuel _ (acc ++ [w]) v r haccw h
      · obtain ⟨h1, _⟩ := Prod.mk.injEq .. ▸ Option.some.inj h
        rw [← h1, wfV_arr]
        exact haccw
      · cases h

theorem parseMembers_wf : ∀ (fuel : Nat) (input : List Char) (acc : JMap)
    (v : JValue) (r : List Char),
    (keysNodupB (mapKeys acc) && wfVM acc) = true →
    parseMembers fuel input acc = some (v, r) → wfV v = true
  | 0, _, _, _, _ => by intro _ h; cases h
  | fuel + 1, input, acc, v, r => by
    intro hacc h
    obtain ⟨hnd, hwm⟩ := Bool.and_eq_true .. ▸ hacc
    rw [parseMembers] at h
    split at h
    · rename_i r1
      split at h
      · cases h
      · rename_i k r2 hsb
        split at h
        · rename_i r3 hx3
          split at h
          · cases h
          · rename_i w r4 hpv
            have hw : wfV w = true := parseValue_wf fuel r3 w r4 hpv
            have hnd2 : (mapKeys (mapInsert acc (String.mk k) w)).Nodup :=
              mapKeys_mapInsert_nodup ((keysNodupB_iff _).mp hnd)
            have hwm2 : wfVM (mapInsert acc (String.mk k) w) = true :=
              wfVM_mapInsert hwm hw
            have hacc2 : (keysNodupB (mapKeys (mapInsert acc (String.mk k) w)) &&
                wfVM (mapInsert acc (String.mk k) w)) = true := by
              rw [(keysNodupB_iff _).mpr hnd2, hwm2]
              rfl
            split at h
            · exact parseMembers_wf fuel _ _ v r hacc2 h
            · obtain ⟨h1, _⟩ := Prod.mk.injEq .. ▸ Option.some.inj h
              rw [← h1, wfV_obj]
              exact hacc2
            · cases h
        · cases h
    · cases h

end

/-- Every value produced by `parseJson` is wellformed: all its objects have
pairwise-distinct keys. -/
theorem parseJson_wf {s : String} {v : JValue} (h : parseJson s = some v) :
    wfV v = true := by
  unfold parseJson at h
  split at h
  · cases h
  · rename_i w r hpv
    split at h
    · exact Option.some.inj h ▸ parseValue_wf _ _ w r hpv
    · cases h

/-! ## Whitespace lemmas for the roundtrip -/

theorem skipWs_cons_ws {c : Char} {l : List Char} (h : isJsonWs c = true) :
    skipWs (c :: l) = skipWs l := by
  rw [skipWs, if_pos h]

theorem skipWs_cons_not_ws {c : Char} {l : List Char} (h : isJsonWs c = false) :
    skipWs (c :: l) = c :: l := by
  rw [skipWs, if_neg (by simp [h])]

theorem skipWs_append_ws : ∀ (ws l : List Char), (∀ c ∈ ws, isJsonWs c = true) →
    skipWs (ws ++ l) = skipWs l
  | [], _, _ => rfl
  | c :: ws, l, h => by
    rw [List.cons_append, skipWs_cons_ws (h c (List.mem_cons_self _ _))]
    exact skipWs_append_ws ws l (fun d hd => h d (List.mem_cons_of_mem _ hd))

theorem indentChars_ws {ind : Nat} : ∀ c ∈ indentChars ind, isJsonWs c = true := by
  intro c hc
  rw [indentChars] at hc
  rw [List.eq_of_mem_replicate hc]
  rfl

theorem char_ne_of_toNat_ne {c d : Char} (h : c.toNat ≠ d.toNat) : (c == d) = false := by
  rw [Bool.eq_false_iff]
  intro hb
  exact h (congrArg Char.toNat (beq_iff_eq.mp hb))

/-- Characters from code point 34 (`"`) upward are never JSON whitespace;
this covers every character a rendered value can start with. -/
theorem isJsonWs_false_of_ge {c : Char} (h : 34 ≤ c.toNat) : isJsonWs c = false := by
  have hsp : (' ').toNat = 32 := by decide
  have hta : ('\t').toNat = 9 := by decide
  have hlf : ('\n').toNat = 10 := by decide
  have hcr : ('\r').toNat = 13 := by decide
  have h1 : (c == ' ') = false := char_ne_of_toNat_ne (by omega)
  have h2 : (c == '\t') = false := char_ne_of_toNat_ne (by omega)
  have h3 : (c == '\n') = false := char_ne_of_toNat_ne (by omega)
  have h4 : (c == '\r') = false := char_ne_of_toNat_ne (by omega)
  simp [isJsonWs, h1, h2, h3, h4]

/-- The first character of a rendered value: never whitespace, never a
closing bracket or brace. -/
theorem renderValue_head_info (ind : Nat) (v : JValue) :
    ∃ c cs, renderValue ind v = c :: cs ∧ 34 ≤ c.toNat ∧ c.toNat ≠ 93 ∧ c.toNat ≠ 125 := by
  cases v with
  | null => exact ⟨'n', ['u', 'l', 'l'], by simp [renderValue], by decide, by decide, by decide⟩
  | bool b =>
    cases b with
    | true => exact ⟨'t', ['r', 'u', 'e'], by simp [renderValue], by decide, by decide, by decide⟩
    | false =>
      exact ⟨'f', ['a', 'l', 's', 'e'], by simp [renderValue], by decide, by decide, by decide⟩
  | num n =>
    cases n with
    | ofNat m =>
      obtain ⟨c, cs, hcons, h48, h57⟩ := natToChars_head m
      exact ⟨c, cs, by simp [renderValue, intToChars, hcons], by omega, by omega, by omega⟩
    | negSucc m =>
      exact ⟨'-', natToChars (m + 1), by simp [renderValue, intToChars], by decide, by decide,
        by decide⟩
  | str s =>
    exact ⟨'"', escapeChars s.data ++ ['"'], by simp [renderValue], by decide, by decide,
      by decide⟩
  | arr elems =>
    cases elems with
    | nil => exact ⟨'[', [']'], by simp [renderValue], by decide, by decide, by decide⟩
    | cons e es =>
      exact ⟨'[', '\n' :: (renderItems (ind + 1) (e :: es) ++
        '\n' :: (indentChars ind ++ [']'])), by simp [renderValue], by decide, by decide,
        by decide⟩
  | obj entries =>
    cases entries with
    | nil => exact ⟨'\x7b', ['\x7d'], by simp [renderValue], by decide, by decide, by decide⟩
    | cons e es =>
      exact ⟨'\x7b', '\n' :: (renderMembers (ind + 1) (e :: es) ++
        '\n' :: (indentChars ind ++ ['\x7d'])), by simp [renderValue], by decide, by decide,
        by decide⟩

/-! ## Roundtrip for strings -/

theorem hexVal_hexDigitChar {d : Nat} (h : d < 16) : hexVal (hexDigitChar d) = some d := by
  interval_cases d <;> decide

theorem parseStringBody_lit (c : Char) (rest : List Char)
    (hq : c ≠ '"') (hb : c ≠ '\\') (hc : 32 ≤ c.toNat) :
    parseStringBody (c :: rest) =
      (parseStringBody rest).map (fun pr => (c :: pr.1, pr.2)) := by
  rw [parseStringBody.eq_def]
  split
  · rename_i heq
    cases heq
  · rename_i r heq
    obtain ⟨h1, _⟩ := List.cons.injEq .. ▸ heq
    exact absurd h1 hq
  · rename_i h1 h2 h3 h4 r heq
    obtain ⟨he, _⟩ := List.cons.injEq .. ▸ heq
    exact absurd he hb
  · rename_i e r heq
    obtain ⟨he, _⟩ := List.cons.injEq .. ▸ heq
    exact absurd he hb
  · rename_i d r hx1 hx2 hx3 heq
    obtain ⟨he1, he2⟩ := List.cons.injEq .. ▸ heq
    rw [← he1, ← he2]
    rw [if_neg (by omega)]

theorem parse_escape_roundtrip : ∀ (cs rest : List Char),
    parseStringBody (escapeChars cs ++ '"' :: rest) = some (cs, rest)
  | [], _ => rfl
  | c :: cs, rest => by
    have IH := parse_escape_roundtrip cs rest
    have hassoc : escapeChars (c :: cs) ++ '"' :: rest =
        escapeChar c ++ (escapeChars cs ++ '"' :: rest) := by
      rw [escapeChars, List.append_assoc]
    rw [hassoc]
    by_cases h1 : c = '"'
    · subst h1
      have e : parseStringBody ('\\' :: '"' :: (escapeChars cs ++ '"' :: rest)) =
          (parseStringBody (escapeChars cs ++ '"' :: rest)).map
            (fun pr => ('"' :: pr.1, pr.2)) := rfl
      rw [show escapeChar '"' = ['\\', '"'] from rfl]
      rw [List.cons_append, List.cons_append, List.nil_append, e, IH]
      rfl
    by_cases h2 : c = '\\'
    · subst h2
      have e : parseStringBody ('\\' :: '\\' :: (escapeChars cs ++ '"' :: rest)) =
          (parseStringBody (escapeChars cs ++ '"' :: rest)).map
            (fun pr => ('\\' :: pr.1, pr.2)) := rfl
      rw [show escapeChar '\\' = ['\\', '\\'] from rfl]
      rw [List.cons_append, List.cons_append, List.nil_append, e, IH]
      rfl
    by_cases h3 : c = '\x08'
    · subst h3
      have e : parseStringBody ('\\' :: 'b' :: (escapeChars cs ++ '"' :: rest)) =
          (parseStringBody (escapeChars cs ++ '"' :: rest)).map
            (fun pr => ('\x08' :: pr.1, pr.2)) := rfl
      rw [show escapeChar '\x08' = ['\\', 'b'] from rfl]
      rw [List.cons_append, List.cons_append, List.nil_append, e, IH]
      rfl
    by_cases h4 : c = '\x0C'
    · subst h4
      have e : parseStringBody ('\\' :: 'f' :: (escapeChars cs ++ '"' :: rest)) =
          (parseStringBody (escapeChars cs ++ '"' :: rest)).map
            (fun pr => ('\x0C' :: pr.1, pr.2)) := rfl
      rw [show escapeChar '\x0C' = ['\\', 'f'] from rfl]
      rw [List.cons_append, List.cons_append, List.nil_append, e, IH]
      rfl
    by_cases h5 : c = '\n'
    · subst h5
      have e : parseStringBody ('\\' :: 'n' :: (escapeChars cs ++ '"' :: rest)) =
          (parseStringBody (escapeChars cs ++ '"' :: rest)).map
            (fun pr => ('\n' :: pr.1, pr.2)) := rfl
      rw [show escapeChar '\n' = ['\\', 'n'] from rfl]
      rw [List.cons_append, List.cons_append, List.nil_append, e, IH]
      rfl
    by_cases h6 : c = '\r'
    · subst h6
      have e : parseStringBody ('\\' :: 'r' :: (escapeChars cs ++ '"' :: rest)) =
          (parseStringBody (escapeChars cs ++ '"' :: rest)).map
            (fun pr => ('\r' :: pr.1, pr.2)) := rfl
      rw [show escapeChar '\r' = ['\\', 'r'] from rfl]
      rw [List.cons_append, List.cons_append, List.nil_append, e, IH]
      rfl
    by_cases h7 : c = '\t'
    · subst h7
      have e : parseStringBody ('\\' :: 't' :: (escapeChars cs ++ '"' :: rest)) =
          (parseStringBody (escapeChars cs ++ '"' :: rest)).map
            (fun pr => ('\t' :: pr.1, pr.2)) := rfl
      rw [show escapeChar '\t' = ['\\', 't'] from rfl]
      rw [List.cons_append, List.cons_append, List.nil_append, e, IH]
      rfl
    by_cases h8 : c.toNat < 32
    · have hesc : escapeChar c = ['\\', 'u', '0', '0',
          hexDigitChar (c.toNat / 16), hexDigitChar (c.toNat % 16)] := by
        rw [escapeChar]
        rw [if_neg (by simp [h1]), if_neg (by simp [h2]), if_neg (by simp [h3]),
          if_neg (by simp [h4]), if_neg (by simp [h5]), if_neg (by simp [h6]),
          if_neg (by simp [h7]), if_pos (by simpa using h8)]
      rw [hesc]
      have hd1 : c.toNat / 16 < 16 := by omega
      have hd2 : c.toNat % 16 < 16 := by omega
      rw [List.cons_append, List.cons_append, List.cons_append, List.cons_append,
        List.cons_append, List.cons_append, List.nil_append]
      rw [parseStringBody]
      rw [show hexVal '0' = some 0 from rfl, hexVal_hexDigitChar hd1, hexVal_hexDigitChar hd2]
      simp only []
      rw [if_neg (by simp only [Bool.and_eq_true, decide_eq_true_eq]; omega)]
      rw [if_neg (by simp only [Bool.and_eq_true, decide_eq_true_eq]; omega)]
      rw [IH]
      have hn : ((0 * 16 + 0) * 16 + c.toNat / 16) * 16 + c.toNat % 16 = c.toNat := by omega
      rw [hn, Char.ofNat_toNat]
      rfl
    · have hesc : escapeChar c = [c] := by
        rw [escapeChar]
        rw [if_neg (by simp [h1]), if_neg (by simp [h2]), if_neg (by simp [h3]),
          if_neg (by simp [h4]), if_neg (by simp [h5]), if_neg (by simp [h6]),
          if_neg (by simp [h7]), if_neg (by simpa using h8)]
      rw [hesc, List.cons_append, List.nil_append]
      rw [parseStringBody_lit c _ h1 h2 (by omega), IH]
      rfl

/-! ## Roundtrip for numerals -/

theorem isDigitChar_iff {c : Char} : isDigitChar c = true ↔ 48 ≤ c.toNat ∧ c.toNat ≤ 57 := by
  rw [isDigitChar]
  simp [Bool.and_eq_true, decide_eq_true_eq]

theorem natToDigitsAux_isDigit {fuel n : Nat} {c : Char} (h : c ∈ natToDigitsAux fuel n) :
    isDigitChar c = true := by
  obtain ⟨h48, h57⟩ := natToDigitsAux_digits fuel n c h
  exact isDigitChar_iff.mpr ⟨h48, h57⟩

theorem takeDigits_append : ∀ (ds rest : List Char),
    (∀ c ∈ ds, isDigitChar c = true) → headNotDigit rest = true →
    takeDigits (ds ++ rest) = (ds, rest)
  | [], rest, _, hr => by
    cases rest with
    | nil => rfl
    | cons c cs =>
      rw [List.nil_append, takeDigits]
      rw [headNotDigit] at hr
      have hcd : isDigitChar c = false := by simpa using hr
      rw [if_neg (by simp [hcd])]
  | d :: ds, rest, hd, hr => by
    rw [List.cons_append, takeDigits]
    rw [if_pos (hd d (List.mem_cons_self _ _))]
    rw [takeDigits_append ds rest (fun c hc => hd c (List.mem_cons_of_mem _ hc)) hr]

theorem digitsToNat_append (ds : List Char) (c : Char) :
    digitsToNat (ds ++ [c]) = digitsToNat ds * 10 + (c.toNat - 48) := by
  rw [digitsToNat, digitsToNat, List.foldl_append]
  rfl

theorem digitsToNat_natToDigitsAux : ∀ (fuel n : Nat), n < 10 ^ fuel →
    digitsToNat (natToDigitsAux fuel n) = n
  | 0, n, h => by
    simp only [pow_zero] at h
    simp only [natToDigitsAux, digitsToNat, List.foldl_nil]
    omega
  | fuel + 1, n, h => by
    rw [natToDigitsAux]
    by_cases hn : n < 10
    · rw [if_pos hn]
      show digitsToNat ([] ++ [digitChar n]) = n
      rw [digitsToNat_append, digitChar_toNat hn]
      simp [digitsToNat]
    · rw [if_neg hn]
      rw [digitsToNat_append]
      rw [digitsToNat_natToDigitsAux fuel (n / 10) (by
        rw [Nat.div_lt_iff_lt_mul (by omega)]
        rw [pow_succ] at h
        omega)]
      rw [digitChar_toNat (Nat.mod_lt _ (by omega))]
      omega

theorem lt_ten_pow (n : Nat) : n < 10 ^ (n + 1) :=
  calc n < 10 ^ n := Nat.lt_pow_self (by omega) n
  _ ≤ 10 ^ (n + 1) := Nat.pow_le_pow_right (by omega) (by omega)

theorem digitsToNat_natToChars (n : Nat) : digitsToNat (natToChars n) = n :=
  digitsToNat_natToDigitsAux (n + 1) n (lt_ten_pow n)

theorem natToDigitsAux_head_ne_zero : ∀ (fuel n : Nat), 0 < n → n < 10 ^ fuel →
    ∀ d ds, natToDigitsAux fuel n = d :: ds → d ≠ '0'
  | 0, n, hpos, hlt, d, ds => by
    intro _
    simp only [pow_zero] at hlt
    omega
  | fuel + 1, n, hpos, hlt, d, ds => by
    intro h
    rw [natToDigitsAux] at h
    by_cases hn : n < 10
    · rw [if_pos hn] at h
      obtain ⟨hd, _⟩ := List.cons.injEq .. ▸ h
      intro h0
      rw [h0] at hd
      have ht := digitChar_toNat hn
      rw [hd] at ht
      have hz : ('0').toNat = 48 := by decide
      omega
    · rw [if_neg hn] at h
      have hfuel : 0 < fuel := by
        rcases Nat.eq_zero_or_pos fuel with h0 | h0
        · subst h0
          simp only [zero_add, pow_one] at hlt
          omega
        · exact h0
      cases hrec : natToDigitsAux fuel (n / 10) with
      | nil => exact absurd hrec (natToDigitsAux_ne_nil fuel (n / 10) hfuel)
      | cons e es =>
        rw [hrec] at h
        rw [List.cons_append] at h
        obtain ⟨hd, _⟩ := List.cons.injEq .. ▸ h
        rw [← hd]
        refine natToDigitsAux_head_ne_zero fuel (n / 10) (by omega) ?_ e es hrec
        rw [Nat.div_lt_iff_lt_mul (by omega)]
        rw [pow_succ] at hlt
        omega

theorem parseNat_natToChars (m : Nat) (rest : List Char) (hr : headNotDigit rest = true) :
    parseNat (natToChars m ++ rest) = some (m, rest) := by
  obtain ⟨d, ds, hcons, h48, h57⟩ := natToChars_head m
  rw [parseNat]
  rw [takeDigits_append (natToChars m) rest (fun c hc => natToDigitsAux_isDigit hc) hr]
  rw [hcons]
  have hcond : (d == '0' && !ds.isEmpty) = false := by
    cases ds with
    | nil => simp
    | cons e es =>
      have hm10 : ¬ m < 10 := by
        intro hlt
        rw [natToChars, natToDigitsAux, if_pos hlt] at hcons
        simp at hcons
      have hne := natToDigitsAux_head_ne_zero (m + 1) m (by omega) (lt_ten_pow m) d (e :: es)
        hcons
      have hbe : (d == '0') = false := by
        rw [Bool.eq_false_iff]
        intro hb
        exact hne (beq_iff_eq.mp hb)
      simp [hbe]
  show (if (d == '0' && !ds.isEmpty) = true then none
    else some (digitsToNat (d :: ds), rest)) = some (m, rest)
  rw [hcond]
  simp only [Bool.false_eq_true, if_false]
  rw [← hcons, digitsToNat_natToChars]

theorem minus_toNat : ('-').toNat = 45 := by decide

theorem parseNumber_nonneg (m : Nat) (rest : List Char) (hr : headNotDigit rest = true) :
    parseNumber (natToChars m ++ rest) = some ((m : Int), rest) := by
  obtain ⟨d, ds, hcons, h48, h57⟩ := natToChars_head m
  have hsplit : natToChars m ++ rest = d :: (ds ++ rest) := by rw [hcons]; rfl
  rw [hsplit, parseNumber.eq_def]
  split
  · rename_i r heq
    obtain ⟨h1, _⟩ := List.cons.injEq .. ▸ heq
    rw [h1] at h48
    rw [minus_toNat] at h48
    omega
  · rw [← hsplit, parseNat_natToChars m rest hr]
    rfl

theorem parseNumber_negSucc (k : Nat) (rest : List Char) (hr : headNotDigit rest = true) :
    parseNumber ('-' :: (natToChars (k + 1) ++ rest)) = some (Int.negSucc k, rest) := by
  have e : parseNumber ('-' :: (natToChars (k + 1) ++ rest)) =
      (parseNat (natToChars (k + 1) ++ rest)).map (fun pr => (-(pr.1 : Int), pr.2)) := rfl
  rw [e, parseNat_natToChars (k + 1) rest hr]
  simp only [Option.map_some', Option.some.injEq, Prod.mk.injEq]
  constructor
  · rw [Int.negSucc_eq]
    push_cast
    ring
  · trivial

/-! ## Parser head equations -/

theorem parseValue_null (fuel : Nat) (rest : List Char) :
    parseValue (fuel + 1) ('n' :: 'u' :: 'l' :: 'l' :: rest) = some (.null, rest) := rfl

theorem parseValue_true (fuel : Nat) (rest : List Char) :
    parseValue (fuel + 1) ('t' :: 'r' :: 'u' :: 'e' :: rest) = some (.bool true, rest) := rfl

theorem parseValue_false (fuel : Nat) (rest : List Char) :
    parseValue (fuel + 1) ('f' :: 'a' :: 'l' :: 's' :: 'e' :: rest) =
      some (.bool false, rest) := rfl

theorem parseValue_quote (fuel : Nat) (rest : List Char) :
    parseValue (fuel + 1) ('"' :: rest) =
      (parseStringBody rest).map (fun pr => (.str (String.mk pr.1), pr.2)) := rfl

theorem parseValue_lbracket (fuel : Nat) (rest : List Char) :
    parseValue (fuel + 1) ('[' :: rest) =
      (match skipWs rest with
      | ']' :: rest2 => some (.arr [], rest2)
      | rest2 => parseElems fuel rest2 []) := rfl

theorem parseValue_lbrace (fuel : Nat) (rest : List Char) :
    parseValue (fuel + 1) ('\x7b' :: rest) =
      (match skipWs rest with
      | '\x7d' :: rest2 => some (.obj [], rest2)
      | rest2 => parseMembers fuel rest2 []) := rfl

theorem parseValue_minus (fuel : Nat) (rest : List Char) :
    parseValue (fuel + 1) ('-' :: rest) =
      (parseNumber ('-' :: rest)).map (fun pr => (.num pr.1, pr.2)) := rfl

theorem parseValue_digit (fuel : Nat) (c : Char) (rest : List Char)
    (h48 : 48 ≤ c.toNat) (h57 : c.toNat ≤ 57) :
    parseValue (fuel + 1) (c :: rest) =
      (parseNumber (c :: rest)).map (fun pr => (.num pr.1, pr.2)) := by
  have hws : isJsonWs c = false := isJsonWs_false_of_ge (by omega)
  have hskip : skipWs (c :: rest) = c :: rest := skipWs_cons_not_ws hws
  rw [parseValue, hskip]
  split
  · rename_i heq
    exact absurd heq (by simp)
  · rename_i heq
    have hc := List.head_eq_of_cons_eq heq
    rw [hc] at h57
    exact absurd h57 (by decide)
  · rename_i heq
    have hc := List.head_eq_of_cons_eq heq
    rw [hc] at h57
    exact absurd h57 (by decide)
  · rename_i heq
    have hc := List.head_eq_of_cons_eq heq
    rw [hc] at h57
    exact absurd h57 (by decide)
  · rename_i heq
    have hc := List.head_eq_of_cons_eq heq
    rw [hc] at h48
    exact absurd h48 (by decide)
  · rename_i heq
    have hc := List.head_eq_of_cons_eq heq
    rw [hc] at h57
    exact absurd h57 (by decide)
  · rename_i heq
    have hc := List.head_eq_of_cons_eq heq
    rw [hc] at h57
    exact absurd h57 (by decide)
  · rename_i hx1 hx2 heq
    injection heq with hh1 hh2
    rw [← hh1, ← hh2]
    have hcond : (c == '-' || isDigitChar c) = true := by
      rw [isDigitChar_iff.mpr ⟨h48, h57⟩]
      simp
    rw [if_pos hcond]

/-! ## Whitespace transparency of the parser entry points -/

theorem parseValue_ws : ∀ (fuel : Nat) (ws l : List Char),
    (∀ c ∈ ws, isJsonWs c = true) → parseValue fuel (ws ++ l) = parseValue fuel l
  | 0, _, _, _ => rfl
  | fuel + 1, ws, l, h => by
    rw [parseValue, parseValue, skipWs_append_ws ws l h]

theorem parseElems_ws (fuel : Nat) (ws l : List Char) (acc : List JValue)
    (h : ∀ c ∈ ws, isJsonWs c = true) :
    parseElems (fuel + 1) (ws ++ l) acc = parseElems (fuel + 1) l acc := by
  rw [parseElems, parseElems, parseValue_ws fuel ws l h]

theorem parseMembers_ws (fuel : Nat) (ws l : List Char) (acc : JMap)
    (h : ∀ c ∈ ws, isJsonWs c = true) :
    parseMembers (fuel + 1) (ws ++ l) acc = parseMembers (fuel + 1) l acc := by
  rw [parseMembers, parseMembers, skipWs_append_ws ws l h]

theorem nl_indent_ws (ind : Nat) : ∀ c ∈ ('\n' :: indentChars ind), isJsonWs c = true := by
  intro c hc
  rcases List.mem_cons.mp hc with rfl | hc2
  · rfl
  · exact indentChars_ws c hc2

/-! ## Step equations for the container parsers -/

theorem parseElems_step (f : Nat) (input : List Char) (acc : List JValue) (e : JValue)
    (r : List Char) (h : parseValue f input = some (e, r)) :
    parseElems (f + 1) input acc =
      (match skipWs r with
      | ',' :: r2 => parseElems f r2 (acc ++ [e])
      | ']' :: r2 => some (.arr (acc ++ [e]), r2)
      | _ => none) := by
  rw [parseElems, h]

theorem parseMembers_quote (f : Nat) (X : List Char) (acc : JMap) :
    parseMembers (f + 1) ('"' :: X) acc =
      (match parseStringBody X with
      | none => none
      | some (k, r2) =>
        match skipWs r2 with
        | ':' :: r3 =>
          (match parseValue f r3 with
          | none => none
          | some (v, r4) =>
            match skipWs r4 with
            | ',' :: r5 => parseMembers f r5 (mapInsert acc (String.mk k) v)
            | '\x7d' :: r5 => some (.obj (mapInsert acc (String.mk k) v), r5)
            | _ => none)
        | _ => none) := rfl

/-! ## Shapes of the rendered container bodies -/

theorem renderItems_shape (ind : Nat) (e : JValue) (es : List JValue) (close : List Char) :
    renderItems (ind + 1) (e :: es) ++ '\n' :: (indentChars ind ++ ']' :: close) =
      indentChars (ind + 1) ++ (renderValue (ind + 1) e ++ itemsRest ind es close) := by
  cases es with
  | nil => simp [renderItems, itemsRest]
  | cons e2 es2 => simp [renderItems, itemsRest]

theorem renderMembers_shape (ind : Nat) (k : String) (v : JValue) (ms : JMap)
    (close : List Char) :
    renderMembers (ind + 1) ((k, v) :: ms) ++ '\n' :: (indentChars ind ++ '\x7d' :: close) =
      indentChars (ind + 1) ++ ('"' :: (escapeChars k.data ++ '"' :: ':' :: ' ' ::
        (renderValue (ind + 1) v ++ membersRest ind ms close))) := by
  cases ms with
  | nil => simp [renderMembers, membersRest]
  | cons p ms2 => simp [renderMembers, membersRest]

theorem headNotDigit_itemsRest (ind : Nat) (es : List JValue) (close : List Char) :
    headNotDigit (itemsRest ind es close) = true := by
  cases es <;> rfl

theorem headNotDigit_membersRest (ind : Nat) (ms : JMap) (close : List Char) :
    headNotDigit (membersRest ind ms close) = true := by
  cases ms <;> rfl

theorem needV_pos (v : JValue) : 1 ≤ needV v := by
  cases v <;> simp [needV]

/-! ## The render-parse roundtrip -/

theorem string_mk_data (k : String) : String.mk k.data = k := rfl

mutual

theorem parse_render_V : ∀ (v : JValue) (fuel ind : Nat) (rest : List Char),
    wfV v = true → needV v ≤ fuel → headNotDigit rest = true →
    parseValue fuel (renderValue ind v ++ rest) = some (v, rest)
  | .null, fuel, ind, rest => by
    intro _ hfuel _
    obtain ⟨f, rfl⟩ : ∃ f, fuel = f + 1 := ⟨fuel - 1, by
      have := needV_pos JValue.null
      omega⟩
    exact parseValue_null f rest
  | .bool true, fuel, ind, rest => by
    intro _ hfuel _
    obtain ⟨f, rfl⟩ : ∃ f, fuel = f + 1 := ⟨fuel - 1, by
      have := needV_pos (JValue.bool true)
      omega⟩
    exact parseValue_true f rest
  | .bool false, fuel, ind, rest => by
    intro _ hfuel _
    obtain ⟨f, rfl⟩ : ∃ f, fuel = f + 1 := ⟨fuel - 1, by
      have := needV_pos (JValue.bool false)
      omega⟩
    exact parseValue_false f rest
  | .num n, fuel, ind, rest => by
    intro _ hfuel hrest
    obtain ⟨f, rfl⟩ : ∃ f, fuel = f + 1 := ⟨fuel - 1, by
      have := needV_pos (JValue.num n)
      omega⟩
    cases n with
    | ofNat m =>
      obtain ⟨d, ds, hcons, h48, h57⟩ := natToChars_head m
      have hsplit : renderValue ind (.num (Int.ofNat m)) ++ rest = d :: (ds ++ rest) := by
        show natToChars m ++ rest = _
        rw [hcons]
        rfl
      rw [hsplit, parseValue_digit f d (ds ++ rest) h48 h57]
      have hback : d :: (ds ++ rest) = natToChars m ++ rest := by rw [hcons]; rfl
      rw [hback, parseNumber_nonneg m rest hrest]
      rfl
    | negSucc kk =>
      have hsplit : renderValue ind (.num (Int.negSucc kk)) ++ rest =
          '-' :: (natToChars (kk + 1) ++ rest) := rfl
      rw [hsplit, parseValue_minus f _, parseNumber_negSucc kk rest hrest]
      rfl
  | .str s, fuel, ind, rest => by
    intro _ hfuel _
    obtain ⟨f, rfl⟩ : ∃ f, fuel = f + 1 := ⟨fuel - 1, by
      have := needV_pos (JValue.str s)
      omega⟩
    have hsplit : renderValue ind (.str s) ++ rest =
        '"' :: (escapeChars s.data ++ '"' :: rest) := by
      show ('"' :: (escapeChars s.data ++ ['"'])) ++ rest = _
      simp
    rw [hsplit, parseValue_quote f _, parse_escape_roundtrip s.data rest]
    rfl
  | .arr [], fuel, ind, rest => by
    intro _ hfuel _
    obtain ⟨f, rfl⟩ : ∃ f, fuel = f + 1 := ⟨fuel - 1, by
      have := needV_pos (JValue.arr [])
      omega⟩
    rw [show renderValue ind (.arr []) ++ rest = '[' :: ']' :: rest from rfl]
    rw [parseValue_lbracket]
    rw [skipWs_cons_not_ws (isJsonWs_false_of_ge (by decide))]
    rfl
  | .arr (e :: es2), fuel, ind, rest => by
    intro hwf hfuel hrest
    obtain ⟨f, rfl⟩ : ∃ f, fuel = f + 1 := ⟨fuel - 1, by
      have := needV_pos (JValue.arr (e :: es2))
      omega⟩
    have hw : wfV e = true ∧ wfVL es2 = true := by
      rw [wfV_arr, wfVL] at hwf
      exact Bool.and_eq_true .. ▸ hwf
    have hneed : needL (e :: es2) ≤ f := by
      have he : needV (.arr (e :: es2)) = needL (e :: es2) + 1 := rfl
      rw [he] at hfuel
      omega
    have hsplit : renderValue ind (.arr (e :: es2)) ++ rest =
        '[' :: (('\n' :: indentChars (ind + 1)) ++
          (renderValue (ind + 1) e ++ itemsRest ind es2 rest)) := by
      rw [renderValue, if_neg (by simp)]
      simp only [List.cons_append, List.append_assoc, List.singleton_append,
        List.nil_append]
      rw [renderItems_shape ind e es2 rest]
    rw [hsplit, parseValue_lbracket]
    rw [skipWs_append_ws ('\n' :: indentChars (ind + 1)) _ (nl_indent_ws (ind + 1))]
    obtain ⟨c, cs, hcons, hge, hne93, _⟩ := renderValue_head_info (ind + 1) e
    have hX : renderValue (ind + 1) e ++ itemsRest ind es2 rest =
        c :: (cs ++ itemsRest ind es2 rest) := by rw [hcons]; rfl
    rw [hX, skipWs_cons_not_ws (isJsonWs_false_of_ge hge)]
    split
    · rename_i heq
      have hc := List.head_eq_of_cons_eq heq
      rw [hc] at hne93
      exact absurd (by decide) hne93
    · rw [← hX]
      have := parse_render_elems e es2 f ind [] rest hw.1 hw.2 hneed hrest
      simpa using this
  | .obj [], fuel, ind, rest => by
    intro _ hfuel _
    obtain ⟨f, rfl⟩ : ∃ f, fuel = f + 1 := ⟨fuel - 1, by
      have := needV_pos (JValue.obj [])
      omega⟩
    rw [show renderValue ind (.obj []) ++ rest = '\x7b' :: '\x7d' :: rest from rfl]
    rw [parseValue_lbrace]
    rw [skipWs_cons_not_ws (isJsonWs_false_of_ge (by decide))]
    rfl
  | .obj ((k, v2) :: ms2), fuel, ind, rest => by
    intro hwf hfuel hrest
    obtain ⟨f, rfl⟩ : ∃ f, fuel = f + 1 := ⟨fuel - 1, by
      have := needV_pos (JValue.obj ((k, v2) :: ms2))
      omega⟩
    have hw : wfV v2 = true ∧ wfVM ms2 = true := by
      rw [wfV_obj] at hwf
      obtain ⟨_, hm⟩ := Bool.and_eq_true .. ▸ hwf
      rw [wfVM] at hm
      exact Bool.and_eq_true .. ▸ hm
    have hndk : (mapKeys ([] : JMap) ++ k :: mapKeys ms2).Nodup := by
      rw [wfV_obj] at hwf
      obtain ⟨hk, _⟩ := Bool.and_eq_true .. ▸ hwf
      have := (keysNodupB_iff _).mp hk
      simpa [mapKeys] using this
    have hneed : needM ((k, v2) :: ms2) ≤ f := by
      have he : needV (.obj ((k, v2) :: ms2)) = needM ((k, v2) :: ms2) + 1 := rfl
      rw [he] at hfuel
      omega
    have hsplit : renderValue ind (.obj ((k, v2) :: ms2)) ++ rest =
        '\x7b' :: (('\n' :: indentChars (ind + 1)) ++
          ('"' :: (escapeChars k.data ++ '"' :: ':' :: ' ' ::
            (renderValue (ind + 1) v2 ++ membersRest ind ms2 rest)))) := by
      rw [renderValue, if_neg (by simp)]
      simp only [List.cons_append, List.append_assoc, List.singleton_append,
        List.nil_append]
      rw [renderMembers_shape ind k v2 ms2 rest]
    rw [hsplit, parseValue_lbrace]
    rw [skipWs_append_ws ('\n' :: indentChars (ind + 1)) _ (nl_indent_ws (ind + 1))]
    rw [skipWs_cons_not_ws (isJsonWs_false_of_ge (by decide))]
    have := parse_render_members k v2 ms2 f ind [] rest hw.1 hw.2 hndk hneed hrest
    simpa using this
termination_by v _ _ _ => sizeOf v

theorem parse_render_elems : ∀ (e : JValue) (es : List JValue) (fuel ind : Nat)
    (acc : List JValue) (close : List Char),
    wfV e = true → wfVL es = true → needL (e :: es) ≤ fuel → headNotDigit close = true →
    parseElems fuel (renderValue (ind + 1) e ++ itemsRest ind es close) acc =
      some (.arr (acc ++ e :: es), close)
  | e, [], fuel, ind, acc, close => by
    intro hwe _ hfuel hclose
    obtain ⟨f, rfl⟩ : ∃ f, fuel = f + 1 := ⟨fuel - 1, by
      have he : needL [e] = max (needV e) (needL []) + 1 := rfl
      omega⟩
    have hf1 : needV e ≤ f := by
      have he : needL [e] = max (needV e) (needL []) + 1 := rfl
      rw [he] at hfuel
      omega
    have hpv := parse_render_V e f (ind + 1) (itemsRest ind [] close) hwe hf1
      (headNotDigit_itemsRest ind [] close)
    rw [parseElems_step f _ acc e _ hpv]
    rw [show itemsRest ind [] close =
      ('\n' :: indentChars ind) ++ (']' :: close) from rfl]
    rw [skipWs_append_ws ('\n' :: indentChars ind) _ (nl_indent_ws ind)]
    rw [skipWs_cons_not_ws (isJsonWs_false_of_ge (by decide))]
    rfl
  | e, e2 :: es2, fuel, ind, acc, close => by
    intro hwe hwes hfuel hclose
    obtain ⟨f, rfl⟩ : ∃ f, fuel = f + 1 := ⟨fuel - 1, by
      have he : needL (e :: e2 :: es2) = max (needV e) (needL (e2 :: es2)) + 1 := rfl
      omega⟩
    have hf1 : needV e ≤ f := by
      have he : needL (e :: e2 :: es2) = max (needV e) (needL (e2 :: es2)) + 1 := rfl
      rw [he] at hfuel
      omega
    have hf2 : needL (e2 :: es2) ≤ f := by
      have he : needL (e :: e2 :: es2) = max (needV e) (needL (e2 :: es2)) + 1 := rfl
      rw [he] at hfuel
      omega
    have hw2 : wfV e2 = true ∧ wfVL es2 = true := by
      rw [wfVL] at hwes
      exact Bool.and_eq_true .. ▸ hwes
    have hpv := parse_render_V e f (ind + 1) (itemsRest ind (e2 :: es2) close) hwe hf1
      (headNotDigit_itemsRest ind (e2 :: es2) close)
    rw [parseElems_step f _ acc e _ hpv]
    rw [show itemsRest ind (e2 :: es2) close = ',' :: '\n' ::
      (renderItems (ind + 1) (e2 :: es2) ++ '\n' :: (indentChars ind ++ ']' :: close))
      from rfl]
    rw [renderItems_shape ind e2 es2 close]
    rw [skipWs_cons_not_ws (isJsonWs_false_of_ge (by decide))]
    obtain ⟨f2, rfl⟩ : ∃ f2, f = f2 + 1 := ⟨f - 1, by
      have he : needL (e2 :: es2) = max (needV e2) (needL es2) + 1 := rfl
      omega⟩
    show parseElems (f2 + 1) ('\n' :: (indentChars (ind + 1) ++
      (renderValue (ind + 1) e2 ++ itemsRest ind es2 close))) (acc ++ [e]) =
      some (.arr (acc ++ e :: e2 :: es2), close)
    rw [show ('\n' :: (indentChars (ind + 1) ++
      (renderValue (ind + 1) e2 ++ itemsRest ind es2 close))) =
      ('\n' :: indentChars (ind + 1)) ++
        (renderValue (ind + 1) e2 ++ itemsRest ind es2 close) from rfl]
    rw [parseElems_ws f2 _ _ _ (nl_indent_ws (ind + 1))]
    have := parse_render_elems e2 es2 (f2 + 1) ind (acc ++ [e]) close hw2.1 hw2.2 hf2 hclose
    simpa using this
termination_by e es _ _ _ _ => sizeOf e + sizeOf es + 1

theorem parse_render_members : ∀ (k : String) (v : JValue) (ms : JMap) (fuel ind : Nat)
    (acc : JMap) (close : List Char),
    wfV v = true → wfVM ms = true → (mapKeys acc ++ k :: mapKeys ms).Nodup →
    needM ((k, v) :: ms) ≤ fuel → headNotDigit close = true →
    parseMembers fuel ('"' :: (escapeChars k.data ++ '"' :: ':' :: ' ' ::
      (renderValue (ind + 1) v ++ membersRest ind ms close))) acc =
      some (.obj (acc ++ (k, v) :: ms), close)
  | k, v, ms, fuel, ind, acc, close => by
    intro hwv hwms hnd hfuel hclose
    obtain ⟨f, rfl⟩ : ∃ f, fuel = f + 1 := ⟨fuel - 1, by
      have he : needM ((k, v) :: ms) = max (needV v) (needM ms) + 1 := rfl
      omega⟩
    have hf1 : needV v ≤ f := by
      have he : needM ((k, v) :: ms) = max (needV v) (needM ms) + 1 := rfl
      rw [he] at hfuel
      omega
    have hf2 : needM ms ≤ f := by
      have he : needM ((k, v) :: ms) = max (needV v) (needM ms) + 1 := rfl
      rw [he] at hfuel
      omega
    have hkacc : mapContains acc k = false := by
      rw [mapContains_eq_false_iff]
      obtain ⟨_, _, hdis⟩ := List.nodup_append.mp hnd
      intro hmem
      exact hdis hmem (List.mem_cons_self _ _)
    rw [parseMembers_quote]
    rw [parse_escape_roundtrip k.data (':' :: ' ' ::
      (renderValue (ind + 1) v ++ membersRest ind ms close))]
    show (match skipWs (':' :: ' ' ::
        (renderValue (ind + 1) v ++ membersRest ind ms close)) with
      | ':' :: r3 =>
        (match parseValue f r3 with
        | none => none
        | some (w, r4) =>
          match skipWs r4 with
          | ',' :: r5 => parseMembers f r5 (mapInsert acc (String.mk k.data) w)
          | '\x7d' :: r5 => some (.obj (mapInsert acc (String.mk k.data) w), r5)
          | _ => none)
      | _ => none) = some (.obj (acc ++ (k, v) :: ms), close)
    rw [skipWs_cons_not_ws (isJsonWs_false_of_ge (by decide))]
    show (match parseValue f
        (' ' :: (renderValue (ind + 1) v ++ membersRest ind ms close)) with
      | none => none
      | some (w, r4) =>
        match skipWs r4 with
        | ',' :: r5 => parseMembers f r5 (mapInsert acc (String.mk k.data) w)
        | '\x7d' :: r5 => some (.obj (mapInsert acc (String.mk k.data) w), r5)
        | _ => none) = some (.obj (acc ++ (k, v) :: ms), close)
    rw [show (' ' :: (renderValue (ind + 1) v ++ membersRest ind ms close)) =
      [' '] ++ (renderValue (ind + 1) v ++ membersRest ind ms close) from rfl]
    rw [parseValue_ws f [' '] _ (by intro c hc; simp at hc; rw [hc]; rfl)]
    rw [parse_render_V v f (ind + 1) (membersRest ind ms close) hwv hf1
      (headNotDigit_membersRest ind ms close)]
    show (match skipWs (membersRest ind ms close) with
      | ',' :: r5 => parseMembers f r5 (mapInsert acc (String.mk k.data) v)
      | '\x7d' :: r5 => some (.obj (mapInsert acc (String.mk k.data) v), r5)
      | _ => none) = some (.obj (acc ++ (k, v) :: ms), close)
    rw [string_mk_data, mapInsert_not_contains hkacc]
    match ms, hwms, hnd, hf2 with
    | [], _, _, _ =>
      rw [show membersRest ind [] close =
        ('\n' :: indentChars ind) ++ ('\x7d' :: close) from rfl]
      rw [skipWs_append_ws ('\n' :: indentChars ind) _ (nl_indent_ws ind)]
      rw [skipWs_cons_not_ws (isJsonWs_false_of_ge (by decide))]
      rfl
    | (k2, v2) :: ms2, hwms, hnd, hf2 =>
      have hw2 : wfV v2 = true ∧ wfVM ms2 = true := by
        rw [wfVM] at hwms
        exact Bool.and_eq_true .. ▸ hwms
      rw [show membersRest ind ((k2, v2) :: ms2) close = ',' :: '\n' ::
        (renderMembers (ind + 1) ((k2, v2) :: ms2) ++
          '\n' :: (indentChars ind ++ '\x7d' :: close)) from rfl]
      rw [renderMembers_shape ind k2 v2 ms2 close]
      rw [skipWs_cons_not_ws (isJsonWs_false_of_ge (by decide))]
      obtain ⟨f2, rfl⟩ : ∃ f2, f = f2 + 1 := ⟨f - 1, by
        have he : needM ((k2, v2) :: ms2) = max (needV v2) (needM ms2) + 1 := rfl
        omega⟩
      show parseMembers (f2 + 1) ('\n' :: (indentChars (ind + 1) ++
        ('"' :: (escapeChars k2.data ++ '"' :: ':' :: ' ' ::
          (renderValue (ind + 1) v2 ++ membersRest ind ms2 close)))))
        (acc ++ [(k, v)]) =
        some (.obj (acc ++ (k, v) :: (k2, v2) :: ms2), close)
      rw [show ('\n' :: (indentChars (ind + 1) ++
        ('"' :: (escapeChars k2.data ++ '"' :: ':' :: ' ' ::
          (renderValue (ind + 1) v2 ++ membersRest ind ms2 close))))) =
        ('\n' :: indentChars (ind + 1)) ++
          ('"' :: (escapeChars k2.data ++ '"' :: ':' :: ' ' ::
            (renderValue (ind + 1) v2 ++ membersRest ind ms2 close))) from rfl]
      rw [parseMembers_ws f2 _ _ _ (nl_indent_ws (ind + 1))]
      have hnd2 : (mapKeys (acc ++ [(k, v)]) ++ k2 :: mapKeys ms2).Nodup := by
        have heq : mapKeys (acc ++ [(k, v)]) ++ k2 :: mapKeys ms2 =
            mapKeys acc ++ k :: mapKeys ((k2, v2) :: ms2) := by
          simp [mapKeys]
        rw [heq]
        exact hnd
      have := parse_render_members k2 v2 ms2 (f2 + 1) ind (acc ++ [(k, v)])
        close hw2.1 hw2.2 hnd2 hf2 hclose
      simpa using this
termination_by _ v ms _ _ _ _ => sizeOf v + sizeOf ms + 1

end

/-! ## The fuel supplied by `parseJson` suffices for rendered text -/

mutual

theorem needV_le_renderLen : ∀ (v : JValue) (ind : Nat),
    needV v ≤ (renderValue ind v).length
  | .null, ind => by
    show (1 : Nat) ≤ "null".data.length
    decide
  | .bool true, ind => by
    show (1 : Nat) ≤ "true".data.length
    decide
  | .bool false, ind => by
    show (1 : Nat) ≤ "false".data.length
    decide
  | .num n, ind => by
    cases n with
    | ofNat m =>
      obtain ⟨c, cs, hcons, _, _⟩ := natToChars_head m
      show (1 : Nat) ≤ (natToChars m).length
      rw [hcons]
      simp
    | negSucc kk =>
      show (1 : Nat) ≤ ('-' :: natToChars (kk + 1)).length
      simp
  | .str s, ind => by
    show (1 : Nat) ≤ ('"' :: (escapeChars s.data ++ ['"'])).length
    simp
  | .arr [], ind => by
    show (1 : Nat) ≤ "[]".data.length
    decide
  | .arr (e :: es), ind => by
    have h := needL_le_renderLen (e :: es) (ind + 1) (by simp) (by omega)
    rw [show needV (.arr (e :: es)) = needL (e :: es) + 1 from rfl]
    rw [renderValue, if_neg (by simp)]
    simp only [List.length_cons, List.length_append]
    omega
  | .obj [], ind => by
    show (1 : Nat) ≤ "\x7b\x7d".data.length
    decide
  | .obj (p :: ms), ind => by
    have h := needM_le_renderLen (p :: ms) (ind + 1) (by simp) (by omega)
    rw [show needV (.obj (p :: ms)) = needM (p :: ms) + 1 from rfl]
    rw [renderValue, if_neg (by simp)]
    simp only [List.length_cons, List.length_append]
    omega

theorem needL_le_renderLen : ∀ (es : List JValue) (ind : Nat), es ≠ [] → 1 ≤ ind →
    needL es ≤ (renderItems ind es).length
  | [], _, hne, _ => absurd rfl hne
  | [e], ind, _, hind => by
    have h := needV_le_renderLen e ind
    rw [show needL [e] = max (needV e) (needL []) + 1 from rfl]
    rw [renderItems, renderItems]
    simp only [List.isEmpty_nil, if_true, List.length_append, List.length_nil,
      indentChars, List.length_replicate]
    rw [show needL ([] : List JValue) = 0 from rfl]
    omega
  | e :: e2 :: es, ind, _, hind => by
    have h1 := needV_le_renderLen e ind
    have h2 := needL_le_renderLen (e2 :: es) ind (by simp) hind
    rw [show needL (e :: e2 :: es) = max (needV e) (needL (e2 :: es)) + 1 from rfl]
    rw [renderItems]
    simp only [List.isEmpty_cons, Bool.false_eq_true, if_false, List.length_append,
      List.length_cons, List.length_nil, indentChars, List.length_replicate]
    omega

theorem needM_le_renderLen : ∀ (ms : JMap) (ind : Nat), ms ≠ [] → 1 ≤ ind →
    needM ms ≤ (renderMembers ind ms).length
  | [], _, hne, _ => absurd rfl hne
  | [(k, v)], ind, _, hind => by
    have h := needV_le_renderLen v ind
    rw [show needM [(k, v)] = max (needV v) (needM []) + 1 from rfl]
    rw [renderMembers, renderMembers]
    simp only [List.isEmpty_nil, if_true, List.length_append, List.length_nil,
      List.length_cons, indentChars, List.length_replicate]
    rw [show needM ([] : JMap) = 0 from rfl]
    omega
  | (k, v) :: p2 :: ms, ind, _, hind => by
    have h1 := needV_le_renderLen v ind
    have h2 := needM_le_renderLen (p2 :: ms) ind (by simp) hind
    rw [show needM ((k, v) :: p2 :: ms) = max (needV v) (needM (p2 :: ms)) + 1 from rfl]
    rw [renderMembers]
    simp only [List.isEmpty_cons, Bool.false_eq_true, if_false, List.length_append,
      List.length_cons, List.length_nil, indentChars, List.length_replicate]
    omega

end

/-- Parsing the engine's own output text recovers the rendered value:
`parseJson` supplies enough fuel, the trailing newline is skipped, and the
whole text is consumed. -/
theorem parseJson_render (w : JValue) (hwf : wfV w = true) :
    parseJson (String.mk (renderValue 0 w ++ ['\n'])) = some w := by
  unfold parseJson
  rw [show (String.mk (renderValue 0 w ++ ['\n'])).data =
    renderValue 0 w ++ ['\n'] from rfl]
  have hlen : needV w ≤ 2 * (renderValue 0 w ++ ['\n']).length + 2 := by
    have := needV_le_renderLen w 0
    simp only [List.length_append, List.length_singleton]
    omega
  rw [parse_render_V w _ 0 ['\n'] hwf hlen (by rfl)]
  rfl

/-! ## Idempotence toolkit: `selectKeys` and the sorted rebuild -/

theorem filterMap_id_of {α : Type} {f : α → Option α} :
    ∀ l : List α, (∀ x ∈ l, f x = some x) → l.filterMap f = l
  | [], _ => rfl
  | x :: xs, h => by
    rw [List.filterMap_cons, h x (List.mem_cons_self _ _)]
    rw [filterMap_id_of xs (fun y hy => h y (List.mem_cons_of_mem _ hy))]

theorem selectKeys_congr {m1 m2 : JMap} : ∀ {ks : List String},
    (∀ k ∈ ks, mapGet m1 k = mapGet m2 k) → selectKeys m1 ks = selectKeys m2 ks := by
  intro ks
  induction ks with
  | nil => intro _; rfl
  | cons k ks ih =>
    intro h
    rw [selectKeys_cons, selectKeys_cons, h k (List.mem_cons_self _ _),
      ih (fun q hq => h q (List.mem_cons_of_mem _ hq))]

theorem selectKeys_self : ∀ (m : JMap), (mapKeys m).Nodup → selectKeys m (mapKeys m) = m
  | [], _ => rfl
  | (k, v) :: m, hnd => by
    obtain ⟨hk, hnd2⟩ := List.pairwise_cons.mp hnd
    rw [show mapKeys ((k, v) :: m) = k :: mapKeys m from rfl]
    rw [selectKeys_cons, mapGet_cons_self]
    show (k, v) :: selectKeys ((k, v) :: m) (mapKeys m) = (k, v) :: m
    have hcongr : selectKeys ((k, v) :: m) (mapKeys m) = selectKeys m (mapKeys m) :=
      selectKeys_congr (fun q hq => mapGet_cons_ne (hk q hq))
    rw [hcongr, selectKeys_self m hnd2]

theorem mapKeys_selectKeys_filter (m : JMap) :
    ∀ ks : List String, mapKeys (selectKeys m ks) =
      ks.filter (fun k => (mapGet m k).isSome)
  | [] => rfl
  | k :: ks => by
    rw [selectKeys_cons]
    cases hg : mapGet m k with
    | none =>
      simp only [hg]
      rw [List.filter_cons_of_neg (by simp [hg])]
      exact mapKeys_selectKeys_filter m ks
    | some v =>
      simp only [hg]
      rw [List.filter_cons_of_pos (by simp [hg])]
      show k :: mapKeys (selectKeys m ks) = _
      rw [mapKeys_selectKeys_filter m ks]

theorem wfVM_selectKeys {o : JMap} (hwm : wfVM o = true) (ks : List String) :
    wfVM (selectKeys o ks) = true := by
  rw [wfVM_iff]
  intro p hp
  obtain ⟨k, v⟩ := p
  obtain ⟨_, hg⟩ := mem_selectKeys.mp hp
  exact (wfVM_iff o).mp hwm (k, v) (mapGet_mem hg)

theorem sortByLe_strLe_sorted (ks : List String) :
    (sortByLe strLe ks).Pairwise (fun a b => strLe a b = true) :=
  sortByLe_pairwise (fun a b => strLe_total a b) (fun a b c h1 h2 => strLe_trans h1 h2) ks

theorem contains_iff_mem {l : List String} {a : String} : l.contains a = true ↔ a ∈ l :=
  List.elem_iff

theorem rebuild_eq_selectKeys (m : JMap) (hnd : (mapKeys m).Nodup) :
    rebuildSortedByKey m = selectKeys m (sortByLe strLe (mapKeys m)) := by
  unfold rebuildSortedByKey
  exact foldl_get_insert m _ (sortByLe_nodup hnd) [] (fun _ _ => rfl)

theorem mapKeys_rebuild (m : JMap) (hnd : (mapKeys m).Nodup) :
    mapKeys (rebuildSortedByKey m) = sortByLe strLe (mapKeys m) := by
  rw [rebuild_eq_selectKeys m hnd]
  exact mapKeys_selectKeys_all_present m _
    (fun k hk => (sortByLe_perm strLe _).subset hk)

theorem mapKeys_rebuild_nodup (m : JMap) (hnd : (mapKeys m).Nodup) :
    (mapKeys (rebuildSortedByKey m)).Nodup := by
  rw [mapKeys_rebuild m hnd]
  exact sortByLe_nodup hnd

theorem rebuild_perm (m : JMap) (hnd : (mapKeys m).Nodup) :
    (rebuildSortedByKey m).Perm m := by
  rw [rebuild_eq_selectKeys m hnd]
  exact selectKeys_perm m hnd (sortByLe_perm strLe _)

theorem rebuild_idem (m : JMap) (hnd : (mapKeys m).Nodup) :
    rebuildSortedByKey (rebuildSortedByKey m) = rebuildSortedByKey m := by
  have hnd2 : (mapKeys (rebuildSortedByKey m)).Nodup := mapKeys_rebuild_nodup m hnd
  rw [rebuild_eq_selectKeys _ hnd2]
  rw [mapKeys_rebuild m hnd]
  rw [sortByLe_eq_self _ (sortByLe_strLe_sorted (mapKeys m))]
  rw [← mapKeys_rebuild m hnd]
  exact selectKeys_self _ hnd2

theorem wfVM_rebuild {o : JMap} (hnd : (mapKeys o).Nodup) (hwm : wfVM o = true) :
    wfVM (rebuildSortedByKey o) = true := wfVM_of_perm (rebuild_perm o hnd).symm hwm

/-! ## Idempotence of `sort_object_alphabetically` -/

theorem alpha_eq_rebuild : sort_object_alphabetically = rebuildSortedByKey := rfl

theorem sort_object_alphabetically_idem (o : JMap) (hnd : (mapKeys o).Nodup) :
    sort_object_alphabetically (sort_object_alphabetically o) =
      sort_object_alphabetically o := by
  rw [alpha_eq_rebuild]
  exact rebuild_idem o hnd

/-! ## Idempotence of `sort_array_unique` -/

theorem dedupAdjGo_idem_go {α : Type} [BEq α] : ∀ (l : List α) (prev : α),
    dedupAdjGo prev (dedupAdjGo prev l) = dedupAdjGo prev l
  | [], _ => rfl
  | y :: l, prev => by
    rw [dedupAdjGo]
    by_cases h : (prev == y) = true
    · rw [if_pos h]
      exact dedupAdjGo_idem_go l prev
    · rw [if_neg h]
      rw [dedupAdjGo, if_neg h]
      rw [dedupAdjGo_idem_go l y]

theorem dedupAdj_idem {α : Type} [BEq α] : ∀ l : List α, dedupAdj (dedupAdj l) = dedupAdj l
  | [] => rfl
  | x :: l => by
    show x :: dedupAdjGo x (dedupAdjGo x l) = x :: dedupAdjGo x l
    rw [dedupAdjGo_idem_go l x]

theorem dedupAdjGo_sublist {α : Type} [BEq α] : ∀ (l : List α) (prev : α),
    (dedupAdjGo prev l).Sublist l
  | [], _ => List.Sublist.refl _
  | y :: l, prev => by
    rw [dedupAdjGo]
    by_cases h : (prev == y) = true
    · rw [if_pos h]
      exact (dedupAdjGo_sublist l prev).cons y
    · rw [if_neg h]
      exact (dedupAdjGo_sublist l y).cons₂ y

theorem dedupAdj_sublist {α : Type} [BEq α] : ∀ l : List α, (dedupAdj l).Sublist l
  | [] => List.Sublist.refl _
  | x :: l => (dedupAdjGo_sublist l x).cons₂ x

theorem sort_array_unique_idem (a : List JValue) :
    sort_array_unique (sort_array_unique a) = sort_array_unique a := by
  simp only [sort_array_unique]
  set strs := a.filterMap (fun v => match v with | JValue.str s => some s | _ => none)
    with hs
  set D := dedupAdj (sortByLe strLe strs) with hD
  have hfm : (D.map JValue.str).filterMap
      (fun v => match v with | JValue.str s => some s | _ => none) = D := by
    rw [List.filterMap_map]
    exact filterMap_id_of D (fun x _ => rfl)
  rw [hfm]
  have hD_pairwise : D.Pairwise (fun a b => strLe a b = true) :=
    List.Pairwise.sublist (dedupAdj_sublist _) (sortByLe_strLe_sorted strs)
  rw [sortByLe_eq_self D hD_pairwise]
  rw [hD, dedupAdj_idem]

/-! ## Idempotence of `sort_object_by_key_order` -/

theorem key_order_eq (o : JMap) (order : List String) (hnd : (mapKeys o).Nodup)
    (hord : order.Nodup) :
    sort_object_by_key_order o order =
      selectKeys o order ++
        selectKeys o (sortByLe strLe ((mapKeys o).filter (fun k => !(order.contains k)))) := by
  unfold sort_object_by_key_order
  rw [foldl_get_insert o order hord [] (fun _ _ => rfl)]
  rw [foldl_get_insert o _ (sortByLe_nodup (hnd.filter _)) _ ?hfree]
  case hfree =>
    intro k hk
    rw [mapContains_eq_false_iff]
    intro hmem
    rw [List.nil_append, mapKeys_selectKeys_filter] at hmem
    have hko : k ∈ order := (List.mem_filter.mp hmem).1
    have hkc := (List.mem_filter.mp ((sortByLe_perm strLe _).subset hk)).2
    rw [Bool.not_eq_eq_eq_not, Bool.not_true] at hkc
    exact absurd (contains_iff_mem.mpr hko) (by rw [hkc]; simp)
  simp

theorem key_order_keys (o : JMap) (order : List String) (hnd : (mapKeys o).Nodup)
    (hord : order.Nodup) :
    mapKeys (sort_object_by_key_order o order) =
      order.filter (fun k => (mapGet o k).isSome) ++
        sortByLe strLe ((mapKeys o).filter (fun k => !(order.contains k))) := by
  rw [key_order_eq o order hnd hord]
  rw [show ∀ A B : JMap, mapKeys (A ++ B) = mapKeys A ++ mapKeys B from
    fun A B => by simp [mapKeys]]
  rw [mapKeys_selectKeys_filter]
  rw [mapKeys_selectKeys_all_present o _ (fun k hk =>
    (List.mem_filter.mp ((sortByLe_perm strLe _).subset hk)).1)]

theorem key_order_get (o : JMap) (order : List String) (hnd : (mapKeys o).Nodup)
    (hord : order.Nodup) (k : String) :
    mapGet (sort_object_by_key_order o order) k = mapGet o k := by
  rw [key_order_eq o order hnd hord, mapGet_append]
  rw [mapGet_selectKeys o hord k]
  rw [mapGet_selectKeys o (sortByLe_nodup (hnd.filter _)) k]
  by_cases hko : k ∈ order
  · rw [if_pos hko]
    cases hg : mapGet o k with
    | some v => rfl
    | none =>
      show (if k ∈ sortByLe strLe ((mapKeys o).filter (fun q => !(order.contains q)))
        then (none : Option JValue) else none) = none
      simp
  · rw [if_neg hko]
    show (if k ∈ sortByLe strLe ((mapKeys o).filter (fun q => !(order.contains q)))
      then mapGet o k else none) = mapGet o k
    by_cases hkm : k ∈ mapKeys o
    · rw [if_pos ((sortByLe_perm strLe _).mem_iff.mpr (List.mem_filter.mpr ⟨hkm, by
        rw [Bool.not_eq_eq_eq_not, Bool.not_true]
        rw [Bool.eq_false_iff]
        intro hc
        exact hko (contains_iff_mem.mp hc)⟩))]
    · rw [if_neg (fun hmem =>
        hkm (List.mem_filter.mp ((sortByLe_perm strLe _).subset hmem)).1)]
      rw [mapGet_eq_none_iff.mpr hkm]

theorem key_order_keys_nodup (o : JMap) (order : List String) (hnd : (mapKeys o).Nodup)
    (hord : order.Nodup) : (mapKeys (sort_object_by_key_order o order)).Nodup := by
  rw [key_order_keys o order hnd hord]
  rw [List.nodup_append]
  refine ⟨hord.filter _, sortByLe_nodup (hnd.filter _), ?_⟩
  intro x hx hy
  have hxo : x ∈ order := (List.mem_filter.mp hx).1
  have hyc := (List.mem_filter.mp ((sortByLe_perm strLe _).subset hy)).2
  rw [Bool.not_eq_eq_eq_not, Bool.not_true] at hyc
  exact absurd (contains_iff_mem.mpr hxo) (by rw [hyc]; simp)

theorem wfVM_key_order {o : JMap} (order : List String) (hnd : (mapKeys o).Nodup)
    (hord : order.Nodup) (hwm : wfVM o = true) :
    wfVM (sort_object_by_key_order o order) = true := by
  rw [key_order_eq o order hnd hord]
  rw [wfVM_iff]
  intro p hp
  rcases List.mem_append.mp hp with h1 | h2
  · exact (wfVM_iff _).mp (wfVM_selectKeys hwm order) p h1
  · exact (wfVM_iff _).mp (wfVM_selectKeys hwm _) p h2

theorem sort_object_by_key_order_idem (o : JMap) (order : List String)
    (hnd : (mapKeys o).Nodup) (hord : order.Nodup) :
    sort_object_by_key_order (sort_object_by_key_order o order) order =
      sort_object_by_key_order o order := by
  have hkeys := key_order_keys o order hnd hord
  have hget := key_order_get o order hnd hord
  have hndS := key_order_keys_nodup o order hnd hord
  rw [key_order_eq (sort_object_by_key_order o order) order hndS hord]
  have hA : selectKeys (sort_object_by_key_order o order) order = selectKeys o order :=
    selectKeys_congr (fun k _ => hget k)
  have hBkeys : (mapKeys (sort_object_by_key_order o order)).filter
      (fun k => !(order.contains k)) =
      sortByLe strLe ((mapKeys o).filter (fun k => !(order.contains k))) := by
    rw [hkeys, List.filter_append]
    have hnil : (order.filter (fun k => (mapGet o k).isSome)).filter
        (fun k => !(order.contains k)) = [] := by
      rw [List.filter_eq_nil_iff]
      intro x hx
      have hxo : x ∈ order := (List.mem_filter.mp hx).1
      have hc : order.contains x = true := contains_iff_mem.mpr hxo
      simpa [hc] using hxo
    have hself : (sortByLe strLe ((mapKeys o).filter (fun k => !(order.contains k)))).filter
        (fun k => !(order.contains k)) =
        sortByLe strLe ((mapKeys o).filter (fun k => !(order.contains k))) := by
      rw [List.filter_eq_self]
      intro x hx
      exact (List.mem_filter.mp ((sortByLe_perm strLe _).subset hx)).2
    rw [hnil, hself, List.nil_append]
  rw [hBkeys]
  rw [sortByLe_eq_self _ (sortByLe_strLe_sorted _)]
  have hB : selectKeys (sort_object_by_key_order o order)
      (sortByLe strLe ((mapKeys o).filter (fun k => !(order.contains k)))) =
      selectKeys o (sortByLe strLe ((mapKeys o).filter (fun k => !(order.contains k)))) :=
    selectKeys_congr (fun k _ => hget k)
  rw [hA, hB]
  rw [← key_order_eq o order hnd hord]

/-! ## Idempotence of the people transforms -/

theorem people_order_nodup : (["name", "email", "url"] : List String).Nodup := by decide

theorem sort_people_object_idem (o : JMap) (hnd : (mapKeys o).Nodup) :
    sort_people_object (sort_people_object o) = sort_people_object o := by
  unfold sort_people_object
  exact sort_object_by_key_order_idem o _ hnd people_order_nodup

theorem sort_people_object_keys_nodup (o : JMap) (hnd : (mapKeys o).Nodup) :
    (mapKeys (sort_people_object o)).Nodup :=
  key_order_keys_nodup o _ hnd people_order_nodup

theorem wfVM_sort_people {o : JMap} (hnd : (mapKeys o).Nodup) (hwm : wfVM o = true) :
    wfVM (sort_people_object o) = true :=
  wfVM_key_order _ hnd people_order_nodup hwm

/-! ## Idempotence of `sort_object_recursive` -/

theorem mapKeys_sortEntriesRecursive : ∀ m : JMap,
    mapKeys (sortEntriesRecursive m) = mapKeys m
  | [] => rfl
  | (k, v) :: rest => by
    show k :: mapKeys (sortEntriesRecursive rest) = k :: mapKeys rest
    rw [mapKeys_sortEntriesRecursive rest]

theorem mem_sortEntriesRecursive : ∀ (m : JMap) (k : String) (w : JValue),
    ((k, w) ∈ sortEntriesRecursive m ↔ ∃ u, (k, u) ∈ m ∧ w = sortValueRecursive u)
  | [], k, w => by simp [sortEntriesRecursive]
  | (q, u0) :: rest, k, w => by
    rw [sortEntriesRecursive]
    simp only [List.mem_cons, Prod.mk.injEq]
    rw [mem_sortEntriesRecursive rest k w]
    constructor
    · rintro (⟨hk, hw⟩ | h)
      · exact ⟨u0, Or.inl ⟨hk, rfl⟩, hw⟩
      · obtain ⟨u, hu, hw⟩ := h
        exact ⟨u, Or.inr hu, hw⟩
    · rintro ⟨u, (⟨hk, hu⟩ | hu), hw⟩
      · left
        exact ⟨hk, by rw [hw, hu]⟩
      · right
        exact ⟨u, hu, hw⟩

theorem sortEntriesRecursive_congr : ∀ (m : JMap),
    (∀ p ∈ m, sortValueRecursive p.2 = p.2) → sortEntriesRecursive m = m
  | [], _ => rfl
  | (k, v) :: rest, h => by
    rw [sortEntriesRecursive]
    rw [h (k, v) (List.mem_cons_self _ _)]
    rw [sortEntriesRecursive_congr rest (fun p hp => h p (List.mem_cons_of_mem _ hp))]

theorem mem_rebuild {m : JMap} {k : String} {w : JValue} (hnd : (mapKeys m).Nodup)
    (hp : (k, w) ∈ rebuildSortedByKey m) : (k, w) ∈ m := by
  rw [rebuild_eq_selectKeys _ hnd] at hp
  obtain ⟨_, hg⟩ := mem_selectKeys.mp hp
  exact mapGet_mem hg

mutual

theorem sortValueRecursive_wf : ∀ v : JValue, wfV v = true →
    wfV (sortValueRecursive v) = true
  | .null, h => h
  | .bool b, h => h
  | .num n, h => h
  | .str s, h => h
  | .arr es, h => h
  | .obj entries, h => by
    obtain ⟨hnd, hwm⟩ := wfV_obj_iff.mp h
    have hndS : (mapKeys (sortEntriesRecursive entries)).Nodup := by
      rw [mapKeys_sortEntriesRecursive]
      exact hnd
    show wfV (.obj (rebuildSortedByKey (sortEntriesRecursive entries))) = true
    rw [wfV_obj_iff]
    refine ⟨mapKeys_rebuild_nodup _ hndS, ?_⟩
    intro p hp
    obtain ⟨k, w⟩ := p
    have hmem : (k, w) ∈ sortEntriesRecursive entries := mem_rebuild hndS hp
    obtain ⟨u, hu, hw⟩ := (mem_sortEntriesRecursive _ k w).mp hmem
    show wfV w = true
    rw [hw]
    exact sortEntriesRecursive_wf_vals entries hwm (k, u) hu

theorem sortEntriesRecursive_wf_vals : ∀ (m : JMap), (∀ p ∈ m, wfV p.2 = true) →
    ∀ p ∈ m, wfV (sortValueRecursive p.2) = true
  | [], _, p, hp => absurd hp (by simp)
  | (k, u) :: rest, h, p, hp => by
    rcases List.mem_cons.mp hp with he | hm
    · rw [he]
      exact sortValueRecursive_wf u (h (k, u) (List.mem_cons_self _ _))
    · exact sortEntriesRecursive_wf_vals rest
        (fun q hq => h q (List.mem_cons_of_mem _ hq)) p hm

end

mutual

theorem sortValueRecursive_idem : ∀ v : JValue, wfV v = true →
    sortValueRecursive (sortValueRecursive v) = sortValueRecursive v
  | .null, _ => rfl
  | .bool b, _ => rfl
  | .num n, _ => rfl
  | .str s, _ => rfl
  | .arr es, _ => rfl
  | .obj entries, h => by
    obtain ⟨hnd, hwm⟩ := wfV_obj_iff.mp h
    have hndS : (mapKeys (sortEntriesRecursive entries)).Nodup := by
      rw [mapKeys_sortEntriesRecursive]
      exact hnd
    show JValue.obj (rebuildSortedByKey (sortEntriesRecursive
      (rebuildSortedByKey (sortEntriesRecursive entries)))) =
      .obj (rebuildSortedByKey (sortEntriesRecursive entries))
    have hR : sortEntriesRecursive (rebuildSortedByKey (sortEntriesRecursive entries)) =
        rebuildSortedByKey (sortEntriesRecursive entries) := by
      apply sortEntriesRecursive_congr
      intro p hp
      obtain ⟨k, w⟩ := p
      have hmem : (k, w) ∈ sortEntriesRecursive entries := mem_rebuild hndS hp
      obtain ⟨u, hu, hw⟩ := (mem_sortEntriesRecursive _ k w).mp hmem
      show sortValueRecursive w = w
      rw [hw]
      exact sortEntriesRecursive_idem_vals entries hwm (k, u) hu
    rw [hR, rebuild_idem _ hndS]

theorem sortEntriesRecursive_idem_vals : ∀ (m : JMap), (∀ p ∈ m, wfV p.2 = true) →
    ∀ p ∈ m, sortValueRecursive (sortValueRecursive p.2) = sortValueRecursive p.2
  | [], _, p, hp => absurd hp (by simp)
  | (k, u) :: rest, h, p, hp => by
    rcases List.mem_cons.mp hp with he | hm
    · rw [he]
      exact sortValueRecursive_idem u (h (k, u) (List.mem_cons_self _ _))
    · exact sortEntriesRecursive_idem_vals rest
        (fun q hq => h q (List.mem_cons_of_mem _ hq)) p hm

end

theorem sort_object_recursive_idem (o : JMap) (hnd : (mapKeys o).Nodup)
    (hwm : wfVM o = true) :
    sort_object_recursive (sort_object_recursive o) = sort_object_recursive o :=
  JValue.obj.inj
    (sortValueRecursive_idem (.obj o) (wfV_obj_iff.mpr ⟨hnd, (wfVM_iff o).mp hwm⟩))

theorem wf_sort_object_recursive (o : JMap) (hnd : (mapKeys o).Nodup)
    (hwm : wfVM o = true) : wfV (.obj (sort_object_recursive o)) = true :=
  sortValueRecursive_wf (.obj o) (wfV_obj_iff.mpr ⟨hnd, (wfVM_iff o).mp hwm⟩)

/-! ## Structure lemmas for the idempotence of `sort_exports` -/

theorem groupOf_append (p : String → Bool) (A B : JMap) :
    (((A ++ B).filter (fun e => p e.1)).map (fun e => e.1)) =
      ((A.filter (fun e => p e.1)).map (fun e => e.1)) ++
        ((B.filter (fun e => p e.1)).map (fun e => e.1)) := by
  rw [List.filter_append, List.map_append]

theorem groupOf_all {p : String → Bool} {A : JMap} (h : ∀ k ∈ mapKeys A, p k = true) :
    ((A.filter (fun e => p e.1)).map (fun e => e.1)) = mapKeys A := by
  rw [List.filter_eq_self.mpr (fun e he => h e.1 (List.mem_map_of_mem _ he))]
  rfl

theorem groupOf_nil {p : String → Bool} {A : JMap} (h : ∀ k ∈ mapKeys A, p k = false) :
    ((A.filter (fun e => p e.1)).map (fun e => e.1)) = [] := by
  rw [List.filter_eq_nil_iff.mpr ?_]
  · rfl
  · intro e he
    rw [h e.1 (List.mem_map_of_mem _ he)]
    simp

theorem defaultLastOf_append : ∀ (A B : JMap),
    defaultLastOf (A ++ B) = (defaultLastOf B).or (defaultLastOf A)
  | [], B => by simp [defaultLastOf]
  | (k, v) :: A, B => by
    rw [List.cons_append, defaultLastOf, defaultLastOf_append A B, defaultLastOf,
      Option.or_assoc]

theorem defaultLastOf_none_of : ∀ (A : JMap),
    (∀ p ∈ A, (!isPathKey p.1 && isDefaultKey p.1) = false) → defaultLastOf A = none
  | [], _ => rfl
  | (k, v) :: A, h => by
    rw [defaultLastOf, defaultLastOf_none_of A (fun q hq => h q (List.mem_cons_of_mem _ hq))]
    have hc := h (k, v) (List.mem_cons_self _ _)
    simp only at hc
    simp [hc]

theorem mem_SP_path {m : JMap} {k : String} (hk : k ∈ sortByLe strLe (pathsOf m)) :
    isPathKey k = true := mem_pathsOf ((sortByLe_perm strLe _).subset hk)

theorem mem_ST_facts {m : JMap} {k : String} (hk : k ∈ sortByLe strLe (typesOf m)) :
    isPathKey k = false ∧ isDefaultKey k = false ∧ isTypesKey k = true :=
  mem_typesOf ((sortByLe_perm strLe _).subset hk)

theorem mem_SO_facts {m : JMap} {k : String} (hk : k ∈ sortByLe strLe (othersOf m)) :
    isPathKey k = false ∧ isDefaultKey k = false ∧ isTypesKey k = false :=
  mem_othersOf ((sortByLe_perm strLe _).subset hk)

theorem mem_SP_keys {m : JMap} {k : String} (hk : k ∈ sortByLe strLe (pathsOf m)) :
    k ∈ mapKeys m :=
  mem_groupOf_keys (fun q => isPathKey q) ((sortByLe_perm strLe _).subset hk)

theorem mem_ST_keys {m : JMap} {k : String} (hk : k ∈ sortByLe strLe (typesOf m)) :
    k ∈ mapKeys m :=
  mem_groupOf_keys (fun q => !isPathKey q && !isDefaultKey q && isTypesKey q)
    ((sortByLe_perm strLe _).subset hk)

theorem mem_SO_keys {m : JMap} {k : String} (hk : k ∈ sortByLe strLe (othersOf m)) :
    k ∈ mapKeys m :=
  mem_groupOf_keys (fun q => !isPathKey q && !isDefaultKey q && !isTypesKey q)
    ((sortByLe_perm strLe _).subset hk)

theorem SP_nodup {m : JMap} (hnd : (mapKeys m).Nodup) :
    (sortByLe strLe (pathsOf m)).Nodup :=
  sortByLe_nodup (groupOf_keys_nodup hnd (fun k => isPathKey k))

theorem ST_nodup {m : JMap} (hnd : (mapKeys m).Nodup) :
    (sortByLe strLe (typesOf m)).Nodup :=
  sortByLe_nodup (groupOf_keys_nodup hnd
    (fun k => !isPathKey k && !isDefaultKey k && isTypesKey k))

theorem SO_nodup {m : JMap} (hnd : (mapKeys m).Nodup) :
    (sortByLe strLe (othersOf m)).Nodup :=
  sortByLe_nodup (groupOf_keys_nodup hnd
    (fun k => !isPathKey k && !isDefaultKey k && !isTypesKey k))

theorem mapKeys_sort_exports (m : JMap) (hnd : (mapKeys m).Nodup) :
    mapKeys (sort_exports m) =
      sortByLe strLe (pathsOf m) ++ (sortByLe strLe (typesOf m) ++
        (sortByLe strLe (othersOf m) ++
          (match defaultLastOf m with | some p => [p.1] | none => []))) := by
  have hkm' : mapKeys (sortExportsPathEntries m) = mapKeys m :=
    mapKeys_sortExportsPathEntries m
  rw [sort_exports_eq m hnd]
  simp only [mapKeys, List.map_append]
  have hP := mapKeys_selectKeys_all_present (sortExportsPathEntries m) _
    (fun k hk => by rw [hkm']; exact mem_SP_keys hk)
  have hT := mapKeys_selectKeys_all_present (sortExportsPathEntries m) _
    (fun k hk => by rw [hkm']; exact mem_ST_keys hk)
  have hO := mapKeys_selectKeys_all_present (sortExportsPathEntries m) _
    (fun k hk => by rw [hkm']; exact mem_SO_keys hk)
  simp only [mapKeys] at hP hT hO
  rw [hP, hT, hO]
  cases defaultLastOf m with
  | none => rfl
  | some p => rfl

theorem sort_exports_keys_perm (m : JMap) (hnd : (mapKeys m).Nodup) :
    (mapKeys (sort_exports m)).Perm (mapKeys m) := by
  rw [mapKeys_sort_exports m hnd]
  refine List.Perm.trans ?_ (exports_groups_perm m hnd)
  exact List.Perm.append (sortByLe_perm _ _) (List.Perm.append (sortByLe_perm _ _)
    (List.Perm.append (sortByLe_perm _ _) (List.Perm.refl _)))

theorem sort_exports_keys_nodup (m : JMap) (hnd : (mapKeys m).Nodup) :
    (mapKeys (sort_exports m)).Nodup :=
  (sort_exports_keys_perm m hnd).nodup_iff.mpr hnd

theorem mem_sort_exports {m : JMap} (hnd : (mapKeys m).Nodup) {k : String} {v : JValue}
    (hp : (k, v) ∈ sort_exports m) :
    ∃ w, (k, w) ∈ m ∧ (v = w ∨ v = sortExportsValue w) := by
  have hfrom : ∀ {q : String} {u : JValue},
      mapGet (sortExportsPathEntries m) q = some u →
      ∃ w, (q, w) ∈ m ∧ (u = w ∨ u = sortExportsValue w) := by
    intro q u hg
    rw [mapGet_sortExportsPathEntries m q] at hg
    cases hw : mapGet m q with
    | none => rw [hw] at hg; cases hg
    | some w =>
      rw [hw] at hg
      simp only [Option.map_some'] at hg
      refine ⟨w, mapGet_mem hw, ?_⟩
      by_cases hq : isPathKey q = true
      · right
        rw [← Option.some.inj hg, if_pos hq]
      · left
        rw [← Option.some.inj hg, if_neg hq]
  rw [sort_exports_eq m hnd] at hp
  rcases List.mem_append.mp hp with h1 | h234
  · exact hfrom (mem_selectKeys.mp h1).2
  rcases List.mem_append.mp h234 with h2 | h34
  · exact hfrom (mem_selectKeys.mp h2).2
  rcases List.mem_append.mp h34 with h3 | h4
  · exact hfrom (mem_selectKeys.mp h3).2
  · cases hdl : defaultLastOf m with
    | none =>
      rw [hdl] at h4
      cases h4
    | some p =>
      obtain ⟨p1, p2⟩ := p
      rw [hdl] at h4
      simp only [List.mem_singleton] at h4
      obtain ⟨hk1, hv1⟩ := Prod.mk.injEq .. ▸ h4
      subst hk1
      subst hv1
      obtain ⟨hd, hg⟩ := defaultLastOf_some hnd hdl
      exact ⟨v, mapGet_mem hg, Or.inl rfl⟩

/-! ## Idempotence of `sort_exports` -/

theorem pathsOf_append (A B : JMap) : pathsOf (A ++ B) = pathsOf A ++ pathsOf B := by
  simp [pathsOf, List.filter_append]

theorem typesOf_append (A B : JMap) : typesOf (A ++ B) = typesOf A ++ typesOf B := by
  simp [typesOf, List.filter_append]

theorem othersOf_append (A B : JMap) : othersOf (A ++ B) = othersOf A ++ othersOf B := by
  simp [othersOf, List.filter_append]

theorem sort_exports_idem_of (m : JMap) (hnd : (mapKeys m).Nodup)
    (hpt : ∀ p ∈ m, sortExportsValue (sortExportsValue p.2) = sortExportsValue p.2) :
    sort_exports (sort_exports m) = sort_exports m := by
  have hkm' : mapKeys (sortExportsPathEntries m) = mapKeys m :=
    mapKeys_sortExportsPathEntries m
  have hndS : (mapKeys (sort_exports m)).Nodup := sort_exports_keys_nodup m hnd
  have hseq := sort_exports_eq m hnd
  have hkP : mapKeys (selectKeys (sortExportsPathEntries m) (sortByLe strLe (pathsOf m))) =
      sortByLe strLe (pathsOf m) :=
    mapKeys_selectKeys_all_present _ _ (fun k hk => by rw [hkm']; exact mem_SP_keys hk)
  have hkT : mapKeys (selectKeys (sortExportsPathEntries m) (sortByLe strLe (typesOf m))) =
      sortByLe strLe (typesOf m) :=
    mapKeys_selectKeys_all_present _ _ (fun k hk => by rw [hkm']; exact mem_ST_keys hk)
  have hkO : mapKeys (selectKeys (sortExportsPathEntries m) (sortByLe strLe (othersOf m))) =
      sortByLe strLe (othersOf m) :=
    mapKeys_selectKeys_all_present _ _ (fun k hk => by rw [hkm']; exact mem_SO_keys hk)
  -- the four groups of the sorted object
  have hDpaths : pathsOf (match defaultLastOf m with
      | some p => [p] | none => ([] : JMap)) = [] := by
    cases hdl : defaultLastOf m with
    | none => rfl
    | some p =>
      obtain ⟨p1, p2⟩ := p
      obtain ⟨hd, _⟩ := defaultLastOf_some hnd hdl
      simp only at hd
      have hp1 : p1 = "default" := by simpa [isDefaultKey] using hd
      apply groupOf_nil (A := [(p1, p2)])
      intro q hq
      simp only [mapKeys, List.map_cons, List.map_nil, List.mem_singleton] at hq
      rw [hq, hp1]
      decide
  have hDtypes : typesOf (match defaultLastOf m with
      | some p => [p] | none => ([] : JMap)) = [] := by
    cases hdl : defaultLastOf m with
    | none => rfl
    | some p =>
      obtain ⟨p1, p2⟩ := p
      obtain ⟨hd, _⟩ := defaultLastOf_some hnd hdl
      simp only at hd
      apply groupOf_nil (p := fun q => !isPathKey q && !isDefaultKey q && isTypesKey q)
        (A := [(p1, p2)])
      intro q hq
      simp only [mapKeys, List.map_cons, List.map_nil, List.mem_singleton] at hq
      rw [hq]
      simp [hd]
  have hDothers : othersOf (match defaultLastOf m with
      | some p => [p] | none => ([] : JMap)) = [] := by
    cases hdl : defaultLastOf m with
    | none => rfl
    | some p =>
      obtain ⟨p1, p2⟩ := p
      obtain ⟨hd, _⟩ := defaultLastOf_some hnd hdl
      simp only at hd
      apply groupOf_nil (p := fun q => !isPathKey q && !isDefaultKey q && !isTypesKey q)
        (A := [(p1, p2)])
      intro q hq
      simp only [mapKeys, List.map_cons, List.map_nil, List.mem_singleton] at hq
      rw [hq]
      simp [hd]
  have hpathsS : pathsOf (sort_exports m) = sortByLe strLe (pathsOf m) := by
    rw [hseq, pathsOf_append, pathsOf_append, pathsOf_append]
    have e1 : pathsOf (selectKeys (sortExportsPathEntries m)
        (sortByLe strLe (pathsOf m))) = sortByLe strLe (pathsOf m) := by
      have h := groupOf_all (p := fun q => isPathKey q)
        (A := selectKeys (sortExportsPathEntries m) (sortByLe strLe (pathsOf m)))
        (fun k hk => by rw [hkP] at hk; exact mem_SP_path hk)
      rw [hkP] at h
      exact h
    have e2 : pathsOf (selectKeys (sortExportsPathEntries m)
        (sortByLe strLe (typesOf m))) = [] :=
      groupOf_nil (fun k hk => by rw [hkT] at hk; exact (mem_ST_facts hk).1)
    have e3 : pathsOf (selectKeys (sortExportsPathEntries m)
        (sortByLe strLe (othersOf m))) = [] :=
      groupOf_nil (fun k hk => by rw [hkO] at hk; exact (mem_SO_facts hk).1)
    rw [e1, e2, e3, hDpaths]
    simp
  have htypesS : typesOf (sort_exports m) = sortByLe strLe (typesOf m) := by
    rw [hseq, typesOf_append, typesOf_append, typesOf_append]
    have e1 : typesOf (selectKeys (sortExportsPathEntries m)
        (sortByLe strLe (pathsOf m))) = [] :=
      groupOf_nil (p := fun q => !isPathKey q && !isDefaultKey q && isTypesKey q)
        (fun k hk => by
        rw [hkP] at hk
        simp [mem_SP_path hk])
    have e2 : typesOf (selectKeys (sortExportsPathEntries m)
        (sortByLe strLe (typesOf m))) = sortByLe strLe (typesOf m) := by
      have h := groupOf_all
        (p := fun q => !isPathKey q && !isDefaultKey q && isTypesKey q)
        (A := selectKeys (sortExportsPathEntries m) (sortByLe strLe (typesOf m)))
        (fun k hk => by
          rw [hkT] at hk
          obtain ⟨h1, h2, h3⟩ := mem_ST_facts hk
          simp [h1, h2, h3])
      rw [hkT] at h
      exact h
    have e3 : typesOf (selectKeys (sortExportsPathEntries m)
        (sortByLe strLe (othersOf m))) = [] :=
      groupOf_nil (p := fun q => !isPathKey q && !isDefaultKey q && isTypesKey q)
        (fun k hk => by
        rw [hkO] at hk
        obtain ⟨h1, h2, h3⟩ := mem_SO_facts hk
        simp [h1, h2, h3])
    rw [e1, e2, e3, hDtypes]
    simp
  have hothersS : othersOf (sort_exports m) = sortByLe strLe (othersOf m) := by
    rw [hseq, othersOf_append, othersOf_append, othersOf_append]
    have e1 : othersOf (selectKeys (sortExportsPathEntries m)
        (sortByLe strLe (pathsOf m))) = [] :=
      groupOf_nil (p := fun q => !isPathKey q && !isDefaultKey q && !isTypesKey q)
        (fun k hk => by
        rw [hkP] at hk
        simp [mem_SP_path hk])
    have e2 : othersOf (selectKeys (sortExportsPathEntries m)
        (sortByLe strLe (typesOf m))) = [] :=
      groupOf_nil (p := fun q => !isPathKey q && !isDefaultKey q && !isTypesKey q)
        (fun k hk => by
        rw [hkT] at hk
        obtain ⟨h1, h2, h3⟩ := mem_ST_facts hk
        simp [h1, h2, h3])
    have e3 : othersOf (selectKeys (sortExportsPathEntries m)
        (sortByLe strLe (othersOf m))) = sortByLe strLe (othersOf m) := by
      have h := groupOf_all
        (p := fun q => !isPathKey q && !isDefaultKey q && !isTypesKey q)
        (A := selectKeys (sortExportsPathEntries m) (sortByLe strLe (othersOf m)))
        (fun k hk => by
          rw [hkO] at hk
          obtain ⟨h1, h2, h3⟩ := mem_SO_facts hk
          simp [h1, h2, h3])
      rw [hkO] at h
      exact h
    rw [e1, e2, e3, hDothers]
    simp
  have hdlP : defaultLastOf (selectKeys (sortExportsPathEntries m)
      (sortByLe strLe (pathsOf m))) = none := by
    apply defaultLastOf_none_of
    intro p hp
    obtain ⟨k, v⟩ := p
    have hk := (mem_selectKeys.mp hp).1
    simp [mem_SP_path hk]
  have hdlT : defaultLastOf (selectKeys (sortExportsPathEntries m)
      (sortByLe strLe (typesOf m))) = none := by
    apply defaultLastOf_none_of
    intro p hp
    obtain ⟨k, v⟩ := p
    have hk := (mem_selectKeys.mp hp).1
    simp [(mem_ST_facts hk).2.1]
  have hdlO : defaultLastOf (selectKeys (sortExportsPathEntries m)
      (sortByLe strLe (othersOf m))) = none := by
    apply defaultLastOf_none_of
    intro p hp
    obtain ⟨k, v⟩ := p
    have hk := (mem_selectKeys.mp hp).1
    simp [(mem_SO_facts hk).2.1]
  have hdlS : defaultLastOf (sort_exports m) = defaultLastOf m := by
    rw [hseq, defaultLastOf_append, defaultLastOf_append, defaultLastOf_append]
    rw [hdlP, hdlT, hdlO]
    simp only [Option.or_none]
    cases hdl : defaultLastOf m with
    | none => rfl
    | some p =>
      obtain ⟨p1, p2⟩ := p
      obtain ⟨hd, _⟩ := defaultLastOf_some hnd hdl
      simp only at hd
      have hp1 : p1 = "default" := by simpa [isDefaultKey] using hd
      have hnp : isPathKey p1 = false := by rw [hp1]; decide
      show Option.or (defaultLastOf []) (if (!isPathKey p1 && isDefaultKey p1) = true
        then some (p1, p2) else none) = some (p1, p2)
      rw [hnp, hd]
      rfl
  -- lookups in the sorted object
  have hgetP : ∀ k ∈ sortByLe strLe (pathsOf m),
      mapGet (sort_exports m) k = mapGet (sortExportsPathEntries m) k := by
    intro k hk
    rw [hseq, mapGet_append]
    rw [mapGet_selectKeys _ (SP_nodup hnd) k, if_pos hk]
    obtain ⟨v, hv⟩ := mapGet_isSome_of_mem (by rw [hkm']; exact mem_SP_keys hk)
    rw [hv]
  have hgetT : ∀ k ∈ sortByLe strLe (typesOf m),
      mapGet (sort_exports m) k = mapGet (sortExportsPathEntries m) k := by
    intro k hk
    have hfacts := mem_ST_facts hk
    have hnotP : k ∉ sortByLe strLe (pathsOf m) := fun hmem => by
      have h := mem_SP_path hmem
      rw [hfacts.1] at h
      cases h
    rw [hseq, mapGet_append]
    rw [mapGet_selectKeys _ (SP_nodup hnd) k, if_neg hnotP]
    rw [mapGet_append]
    rw [mapGet_selectKeys _ (ST_nodup hnd) k, if_pos hk]
    obtain ⟨v, hv⟩ := mapGet_isSome_of_mem (by rw [hkm']; exact mem_ST_keys hk)
    rw [hv]
  have hgetO : ∀ k ∈ sortByLe strLe (othersOf m),
      mapGet (sort_exports m) k = mapGet (sortExportsPathEntries m) k := by
    intro k hk
    have hfacts := mem_SO_facts hk
    have hnotP : k ∉ sortByLe strLe (pathsOf m) := fun hmem => by
      have h := mem_SP_path hmem
      rw [hfacts.1] at h
      cases h
    have hnotT : k ∉ sortByLe strLe (typesOf m) := fun hmem => by
      have h := (mem_ST_facts hmem).2.2
      rw [hfacts.2.2] at h
      cases h
    rw [hseq, mapGet_append]
    rw [mapGet_selectKeys _ (SP_nodup hnd) k, if_neg hnotP]
    rw [mapGet_append]
    rw [mapGet_selectKeys _ (ST_nodup hnd) k, if_neg hnotT]
    rw [mapGet_append]
    rw [mapGet_selectKeys _ (SO_nodup hnd) k, if_pos hk]
    obtain ⟨v, hv⟩ := mapGet_isSome_of_mem (by rw [hkm']; exact mem_SO_keys hk)
    rw [hv]
  -- the three sorted blocks are reproduced unchanged
  have hblockP : selectKeys (sortExportsPathEntries (sort_exports m))
      (sortByLe strLe (pathsOf m)) =
      selectKeys (sortExportsPathEntries m) (sortByLe strLe (pathsOf m)) := by
    apply selectKeys_congr
    intro k hk
    rw [mapGet_sortExportsPathEntries, hgetP k hk, mapGet_sortExportsPathEntries]
    obtain ⟨w, hw⟩ := mapGet_isSome_of_mem (mem_SP_keys hk)
    rw [hw]
    have hpath := mem_SP_path hk
    simp only [Option.map_some', hpath, eq_self_iff_true, if_true]
    rw [show sortExportsValue (sortExportsValue w) = sortExportsValue w from
      hpt (k, w) (mapGet_mem hw)]
  have hblockT : selectKeys (sortExportsPathEntries (sort_exports m))
      (sortByLe strLe (typesOf m)) =
      selectKeys (sortExportsPathEntries m) (sortByLe strLe (typesOf m)) := by
    apply selectKeys_congr
    intro k hk
    rw [mapGet_sortExportsPathEntries, hgetT k hk, mapGet_sortExportsPathEntries]
    obtain ⟨w, hw⟩ := mapGet_isSome_of_mem (mem_ST_keys hk)
    rw [hw]
    have hpath := (mem_ST_facts hk).1
    simp only [Option.map_some', hpath, Bool.false_eq_true, if_false]
  have hblockO : selectKeys (sortExportsPathEntries (sort_exports m))
      (sortByLe strLe (othersOf m)) =
      selectKeys (sortExportsPathEntries m) (sortByLe strLe (othersOf m)) := by
    apply selectKeys_congr
    intro k hk
    rw [mapGet_sortExportsPathEntries, hgetO k hk, mapGet_sortExportsPathEntries]
    obtain ⟨w, hw⟩ := mapGet_isSome_of_mem (mem_SO_keys hk)
    rw [hw]
    have hpath := (mem_SO_facts hk).1
    simp only [Option.map_some', hpath, Bool.false_eq_true, if_false]
  -- assemble
  rw [sort_exports_eq (sort_exports m) hndS]
  rw [hpathsS, htypesS, hothersS, hdlS]
  rw [show sortByLe strLe (sortByLe strLe (pathsOf m)) = sortByLe strLe (pathsOf m) from
    sortByLe_eq_self _ (sortByLe_strLe_sorted _)]
  rw [show sortByLe strLe (sortByLe strLe (typesOf m)) = sortByLe strLe (typesOf m) from
    sortByLe_eq_self _ (sortByLe_strLe_sorted _)]
  rw [show sortByLe strLe (sortByLe strLe (othersOf m)) = sortByLe strLe (othersOf m) from
    sortByLe_eq_self _ (sortByLe_strLe_sorted _)]
  rw [hblockP, hblockT, hblockO]
  rw [← hseq]

mutual

theorem sortExportsValue_wf : ∀ v : JValue, wfV v = true →
    wfV (sortExportsValue v) = true
  | .null, h => h
  | .bool b, h => h
  | .num n, h => h
  | .str s, h => h
  | .arr es, h => h
  | .obj nested, h => by
    obtain ⟨hnd, hwm⟩ := wfV_obj_iff.mp h
    show wfV (.obj (sort_exports nested)) = true
    rw [wfV_obj_iff]
    refine ⟨sort_exports_keys_nodup nested hnd, ?_⟩
    intro p hp
    obtain ⟨k, v⟩ := p
    obtain ⟨w, hw, hcase⟩ := mem_sort_exports hnd hp
    show wfV v = true
    rcases hcase with he | he
    · rw [he]
      exact hwm (k, w) hw
    · rw [he]
      exact sortExportsVals_wf nested hwm (k, w) hw

theorem sortExportsVals_wf : ∀ (m : JMap), (∀ p ∈ m, wfV p.2 = true) →
    ∀ p ∈ m, wfV (sortExportsValue p.2) = true
  | [], _, p, hp => absurd hp (by simp)
  | (k, u) :: rest, h, p, hp => by
    rcases List.mem_cons.mp hp with he | hm
    · rw [he]
      exact sortExportsValue_wf u (h (k, u) (List.mem_cons_self _ _))
    · exact sortExportsVals_wf rest (fun q hq => h q (List.mem_cons_of_mem _ hq)) p hm

end

mutual

theorem sortExportsValue_idem : ∀ v : JValue, wfV v = true →
    sortExportsValue (sortExportsValue v) = sortExportsValue v
  | .null, _ => rfl
  | .bool b, _ => rfl
  | .num n, _ => rfl
  | .str s, _ => rfl
  | .arr es, _ => rfl
  | .obj nested, h => by
    obtain ⟨hnd, hwm⟩ := wfV_obj_iff.mp h
    show JValue.obj (sort_exports (sort_exports nested)) = .obj (sort_exports nested)
    rw [sort_exports_idem_of nested hnd (sortExportsVals_idem nested hwm)]

theorem sortExportsVals_idem : ∀ (m : JMap), (∀ p ∈ m, wfV p.2 = true) →
    ∀ p ∈ m, sortExportsValue (sortExportsValue p.2) = sortExportsValue p.2
  | [], _, p, hp => absurd hp (by simp)
  | (k, u) :: rest, h, p, hp => by
    rcases List.mem_cons.mp hp with he | hm
    · rw [he]
      exact sortExportsValue_idem u (h (k, u) (List.mem_cons_self _ _))
    · exact sortExportsVals_idem rest (fun q hq => h q (List.mem_cons_of_mem _ hq)) p hm

end

theorem sort_exports_idem (o : JMap) (hnd : (mapKeys o).Nodup) (hwm : wfVM o = true) :
    sort_exports (sort_exports o) = sort_exports o :=
  sort_exports_idem_of o hnd (sortExportsVals_idem o ((wfVM_iff o).mp hwm))

theorem wf_sort_exports (o : JMap) (hnd : (mapKeys o).Nodup) (hwm : wfVM o = true) :
    wfV (.obj (sort_exports o)) = true :=
  sortExportsValue_wf (.obj o) (wfV_obj_iff.mpr ⟨hnd, (wfVM_iff o).mp hwm⟩)

/-! ## Idempotence and wellformedness of the per-field transforms -/

theorem schema_good : ∀ r ∈ schemaTable, goodTB r.2.2 = true := by decide

theorem applyFieldTransform_idem (t : FieldTransform) (v : JValue)
    (hg : goodTB t = true) (hw : wfV v = true) :
    applyFieldTransform t (applyFieldTransform t v) = applyFieldTransform t v := by
  cases t with
  | keep => rfl
  | alphabetical =>
    cases v with
    | obj o =>
      obtain ⟨hnd, _⟩ := wfV_obj_iff.mp hw
      show JValue.obj (sort_object_alphabetically (sort_object_alphabetically o)) =
        JValue.obj (sort_object_alphabetically o)
      rw [sort_object_alphabetically_idem o hnd]
    | null => rfl
    | bool b => rfl
    | num n => rfl
    | str s => rfl
    | arr a => rfl
  | recursiveSort =>
    cases v with
    | obj o =>
      obtain ⟨hnd, hvals⟩ := wfV_obj_iff.mp hw
      show JValue.obj (sort_object_recursive (sort_object_recursive o)) =
        JValue.obj (sort_object_recursive o)
      rw [sort_object_recursive_idem o hnd ((wfVM_iff o).mpr hvals)]
    | null => rfl
    | bool b => rfl
    | num n => rfl
    | str s => rfl
    | arr a => rfl
  | uniqueArray =>
    cases v with
    | arr a =>
      show JValue.arr (sort_array_unique (sort_array_unique a)) =
        JValue.arr (sort_array_unique a)
      rw [sort_array_unique_idem a]
    | null => rfl
    | bool b => rfl
    | num n => rfl
    | str s => rfl
    | obj o => rfl
  | keyOrder order =>
    have hord : order.Nodup := (keysNodupB_iff order).mp hg
    cases v with
    | obj o =>
      obtain ⟨hnd, _⟩ := wfV_obj_iff.mp hw
      show JValue.obj (sort_object_by_key_order (sort_object_by_key_order o order) order) =
        JValue.obj (sort_object_by_key_order o order)
      rw [sort_object_by_key_order_idem o order hnd hord]
    | null => rfl
    | bool b => rfl
    | num n => rfl
    | str s => rfl
    | arr a => rfl
  | people =>
    cases v with
    | obj o =>
      obtain ⟨hnd, _⟩ := wfV_obj_iff.mp hw
      show JValue.obj (sort_people_object (sort_people_object o)) =
        JValue.obj (sort_people_object o)
      rw [sort_people_object_idem o hnd]
    | null => rfl
    | bool b => rfl
    | num n => rfl
    | str s => rfl
    | arr a => rfl
  | peopleArray =>
    cases v with
    | arr a =>
      have hwl : wfVL a = true := by rw [wfV_arr] at hw; exact hw
      show JValue.arr ((a.map _).map _) = JValue.arr (a.map _)
      rw [List.map_map]
      congr 1
      apply List.map_congr_left
      intro x hx
      have hwx : wfV x = true := (wfVL_iff a).mp hwl x hx
      cases x with
      | obj o =>
        obtain ⟨hnd, _⟩ := wfV_obj_iff.mp hwx
        show JValue.obj (sort_people_object (sort_people_object o)) =
          JValue.obj (sort_people_object o)
        rw [sort_people_object_idem o hnd]
      | null => rfl
      | bool b => rfl
      | num n => rfl
      | str s => rfl
      | arr a2 => rfl
    | null => rfl
    | bool b => rfl
    | num n => rfl
    | str s => rfl
    | obj o => rfl
  | exportsSort =>
    cases v with
    | obj o =>
      obtain ⟨hnd, hvals⟩ := wfV_obj_iff.mp hw
      show JValue.obj (sort_exports (sort_exports o)) = JValue.obj (sort_exports o)
      rw [sort_exports_idem o hnd ((wfVM_iff o).mpr hvals)]
    | null => rfl
    | bool b => rfl
    | num n => rfl
    | str s => rfl
    | arr a => rfl

theorem applyFieldTransform_wf (t : FieldTransform) (v : JValue)
    (hg : goodTB t = true) (hw : wfV v = true) :
    wfV (applyFieldTransform t v) = true := by
  cases t with
  | keep => exact hw
  | alphabetical =>
    cases v with
    | obj o =>
      obtain ⟨hnd, hvals⟩ := wfV_obj_iff.mp hw
      show wfV (.obj (sort_object_alphabetically o)) = true
      rw [alpha_eq_rebuild, wfV_obj_iff]
      exact ⟨mapKeys_rebuild_nodup o hnd,
        (wfVM_iff _).mp (wfVM_rebuild hnd ((wfVM_iff o).mpr hvals))⟩
    | null => exact hw
    | bool b => exact hw
    | num n => exact hw
    | str s => exact hw
    | arr a => exact hw
  | recursiveSort =>
    cases v with
    | obj o =>
      obtain ⟨hnd, hvals⟩ := wfV_obj_iff.mp hw
      exact wf_sort_object_recursive o hnd ((wfVM_iff o).mpr hvals)
    | null => exact hw
    | bool b => exact hw
    | num n => exact hw
    | str s => exact hw
    | arr a => exact hw
  | uniqueArray =>
    cases v with
    | arr a =>
      show wfV (.arr (sort_array_unique a)) = true
      rw [wfV_arr, wfVL_iff]
      intro e he
      simp only [sort_array_unique, List.mem_map] at he
      obtain ⟨s, _, he2⟩ := he
      rw [← he2]
      rfl
    | null => exact hw
    | bool b => exact hw
    | num n => exact hw
    | str s => exact hw
    | obj o => exact hw
  | keyOrder order =>
    have hord : order.Nodup := (keysNodupB_iff order).mp hg
    cases v with
    | obj o =>
      obtain ⟨hnd, hvals⟩ := wfV_obj_iff.mp hw
      show wfV (.obj (sort_object_by_key_order o order)) = true
      rw [wfV_obj_iff]
      exact ⟨key_order_keys_nodup o order hnd hord,
        (wfVM_iff _).mp (wfVM_key_order order hnd hord ((wfVM_iff o).mpr hvals))⟩
    | null => exact hw
    | bool b => exact hw
    | num n => exact hw
    | str s => exact hw
    | arr a => exact hw
  | people =>
    cases v with
    | obj o =>
      obtain ⟨hnd, hvals⟩ := wfV_obj_iff.mp hw
      show wfV (.obj (sort_people_object o)) = true
      rw [wfV_obj_iff]
      exact ⟨sort_people_object_keys_nodup o hnd,
        (wfVM_iff _).mp (wfVM_sort_people hnd ((wfVM_iff o).mpr hvals))⟩
    | null => exact hw
    | bool b => exact hw
    | num n => exact hw
    | str s => exact hw
    | arr a => exact hw
  | peopleArray =>
    cases v with
    | arr a =>
      have hwl : wfVL a = true := by rw [wfV_arr] at hw; exact hw
      show wfV (.arr (a.map _)) = true
      rw [wfV_arr, wfVL_iff]
      intro e he
      obtain ⟨x, hx, hxe⟩ := List.mem_map.mp he
      have hwx : wfV x = true := (wfVL_iff a).mp hwl x hx
      rw [← hxe]
      cases x with
      | obj o =>
        obtain ⟨hnd, hvals⟩ := wfV_obj_iff.mp hwx
        show wfV (.obj (sort_people_object o)) = true
        rw [wfV_obj_iff]
        exact ⟨sort_people_object_keys_nodup o hnd,
          (wfVM_iff _).mp (wfVM_sort_people hnd ((wfVM_iff o).mpr hvals))⟩
      | null => exact hwx
      | bool b => exact hwx
      | num n => exact hwx
      | str s => exact hwx
      | arr a2 => exact hwx
    | null => exact hw
    | bool b => exact hw
    | num n => exact hw
    | str s => exact hw
    | obj o => exact hw
  | exportsSort =>
    cases v with
    | obj o =>
      obtain ⟨hnd, hvals⟩ := wfV_obj_iff.mp hw
      exact wf_sort_exports o hnd ((wfVM_iff o).mpr hvals)
    | null => exact hw
    | bool b => exact hw
    | num n => exact hw
    | str s => exact hw
    | arr a => exact hw

/-! ## Idempotence of `sort_object_keys` -/

theorem knownOf_append (A B : JMap) : knownOf (A ++ B) = knownOf A ++ knownOf B := by
  simp [knownOf, List.filterMap_append]

theorem publicOf_append (A B : JMap) : publicOf (A ++ B) = publicOf A ++ publicOf B := by
  simp [publicOf, List.filter_append]

theorem privateOf_append (A B : JMap) : privateOf (A ++ B) = privateOf A ++ privateOf B := by
  simp [privateOf, List.filter_append]

theorem mem_knownOf {m : JMap} {trip : Nat × String × JValue} (h : trip ∈ knownOf m) :
    ∃ v t, (trip.2.1, v) ∈ m ∧ fieldSchema trip.2.1 = some (trip.1, t) ∧
      trip.2.2 = applyFieldTransform t v := by
  simp only [knownOf, List.mem_filterMap] at h
  obtain ⟨p, hp, hmap⟩ := h
  obtain ⟨k0, v0⟩ := p
  cases hf : fieldSchema k0 with
  | none => rw [hf] at hmap; cases hmap
  | some it =>
    obtain ⟨i0, t0⟩ := it
    rw [hf] at hmap
    simp only [Option.map_some'] at hmap
    obtain ⟨trip1, trip2⟩ := trip
    obtain ⟨h1, h23⟩ := Prod.mk.injEq .. ▸ (Option.some.inj hmap)
    obtain ⟨trip21, trip22⟩ := trip2
    obtain ⟨h2, h3⟩ := Prod.mk.injEq .. ▸ h23
    subst h1
    subst h2
    subst h3
    exact ⟨v0, t0, hp, hf, rfl⟩

theorem mem_publicOf {m : JMap} {p : String × JValue} (h : p ∈ publicOf m) :
    p ∈ m ∧ fieldSchema p.1 = none ∧ strStartsWithChar p.1 '_' = false := by
  obtain ⟨hm, hc⟩ := List.mem_filter.mp h
  obtain ⟨h1, h2⟩ := Bool.and_eq_true .. ▸ hc
  exact ⟨hm, Option.isNone_iff_eq_none.mp h1, by simpa using h2⟩

theorem mem_privateOf {m : JMap} {p : String × JValue} (h : p ∈ privateOf m) :
    p ∈ m ∧ fieldSchema p.1 = none ∧ strStartsWithChar p.1 '_' = true := by
  obtain ⟨hm, hc⟩ := List.mem_filter.mp h
  obtain ⟨h1, h2⟩ := Bool.and_eq_true .. ▸ hc
  exact ⟨hm, Option.isNone_iff_eq_none.mp h1, h2⟩

theorem sort_object_keys_keys_perm (m : JMap) (hnd : (mapKeys m).Nodup) :
    (mapKeys (sort_object_keys m)).Perm (mapKeys m) := by
  rw [sort_object_keys_eq m hnd]
  simp only [mapKeys, List.map_append, List.map_map]
  refine List.Perm.trans ?_ (bucket_keys_perm m)
  refine List.Perm.append ?_ (List.Perm.append ?_ ?_)
  · have := (sortByLe_perm (fun a b : Nat × String × JValue => Nat.ble a.1 b.1)
      (knownOf m)).map (fun p => p.2.1)
    simpa [Function.comp] using this
  · exact (sortByLe_perm _ _).map _
  · exact (sortByLe_perm _ _).map _

theorem sort_object_keys_keys_nodup (m : JMap) (hnd : (mapKeys m).Nodup) :
    (mapKeys (sort_object_keys m)).Nodup :=
  (sort_object_keys_keys_perm m hnd).nodup_iff.mpr hnd

theorem sort_object_keys_idem (m : JMap) (hnd : (mapKeys m).Nodup) (hwm : wfVM m = true) :
    sort_object_keys (sort_object_keys m) = sort_object_keys m := by
  have hndS := sort_object_keys_keys_nodup m hnd
  -- the buckets of the sorted object
  have hknownS : knownOf (sort_object_keys m) =
      sortByLe (fun a b => Nat.ble a.1 b.1) (knownOf m) := by
    rw [sort_object_keys_eq m hnd, knownOf_append, knownOf_append]
    have eP : knownOf (sortByLe (fun a b => strLe a.1 b.1) (publicOf m)) = [] := by
      rw [knownOf, List.filterMap_eq_nil_iff]
      intro p hp
      rw [(mem_publicOf ((sortByLe_perm _ _).subset hp)).2.1]
      rfl
    have eQ : knownOf (sortByLe (fun a b => strLe a.1 b.1) (privateOf m)) = [] := by
      rw [knownOf, List.filterMap_eq_nil_iff]
      intro p hp
      rw [(mem_privateOf ((sortByLe_perm _ _).subset hp)).2.1]
      rfl
    have eK : knownOf ((sortByLe (fun a b => Nat.ble a.1 b.1) (knownOf m)).map
        (fun p => (p.2.1, p.2.2))) =
        sortByLe (fun a b => Nat.ble a.1 b.1) (knownOf m) := by
      rw [knownOf, List.filterMap_map]
      apply filterMap_id_of
      intro trip htrip
      obtain ⟨v, t, hv, hf, hw⟩ := mem_knownOf ((sortByLe_perm _ _).subset htrip)
      obtain ⟨i0, k0, w0⟩ := trip
      simp only at hv hf hw
      show (fieldSchema k0).map (fun it => (it.1, k0, applyFieldTransform it.2 w0)) =
        some (i0, k0, w0)
      rw [hf]
      simp only [Option.map_some']
      rw [hw]
      rw [applyFieldTransform_idem t v (schema_good _ (fieldSchema_mem hf))
        ((wfVM_iff m).mp hwm (k0, v) hv)]
    rw [eK, eP, eQ]
    simp
  have hpubS : publicOf (sort_object_keys m) =
      sortByLe (fun a b => strLe a.1 b.1) (publicOf m) := by
    rw [sort_object_keys_eq m hnd, publicOf_append, publicOf_append]
    have eK : publicOf ((sortByLe (fun a b => Nat.ble a.1 b.1) (knownOf m)).map
        (fun p => (p.2.1, p.2.2))) = [] := by
      rw [publicOf, List.filter_eq_nil_iff]
      intro p hp
      obtain ⟨trip, htrip, he⟩ := List.mem_map.mp hp
      obtain ⟨v, t, hv, hf, _⟩ := mem_knownOf ((sortByLe_perm _ _).subset htrip)
      rw [← he]
      simp [hf]
    have eP : publicOf (sortByLe (fun a b => strLe a.1 b.1) (publicOf m)) =
        sortByLe (fun a b => strLe a.1 b.1) (publicOf m) := by
      rw [publicOf, List.filter_eq_self]
      intro p hp
      obtain ⟨_, h1, h2⟩ := mem_publicOf ((sortByLe_perm _ _).subset hp)
      simp [h1, h2]
    have eQ : publicOf (sortByLe (fun a b => strLe a.1 b.1) (privateOf m)) = [] := by
      rw [publicOf, List.filter_eq_nil_iff]
      intro p hp
      obtain ⟨_, h1, h2⟩ := mem_privateOf ((sortByLe_perm _ _).subset hp)
      simp [h1, h2]
    rw [eK, eP, eQ]
    simp
  have hprivS : privateOf (sort_object_keys m) =
      sortByLe (fun a b => strLe a.1 b.1) (privateOf m) := by
    rw [sort_object_keys_eq m hnd, privateOf_append, privateOf_append]
    have eK : privateOf ((sortByLe (fun a b => Nat.ble a.1 b.1) (knownOf m)).map
        (fun p => (p.2.1, p.2.2))) = [] := by
      rw [privateOf, List.filter_eq_nil_iff]
      intro p hp
      obtain ⟨trip, htrip, he⟩ := List.mem_map.mp hp
      obtain ⟨v, t, hv, hf, _⟩ := mem_knownOf ((sortByLe_perm _ _).subset htrip)
      rw [← he]
      simp [hf]
    have eP : privateOf (sortByLe (fun a b => strLe a.1 b.1) (publicOf m)) = [] := by
      rw [privateOf, List.filter_eq_nil_iff]
      intro p hp
      obtain ⟨_, h1, h2⟩ := mem_publicOf ((sortByLe_perm _ _).subset hp)
      simp [h1, h2]
    have eQ : privateOf (sortByLe (fun a b => strLe a.1 b.1) (privateOf m)) =
        sortByLe (fun a b => strLe a.1 b.1) (privateOf m) := by
      rw [privateOf, List.filter_eq_self]
      intro p hp
      obtain ⟨_, h1, h2⟩ := mem_privateOf ((sortByLe_perm _ _).subset hp)
      simp [h1, h2]
    rw [eK, eP, eQ]
    simp
  rw [sort_object_keys_eq (sort_object_keys m) hndS]
  rw [hknownS, hpubS, hprivS]
  rw [sortByLe_eq_self _ (sortByLe_pairwise nat_ble_total nat_ble_trans (knownOf m))]
  rw [sortByLe_eq_self _ (sortByLe_pairwise pair_strLe_total pair_strLe_trans (publicOf m))]
  rw [sortByLe_eq_self _ (sortByLe_pairwise pair_strLe_total pair_strLe_trans (privateOf m))]
  rw [← sort_object_keys_eq m hnd]

theorem wf_sort_object_keys (m : JMap) (hnd : (mapKeys m).Nodup) (hwm : wfVM m = true) :
    wfV (.obj (sort_object_keys m)) = true := by
  rw [wfV_obj_iff]
  refine ⟨sort_object_keys_keys_nodup m hnd, ?_⟩
  intro p hp
  rw [sort_object_keys_eq m hnd] at hp
  rcases List.mem_append.mp hp with h1 | h23
  · obtain ⟨trip, htrip, he⟩ := List.mem_map.mp h1
    obtain ⟨v, t, hv, hf, hw⟩ := mem_knownOf ((sortByLe_perm _ _).subset htrip)
    rw [← he]
    show wfV trip.2.2 = true
    rw [hw]
    exact applyFieldTransform_wf t v (schema_good _ (fieldSchema_mem hf))
      ((wfVM_iff m).mp hwm _ hv)
  rcases List.mem_append.mp h23 with h2 | h3
  · exact (wfVM_iff m).mp hwm p (mem_publicOf ((sortByLe_perm _ _).subset h2)).1
  · exact (wfVM_iff m).mp hwm p (mem_privateOf ((sortByLe_perm _ _).subset h3)).1

/-! ## Claim C2 -/

theorem sort_package_json_eq (input : String) :
    sort_package_json input =
      (match parseJson input with
      | none => .error .parseError
      | some v => .ok (String.mk (renderValue 0 (sortTop v) ++ ['\n']))) := by
  unfold sort_package_json
  cases parseJson input with
  | none => rfl
  | some v => cases v <;> rfl

theorem run_on_rendered (w : JValue) (hwf : wfV w = true) (hfix : sortTop w = w) :
    sort_package_json (String.mk (renderValue 0 w ++ ['\n'])) =
      .ok (String.mk (renderValue 0 w ++ ['\n'])) := by
  rw [sort_package_json_eq, parseJson_render w hwf]
  show Except.ok (String.mk (renderValue 0 (sortTop w) ++ ['\n'])) = _
  rw [hfix]

/-- **C2**: the canonicalization is idempotent at the text level: whenever
`sort_package_json` succeeds on the input text `x` with output `y`, running
it again on `y` succeeds and returns `y` unchanged —
`sort_package_json (sort_package_json x).unwrap = sort_package_json x`. -/
theorem C2_idempotence (x y : String) (h : sort_package_json x = .ok y) :
    sort_package_json y = .ok y := by
  rw [sort_package_json_eq x] at h
  cases hp : parseJson x with
  | none => rw [hp] at h; cases h
  | some v =>
    rw [hp] at h
    have hy : y = String.mk (renderValue 0 (sortTop v) ++ ['\n']) := (Except.ok.inj h).symm
    have hwfv : wfV v = true := parseJson_wf hp
    have hwfs : wfV (sortTop v) = true := by
      cases v with
      | obj o =>
        obtain ⟨hnd, hvals⟩ := wfV_obj_iff.mp hwfv
        exact wf_sort_object_keys o hnd ((wfVM_iff o).mpr hvals)
      | null => exact hwfv
      | bool b => exact hwfv
      | num n => exact hwfv
      | str s => exact hwfv
      | arr es => exact hwfv
    have hfix2 : sortTop (sortTop v) = sortTop v := by
      cases v with
      | obj o =>
        obtain ⟨hnd, hvals⟩ := wfV_obj_iff.mp hwfv
        show JValue.obj (sort_object_keys (sort_object_keys o)) =
          JValue.obj (sort_object_keys o)
        rw [sort_object_keys_idem o hnd ((wfVM_iff o).mpr hvals)]
      | null => rfl
      | bool b => rfl
      | num n => rfl
      | str s => rfl
      | arr es => rfl
    rw [hy]
    exact run_on_rendered _ hwfs hfix2

/-- Witness for C2 at a concrete manifest text: sorting `{"b":1,"a":2}`
yields the pretty two-line object, and sorting that output returns it
unchanged. -/
theorem C2_witness :
    sort_package_json "\x7b\x22b\x22:1,\x22a\x22:2\x7d" =
      .ok "\x7b\n  \x22a\x22: 2,\n  \x22b\x22: 1\n\x7d\n" ∧
    sort_package_json "\x7b\n  \x22a\x22: 2,\n  \x22b\x22: 1\n\x7d\n" =
      .ok "\x7b\n  \x22a\x22: 2,\n  \x22b\x22: 1\n\x7d\n" :=
  ⟨by decide, C2_idempotence "\x7b\x22b\x22:1,\x22a\x22:2\x7d"
    "\x7b\n  \x22a\x22: 2,\n  \x22b\x22: 1\n\x7d\n" (by decide)⟩

end SortPackageJson
